import Mathlib

set_option maxHeartbeats 1000000
set_option maxRecDepth 200000

namespace verilog

variable {σ : Type}

/-- Tokens of the lexed source sequence handed to the conditional-flow
enumerator.  Ordinary source tokens carry an opaque payload; the directive
keywords mirror the verilog preprocessor token enums referenced by
FlowTree (PP_ifdef, PP_ifndef, PP_elsif, PP_else, PP_endif) and
PP_Identifier is the macro-name token that follows an opening or
alternative-branch directive. -/
inductive Tok where
  | other (payload : Nat)
  | PP_ifdef
  | PP_ifndef
  | PP_elsif
  | PP_else
  | PP_endif
  | PP_Identifier (name : Nat)
deriving DecidableEq, Repr

/-- Models FlowTree::IsConditional: true exactly on the branch-point
directives, the ones that test a macro (ifdef / ifndef / elsif). -/
def Tok.IsConditional : Tok → Bool
  | .PP_ifdef | .PP_ifndef | .PP_elsif => true
  | _ => false

/-- Modelled from the spec: branch polarity of a conditional directive
(the implementation file defining this behavior is not in the sources;
only flow_tree.h is).  Assuming the tested macro defined selects the
branch body for an ifdef or elsif test, and selects the
next-alternative/close successor for an ifndef test. -/
def Tok.polarity : Tok → Bool
  | .PP_ifndef => false
  | _ => true

/-- The error kinds of the extraction / registry phase, named as in the
specification's error taxonomy.  They model the absl::Status failures
returned by FlowTree::GenerateControlFlowTree. -/
inductive FlowError where
  | CapacityError
  | MissingIdentifierError
  | UnmatchedAlternativeError
  | BranchAfterFinalError
  | UnmatchedCloseError
  | MissingCloseError
deriving DecidableEq, Repr

/-- Result status of GenerateVariants, modelling absl::Status. -/
inductive Status where
  | ok
  | error (e : FlowError)
deriving DecidableEq, Repr

/-- The macro registry: models the fields conditional_macro_id_
(macro name to dense integer ID) and conditional_macros_counter_ of
FlowTree.  Macro names are opaque (modelled as Nat). -/
structure Registry where
  conditional_macro_id : List (Nat × Nat)
  conditional_macros_counter : Nat
deriving DecidableEq, Repr

/-- Modelled from the spec: AddMacroOfConditionalToMap / idFor.  Returns
the existing ID if the name was seen before, otherwise allocates the next
free ID; fails with a capacity error once the number of distinct names
would exceed the fixed bit-vector width (128). -/
def Registry.idFor (r : Registry) (name : Nat) : Except FlowError (Registry × Nat) :=
  match r.conditional_macro_id.lookup name with
  | some i => .ok (r, i)
  | none =>
      if r.conditional_macros_counter < 128 then
        .ok (⟨(name, r.conditional_macros_counter) :: r.conditional_macro_id,
              r.conditional_macros_counter + 1⟩, r.conditional_macros_counter)
      else .error .CapacityError

/-- A conditional block still open on the extraction stack: its closing
directive has not been seen yet. -/
structure OpenBlock where
  openPos : Nat
  openIsIfndef : Bool
  elsif_iterators : List Nat
  else_iterator : Option Nat
deriving DecidableEq, Repr

/-- One parsed unit of conditional structure, modelling the
ConditionalBlock struct of flow_tree.h.  The header's separate
ifdef_iterator / ifndef_iterator fields are modelled as the position of
the opening directive plus a flag recording which keyword opened the
block. -/
structure ConditionalBlock where
  openPos : Nat
  openIsIfndef : Bool
  elsif_iterators : List Nat
  else_iterator : Option Nat
  endif_iterator : Nat
deriving DecidableEq, Repr

/-- Modelled from the spec: the single left-to-right extraction scan of
FlowTree::GenerateControlFlowTree (its implementation file is not in the
sources).  It pairs each opening directive with its chain of alternatives
and its closing directive using an explicit stack, registers each tested
macro name, and reports structural errors.  Finalized blocks are appended
in closing order. -/
def scanBlocks : List Tok → Nat → List OpenBlock → List ConditionalBlock → Registry →
    Except FlowError (List ConditionalBlock × Registry)
  | [], _, stack, done, reg =>
      if stack.isEmpty then .ok (done, reg) else .error .MissingCloseError
  | t :: rest, pos, stack, done, reg =>
      match t with
      | .PP_ifdef =>
          match rest.head? with
          | some (.PP_Identifier nm) =>
              match reg.idFor nm with
              | .ok (reg2, _) =>
                  scanBlocks rest (pos + 1) (⟨pos, false, [], none⟩ :: stack) done reg2
              | .error e => .error e
          | _ => .error .MissingIdentifierError
      | .PP_ifndef =>
          match rest.head? with
          | some (.PP_Identifier nm) =>
              match reg.idFor nm with
              | .ok (reg2, _) =>
                  scanBlocks rest (pos + 1) (⟨pos, true, [], none⟩ :: stack) done reg2
              | .error e => .error e
          | _ => .error .MissingIdentifierError
      | .PP_elsif =>
          match stack with
          | [] => .error .UnmatchedAlternativeError
          | top :: stk =>
              if top.else_iterator.isSome then .error .BranchAfterFinalError
              else
                match rest.head? with
                | some (.PP_Identifier nm) =>
                    match reg.idFor nm with
                    | .ok (reg2, _) =>
                        scanBlocks rest (pos + 1)
                          ({ top with elsif_iterators := top.elsif_iterators ++ [pos] } :: stk)
                          done reg2
                    | .error e => .error e
                | _ => .error .MissingIdentifierError
      | .PP_else =>
          match stack with
          | [] => .error .UnmatchedAlternativeError
          | top :: stk =>
              if top.else_iterator.isSome then .error .BranchAfterFinalError
              else scanBlocks rest (pos + 1) ({ top with else_iterator := some pos } :: stk) done reg
      | .PP_endif =>
          match stack with
          | [] => .error .UnmatchedCloseError
          | top :: stk =>
              scanBlocks rest (pos + 1) stk
                (done ++ [⟨top.openPos, top.openIsIfndef, top.elsif_iterators,
                           top.else_iterator, pos⟩]) reg
      | _ => scanBlocks rest (pos + 1) stack done reg

/-- Pointwise update of the successor map (edges_). -/
def setEdge (E : Nat → List Nat) (p : Nat) (v : List Nat) : Nat → List Nat :=
  fun q => if q = p then v else E q

/-- The default successor map before any block is processed: every token
points to the lexically next token; the one-past-the-end position has no
successor. -/
def defaultEdges (n : Nat) : Nat → List Nat := fun p => if p < n then [p + 1] else []

/-- The branch-point directives of a block (its opening directive and each
elsif), each paired with the position of the next alternative in the chain
(the following elsif, the else if none, and the closing directive last). -/
def branchPairs (b : ConditionalBlock) : List (Nat × Nat) :=
  (b.openPos :: b.elsif_iterators).zip
    (b.elsif_iterators ++ b.else_iterator.toList ++ [b.endif_iterator])

/-- Modelled from the spec: edges of one branch-point directive of a block
closed at position close.  The directive gets two successors, its branch
body entry (the token after its macro name) first and the next alternative
second; the last token of a nonempty branch body is rewired to point at
the token immediately after the closing directive; the entry successor of
an empty branch body is itself rewired to that post-close token. -/
def addBranchEdges (close : Nat) (E : Nat → List Nat) (pr : Nat × Nat) : Nat → List Nat :=
  if pr.1 + 2 < pr.2 then
    setEdge (setEdge E pr.1 [pr.1 + 2, pr.2]) (pr.2 - 1) [close + 1]
  else
    setEdge E pr.1 [close + 1, pr.2]

/-- Modelled from the spec: edges of the final-alternative (else) directive
of a block closed at position close.  It has a single successor, the first
token after it; the last token of its nonempty body is rewired to the
post-close token; if its body is empty the else directive itself points at
the post-close token. -/
def addElseEdges (close : Nat) (E : Nat → List Nat) (e : Nat) : Nat → List Nat :=
  if e + 1 < close then
    setEdge (setEdge E e [e + 1]) (close - 1) [close + 1]
  else
    setEdge E e [close + 1]

/-- Modelled from the spec: FlowTree::AddBlockEdges — adds all edges of one
conditional block to the successor map. -/
def AddBlockEdges (E : Nat → List Nat) (b : ConditionalBlock) : Nat → List Nat :=
  let E1 := (branchPairs b).foldl (addBranchEdges b.endif_iterator) E
  match b.else_iterator with
  | some e => addElseEdges b.endif_iterator E1 e
  | none => E1

/-- Modelled from the spec: FlowTree::GenerateControlFlowTree — runs the
single-pass extraction scan and, on success, builds the successor map by
adding the edges of every extracted block over the default map. -/
def GenerateControlFlowTree (toks : List Tok) :
    Except FlowError (List ConditionalBlock × Registry × (Nat → List Nat)) :=
  match scanBlocks toks 0 [] [] ⟨[], 0⟩ with
  | .error e => .error e
  | .ok (blocks, reg) =>
      .ok (blocks, reg, blocks.foldl AddBlockEdges (defaultEdges toks.length))

/-- The fixed-width (128 bit) macro bit-vector, modelling std::bitset<128>
as a natural number below 2 ^ 128. -/
abbrev BitSet := Nat

/-- Setting one bit of a macro bit-vector. -/
def setBit (b : BitSet) (m : Nat) : BitSet := b ||| 2 ^ m

/-- Clearing one bit of a macro bit-vector (within the fixed 128 bit
width). -/
def clearBit (b : BitSet) (m : Nat) : BitSet := b &&& ((2 ^ 128 - 1) ^^^ 2 ^ m)

/-- A variant, modelling the Variant struct of flow_tree.h: the selected
token sequence, the macro-assumption bit-vector (bit i set when the macro
with ID i is assumed defined) and the assumed bit-vector (bit i set when
macro i was tested, in either direction, on this path). -/
structure Variant where
  sequence : List Tok
  macros_mask : BitSet
  assumed : BitSet
deriving DecidableEq, Repr

/-- The variant receiver callback, modelling the std::function
VariantReceiver; a stateful closure returning whether more variants are
wanted. -/
def VariantReceiver (σ : Type) := σ → Variant → σ × Bool

/-- The mutable search state of the depth-first enumeration:
current_variant_ and wants_more_ of FlowTree, together with the externally
observable interaction record (the list of variants delivered to the
receiver, the receiver's closure state, and the count of token-append
operations). -/
structure DfsState (σ : Type) where
  current_variant : Variant
  delivered : List Variant
  wants_more : Bool
  recv : σ
  appendCount : Nat
deriving DecidableEq, Repr

/-- Modelled from the spec: FlowTree::GetMacroIDOfConditional — the ID of
the macro tested by the conditional directive at a position is looked up
from the name token that immediately follows it. -/
def GetMacroIDOfConditional (toks : List Tok) (reg : Registry) (pos : Nat) : Nat :=
  match toks[pos + 1]? with
  | some (.PP_Identifier nm) => (reg.conditional_macro_id.lookup nm).getD 0
  | _ => 0

/-- Scoped push of an ordinary token onto the in-progress variant. -/
def appendTok (t : Tok) (s : DfsState σ) : DfsState σ :=
  { s with current_variant.sequence := s.current_variant.sequence ++ [t],
           appendCount := s.appendCount + 1 }

/-- Scoped pop: restores the in-progress token buffer on exit. -/
def restoreSeq (q : List Tok) (s : DfsState σ) : DfsState σ :=
  { s with current_variant.sequence := q }

/-- Fixing a fresh macro assumption: sets the assumption bit (assumed
defined) together with the assumed bit. -/
def setAssume (m : Nat) (s : DfsState σ) : DfsState σ :=
  { s with current_variant.macros_mask := setBit s.current_variant.macros_mask m,
           current_variant.assumed := setBit s.current_variant.assumed m }

/-- Switching the fixed assumption of a macro to undefined before
exploring the other fork. -/
def assumeUndef (m : Nat) (s : DfsState σ) : DfsState σ :=
  { s with current_variant.macros_mask := clearBit s.current_variant.macros_mask m }

/-- Scoped restore of both bit-vectors on exit from a branch point. -/
def restoreBits (mask asm : BitSet) (s : DfsState σ) : DfsState σ :=
  { s with current_variant.macros_mask := mask, current_variant.assumed := asm }

/-- Handing the completed variant to the receiver, recording its answer in
the stop flag. -/
def emitStep (r : VariantReceiver σ) (s : DfsState σ) : DfsState σ :=
  { s with delivered := s.delivered ++ [s.current_variant],
           wants_more := (r s.recv s.current_variant).2,
           recv := (r s.recv s.current_variant).1 }

/-- Modelled from the spec: FlowTree::DepthFirstSearch (its implementation
file is not in the sources).  The worklist argument is the list of still
unexplored successor alternatives of the current node; the stop flag is
checked at every recursive step and at the top of every loop over
successor alternatives.  At a position past the end of the sequence the
accumulated variant is complete and is handed to the receiver.  An
ordinary token is appended, its successor explored, and the append undone.
A conditional directive whose macro is already assumed follows only the
successor consistent with the fixed assumption bit; otherwise the search
forks, assuming the macro defined first and undefined second, restoring
both bit-vectors afterwards.  Other directive tokens carry no payload and
simply pass through to their successors.  The fuel argument makes the
recursion structural; GenerateVariants passes enough for the worklists
arising from the control-flow graph. -/
def DepthFirstSearch (toks : List Tok) (reg : Registry) (E : Nat → List Nat)
    (r : VariantReceiver σ) : Nat → List Nat → DfsState σ → DfsState σ
  | _, [], s => s
  | 0, _ :: _, s => s
  | fuel + 1, pos :: rest, s =>
      if s.wants_more = false then s
      else
        DepthFirstSearch toks reg E r fuel rest
          (match toks[pos]? with
           | none => emitStep r s
           | some t =>
               match t with
               | .other payload =>
                   restoreSeq s.current_variant.sequence
                     (DepthFirstSearch toks reg E r fuel (E pos)
                       (appendTok (.other payload) s))
               | .PP_Identifier _ => DepthFirstSearch toks reg E r fuel (E pos) s
               | .PP_else => DepthFirstSearch toks reg E r fuel (E pos) s
               | .PP_endif => DepthFirstSearch toks reg E r fuel (E pos) s
               | _ =>
                   let m := GetMacroIDOfConditional toks reg pos
                   let body := (E pos).getD 0 (pos + 1)
                   let alt := (E pos).getD 1 (pos + 1)
                   if s.current_variant.assumed.testBit m then
                     DepthFirstSearch toks reg E r fuel
                       [if s.current_variant.macros_mask.testBit m == t.polarity then body
                        else alt] s
                   else
                     let sA := DepthFirstSearch toks reg E r fuel
                       [if t.polarity then body else alt] (setAssume m s)
                     let sB :=
                       if sA.wants_more then
                         DepthFirstSearch toks reg E r fuel [if t.polarity then alt else body]
                           (assumeUndef m sA)
                       else sA
                     restoreBits s.current_variant.macros_mask s.current_variant.assumed sB)

/-- One step of the search at a single token position; definitionally the
node-processing part of DepthFirstSearch. -/
def VisitNode (toks : List Tok) (reg : Registry) (E : Nat → List Nat)
    (r : VariantReceiver σ) (fuel pos : Nat) (s : DfsState σ) : DfsState σ :=
  match toks[pos]? with
  | none => emitStep r s
  | some t =>
      match t with
      | .other payload =>
          restoreSeq s.current_variant.sequence
            (DepthFirstSearch toks reg E r fuel (E pos) (appendTok (.other payload) s))
      | .PP_Identifier _ => DepthFirstSearch toks reg E r fuel (E pos) s
      | .PP_else => DepthFirstSearch toks reg E r fuel (E pos) s
      | .PP_endif => DepthFirstSearch toks reg E r fuel (E pos) s
      | _ =>
          let m := GetMacroIDOfConditional toks reg pos
          let body := (E pos).getD 0 (pos + 1)
          let alt := (E pos).getD 1 (pos + 1)
          if s.current_variant.assumed.testBit m then
            DepthFirstSearch toks reg E r fuel
              [if s.current_variant.macros_mask.testBit m == t.polarity then body else alt] s
          else
            let sA := DepthFirstSearch toks reg E r fuel
              [if t.polarity then body else alt] (setAssume m s)
            let sB :=
              if sA.wants_more then
                DepthFirstSearch toks reg E r fuel [if t.polarity then alt else body]
                  (assumeUndef m sA)
              else sA
            restoreBits s.current_variant.macros_mask s.current_variant.assumed sB

/-- The initial search state: empty variant, nothing delivered, receiver
wants more. -/
def initState (s0 : σ) : DfsState σ := ⟨⟨[], 0, 0⟩, [], true, s0, 0⟩

/-- Modelled from the spec: FlowTree::GenerateVariants — builds the
control-flow graph (failing, with zero variants delivered, on any
extraction error) and otherwise runs the depth-first enumeration from the
first token position. -/
def GenerateVariants (toks : List Tok) (r : VariantReceiver σ) (s0 : σ) :
    Status × DfsState σ :=
  match GenerateControlFlowTree toks with
  | .error e => (.error e, initState s0)
  | .ok (_, reg, E) =>
      (.ok, DepthFirstSearch toks reg E r (toks.length + 1) [0] (initState s0))

/-- The receiver that always wants more variants and keeps no state; runs
against it define the canonical full enumeration. -/
def trivialReceiver : VariantReceiver Unit := fun u _ => (u, true)

/-- The canonical list of all variants of an input: what the enumeration
delivers to the receiver that never stops it. -/
def AllVariants (toks : List Tok) : List Variant :=
  (GenerateVariants toks trivialReceiver ()).2.delivered

/-- The canonical emission list: variants delivered by the never-stopping
receiver when exploring a worklist from a given in-progress variant. -/
def canonDel (toks : List Tok) (reg : Registry) (E : Nat → List Nat)
    (fuel : Nat) (wl : List Nat) (cv : Variant) : List Variant :=
  (DepthFirstSearch toks reg E trivialReceiver fuel wl ⟨cv, [], true, (), 0⟩).delivered

/-- The canonical emission list of one node visit. -/
def visitDel (toks : List Tok) (reg : Registry) (E : Nat → List Nat)
    (fuel pos : Nat) (cv : Variant) : List Variant :=
  (VisitNode toks reg E trivialReceiver fuel pos ⟨cv, [], true, (), 0⟩).delivered

/-- Feeding a list of variants through a stateful receiver: the final
closure state and whether it still wants more; feeding stops at the first
false answer. -/
def feedAll (r : VariantReceiver σ) : σ → List Variant → σ × Bool
  | st, [] => (st, true)
  | st, v :: vs => if (r st v).2 then feedAll r (r st v).1 vs else ((r st v).1, false)

/-- The prefix of a variant list a stateful receiver actually receives:
everything up to and including the first variant it answers false to. -/
def stopTrunc (r : VariantReceiver σ) : σ → List Variant → List Variant
  | _, [] => []
  | st, v :: vs => v :: (if (r st v).2 then stopTrunc r (r st v).1 vs else [])

/-- An input consisting of one conditional block guarding a single macro
with no alternative branch, surrounded and filled by ordinary tokens. -/
def shapeToks (neg : Bool) (As Bs Cs : List Nat) (m : Nat) : List Tok :=
  As.map Tok.other ++ (if neg then Tok.PP_ifndef else Tok.PP_ifdef) ::
    Tok.PP_Identifier m :: (Bs.map Tok.other ++ Tok.PP_endif :: Cs.map Tok.other)

/-- The conditional block extracted from a single-block input. -/
def shapeBlock (neg : Bool) (As Bs : List Nat) : ConditionalBlock :=
  ⟨As.length, neg, [], none, As.length + 2 + Bs.length⟩

/-- A receiver closure that counts deliveries and asks to stop upon
receiving the k-th variant. -/
def countReceiver (k : Nat) : VariantReceiver Nat :=
  fun n _ => (n + 1, decide (n + 1 < k))

/-- Well-formedness of the macro registry: IDs are dense below the
counter, the counter respects the 128-bit capacity, and each name is
registered once. -/
def RegInv (reg : Registry) : Prop :=
  (∀ pr ∈ reg.conditional_macro_id, pr.2 < reg.conditional_macros_counter) ∧
  reg.conditional_macros_counter ≤ 128 ∧
  reg.conditional_macro_id.length = reg.conditional_macros_counter ∧
  (reg.conditional_macro_id.map Prod.fst).Nodup

/-- The ordered chain of directive positions of a finalized block. -/
def blockChain (b : ConditionalBlock) : List Nat :=
  b.openPos :: (b.elsif_iterators ++ b.else_iterator.toList ++ [b.endif_iterator])

/-- The ordered chain of directive positions of a still-open block. -/
def openList (ob : OpenBlock) : List Nat :=
  ob.openPos :: (ob.elsif_iterators ++ ob.else_iterator.toList)

/-- Structural facts about a still-open block on the extraction stack. -/
def OpenInv (toks : List Tok) (pos : Nat) (ob : OpenBlock) : Prop :=
  toks[ob.openPos]? = some (if ob.openIsIfndef then .PP_ifndef else .PP_ifdef) ∧
  (∀ q ∈ ob.elsif_iterators, toks[q]? = some .PP_elsif) ∧
  (∀ q ∈ ob.else_iterator.toList, toks[q]? = some .PP_else) ∧
  List.Chain' (· < ·) (openList ob) ∧
  (∀ q ∈ openList ob, q < pos)

/-- Structural facts about a finalized conditional block: the recorded
positions hold the right directive tokens and strictly increase. -/
def BlockInv (toks : List Tok) (b : ConditionalBlock) : Prop :=
  toks[b.openPos]? = some (if b.openIsIfndef then .PP_ifndef else .PP_ifdef) ∧
  (∀ q ∈ b.elsif_iterators, toks[q]? = some .PP_elsif) ∧
  (∀ q ∈ b.else_iterator.toList, toks[q]? = some .PP_else) ∧
  toks[b.endif_iterator]? = some .PP_endif ∧
  List.Chain' (· < ·) (blockChain b)

/-- The number of macro IDs below K not yet assumed on the current path. -/
def freeCount (b : BitSet) (K : Nat) : Nat :=
  ((Finset.range K).filter (fun i => b.testBit i = false)).card

/-- The macro names referenced by the conditional directives of an input,
one entry per conditional occurrence: a conditional directive references
the macro named by the identifier token right after it. -/
def condMacroNames : List Tok → List Nat
  | [] => []
  | t :: rest =>
      (if t.IsConditional then
         match rest.head? with
         | some (Tok.PP_Identifier nm) => [nm]
         | _ => []
       else []) ++ condMacroNames rest

/-- n well-formed conditional blocks in sequence, testing n distinct
macro names. -/
def capBlocks : Nat → List Tok
  | 0 => []
  | n + 1 => Tok.PP_ifdef :: Tok.PP_Identifier n :: Tok.other n :: Tok.PP_endif :: capBlocks n

/-- The successor-map writes AddBlockEdges performs for one block, in
order, as an explicit (position, successor list) list. -/
def blockWrites (b : ConditionalBlock) : List (Nat × List Nat) :=
  ((branchPairs b).map (fun pr =>
      if pr.1 + 2 < pr.2 then
        [(pr.1, [pr.1 + 2, pr.2]), (pr.2 - 1, [b.endif_iterator + 1])]
      else
        [(pr.1, [b.endif_iterator + 1, pr.2])])).flatten ++
    (match b.else_iterator with
     | some e =>
         if e + 1 < b.endif_iterator then
           [(e, [e + 1]), (b.endif_iterator - 1, [b.endif_iterator + 1])]
         else
           [(e, [b.endif_iterator + 1])]
     | none => [])

/-- The positions a block's edge construction writes to. -/
def writePositions (b : ConditionalBlock) : List Nat := (blockWrites b).map Prod.fst

/-- Applying a list of successor-map writes in order. -/
def applyWrites (E : Nat → List Nat) (ws : List (Nat × List Nat)) : Nat → List Nat :=
  ws.foldl (fun E2 w => setEdge E2 w.1 w.2) E

/-- The write positions contributed by one branch pair. -/
def pairWritePos (pr : Nat × Nat) : List Nat :=
  if pr.1 + 2 < pr.2 then [pr.1, pr.2 - 1] else [pr.1]

/-- The chain of a block without its opening position: its alternatives
and its closing directive. -/
def chainTail (b : ConditionalBlock) : List Nat :=
  b.elsif_iterators ++ b.else_iterator.toList ++ [b.endif_iterator]

/-- All directive positions recorded so far by the scan: the chains of the
finalized blocks and the partial chains of the still-open blocks. -/
def allRecorded (stack : List OpenBlock) (done : List ConditionalBlock) : List Nat :=
  (done.map blockChain).flatten ++ (stack.map openList).flatten

/-- A concrete input with one block carrying an elsif and an else:
positions 0-8. -/
def C7toks : List Tok :=
  [Tok.PP_ifdef, Tok.PP_Identifier 0, Tok.other 1, Tok.PP_elsif, Tok.PP_Identifier 2,
   Tok.other 3, Tok.PP_else, Tok.other 4, Tok.PP_endif]

/-- The block the scan extracts from C7toks. -/
def C7block : ConditionalBlock := ⟨0, false, [3], some 6, 8⟩

/-- The successor map built for C7toks. -/
def C7edges : Nat → List Nat := [C7block].foldl AddBlockEdges (defaultEdges 9)

theorem dfs_nil (toks : List Tok) (reg : Registry) (E : Nat → List Nat)
    (r : VariantReceiver σ) (fuel : Nat) (s : DfsState σ) :
    DepthFirstSearch toks reg E r fuel [] s = s := by
  rw [DepthFirstSearch]

theorem dfs_zero (toks : List Tok) (reg : Registry) (E : Nat → List Nat)
    (r : VariantReceiver σ) (wl : List Nat) (s : DfsState σ) :
    DepthFirstSearch toks reg E r 0 wl s = s := by
  match wl with
  | [] => rw [DepthFirstSearch]
  | _ :: _ => rw [DepthFirstSearch]

theorem dfs_cons (toks : List Tok) (reg : Registry) (E : Nat → List Nat)
    (r : VariantReceiver σ) (fuel pos : Nat) (rest : List Nat) (s : DfsState σ)
    (hw : s.wants_more = true) :
    DepthFirstSearch toks reg E r (fuel + 1) (pos :: rest) s =
      DepthFirstSearch toks reg E r fuel rest (VisitNode toks reg E r fuel pos s) := by
  rw [DepthFirstSearch]; simp only [hw, Bool.true_eq_false, if_false]
  congr 1

/-- Once the receiver has said stop, the search does nothing at all. -/
theorem dfs_stopped (toks : List Tok) (reg : Registry) (E : Nat → List Nat)
    (r : VariantReceiver σ) (fuel : Nat) (wl : List Nat) (s : DfsState σ)
    (h : s.wants_more = false) :
    DepthFirstSearch toks reg E r fuel wl s = s := by
  match fuel, wl with
  | _, [] => rw [DepthFirstSearch]
  | 0, _ :: _ => rw [DepthFirstSearch]
  | fuel + 1, pos :: rest => rw [DepthFirstSearch]; simp [h]

theorem visit_none (toks : List Tok) (reg : Registry) (E : Nat → List Nat)
    (r : VariantReceiver σ) (fuel pos : Nat) (s : DfsState σ)
    (htok : toks[pos]? = none) :
    VisitNode toks reg E r fuel pos s = emitStep r s := by
  rw [VisitNode, htok]

theorem visit_other (toks : List Tok) (reg : Registry) (E : Nat → List Nat)
    (r : VariantReceiver σ) (fuel pos : Nat) (s : DfsState σ) (a : Nat)
    (htok : toks[pos]? = some (.other a)) :
    VisitNode toks reg E r fuel pos s =
      restoreSeq s.current_variant.sequence
        (DepthFirstSearch toks reg E r fuel (E pos) (appendTok (.other a) s)) := by
  rw [VisitNode, htok]

theorem visit_pass (toks : List Tok) (reg : Registry) (E : Nat → List Nat)
    (r : VariantReceiver σ) (fuel pos : Nat) (s : DfsState σ) (t : Tok)
    (htok : toks[pos]? = some t)
    (hp : t.IsConditional = false) (hnot : ∀ a, t ≠ .other a) :
    VisitNode toks reg E r fuel pos s = DepthFirstSearch toks reg E r fuel (E pos) s := by
  rw [VisitNode, htok]
  cases t with
  | other a => exact absurd rfl (hnot a)
  | PP_Identifier nm => rfl
  | PP_else => rfl
  | PP_endif => rfl
  | PP_ifdef => simp [Tok.IsConditional] at hp
  | PP_ifndef => simp [Tok.IsConditional] at hp
  | PP_elsif => simp [Tok.IsConditional] at hp

theorem visit_cond_assumed (toks : List Tok) (reg : Registry) (E : Nat → List Nat)
    (r : VariantReceiver σ) (fuel pos : Nat) (s : DfsState σ) (t : Tok)
    (htok : toks[pos]? = some t) (hc : t.IsConditional = true)
    (ha : s.current_variant.assumed.testBit (GetMacroIDOfConditional toks reg pos) = true) :
    VisitNode toks reg E r fuel pos s =
      DepthFirstSearch toks reg E r fuel
        [if s.current_variant.macros_mask.testBit (GetMacroIDOfConditional toks reg pos)
            == t.polarity
         then (E pos).getD 0 (pos + 1) else (E pos).getD 1 (pos + 1)] s := by
  rw [VisitNode, htok]
  cases t with
  | other a => simp [Tok.IsConditional] at hc
  | PP_Identifier nm => simp [Tok.IsConditional] at hc
  | PP_else => simp [Tok.IsConditional] at hc
  | PP_endif => simp [Tok.IsConditional] at hc
  | PP_ifdef => simp only [ha, if_true]
  | PP_ifndef => simp only [ha, if_true]
  | PP_elsif => simp only [ha, if_true]

theorem visit_cond_fork (toks : List Tok) (reg : Registry) (E : Nat → List Nat)
    (r : VariantReceiver σ) (fuel pos : Nat) (s : DfsState σ) (t : Tok)
    (htok : toks[pos]? = some t) (hc : t.IsConditional = true)
    (ha : s.current_variant.assumed.testBit (GetMacroIDOfConditional toks reg pos) = false) :
    VisitNode toks reg E r fuel pos s =
      restoreBits s.current_variant.macros_mask s.current_variant.assumed
        ((fun sA =>
            if sA.wants_more then
              DepthFirstSearch toks reg E r fuel
                [if t.polarity then (E pos).getD 1 (pos + 1) else (E pos).getD 0 (pos + 1)]
                (assumeUndef (GetMacroIDOfConditional toks reg pos) sA)
            else sA)
          (DepthFirstSearch toks reg E r fuel
            [if t.polarity then (E pos).getD 0 (pos + 1) else (E pos).getD 1 (pos + 1)]
            (setAssume (GetMacroIDOfConditional toks reg pos) s))) := by
  rw [VisitNode, htok]
  cases t with
  | other a => simp [Tok.IsConditional] at hc
  | PP_Identifier nm => simp [Tok.IsConditional] at hc
  | PP_else => simp [Tok.IsConditional] at hc
  | PP_endif => simp [Tok.IsConditional] at hc
  | PP_ifdef => simp only [ha, Bool.false_eq_true, if_false, Tok.polarity]
  | PP_ifndef => simp only [ha, Bool.false_eq_true, if_false, Tok.polarity]
  | PP_elsif => simp only [ha, Bool.false_eq_true, if_false, Tok.polarity]

theorem visit_cond_fork_stop (toks : List Tok) (reg : Registry) (E : Nat → List Nat)
    (r : VariantReceiver σ) (fuel pos : Nat) (s : DfsState σ) (t : Tok)
    (htok : toks[pos]? = some t) (hc : t.IsConditional = true)
    (ha : s.current_variant.assumed.testBit (GetMacroIDOfConditional toks reg pos) = false)
    (hstop : (DepthFirstSearch toks reg E r fuel
        [if t.polarity then (E pos).getD 0 (pos + 1) else (E pos).getD 1 (pos + 1)]
        (setAssume (GetMacroIDOfConditional toks reg pos) s)).wants_more = false) :
    VisitNode toks reg E r fuel pos s =
      restoreBits s.current_variant.macros_mask s.current_variant.assumed
        (DepthFirstSearch toks reg E r fuel
          [if t.polarity then (E pos).getD 0 (pos + 1) else (E pos).getD 1 (pos + 1)]
          (setAssume (GetMacroIDOfConditional toks reg pos) s)) := by
  rw [visit_cond_fork _ _ _ _ _ _ _ _ htok hc ha]
  simp only [hstop, Bool.false_eq_true, if_false]

theorem visit_cond_fork_go (toks : List Tok) (reg : Registry) (E : Nat → List Nat)
    (r : VariantReceiver σ) (fuel pos : Nat) (s : DfsState σ) (t : Tok)
    (htok : toks[pos]? = some t) (hc : t.IsConditional = true)
    (ha : s.current_variant.assumed.testBit (GetMacroIDOfConditional toks reg pos) = false)
    (hgo : (DepthFirstSearch toks reg E r fuel
        [if t.polarity then (E pos).getD 0 (pos + 1) else (E pos).getD 1 (pos + 1)]
        (setAssume (GetMacroIDOfConditional toks reg pos) s)).wants_more = true) :
    VisitNode toks reg E r fuel pos s =
      restoreBits s.current_variant.macros_mask s.current_variant.assumed
        (DepthFirstSearch toks reg E r fuel
          [if t.polarity then (E pos).getD 1 (pos + 1) else (E pos).getD 0 (pos + 1)]
          (assumeUndef (GetMacroIDOfConditional toks reg pos)
            (DepthFirstSearch toks reg E r fuel
              [if t.polarity then (E pos).getD 0 (pos + 1) else (E pos).getD 1 (pos + 1)]
              (setAssume (GetMacroIDOfConditional toks reg pos) s)))) := by
  rw [visit_cond_fork _ _ _ _ _ _ _ _ htok hc ha]
  simp only [hgo, if_true]

theorem visit_frame (toks : List Tok) (reg : Registry) (E : Nat → List Nat)
    (r : VariantReceiver σ) (fuel pos : Nat)
    (ih : ∀ (wl : List Nat) (s : DfsState σ),
      (DepthFirstSearch toks reg E r fuel wl s).current_variant = s.current_variant)
    (s : DfsState σ) :
    (VisitNode toks reg E r fuel pos s).current_variant = s.current_variant := by
  rcases htok : toks[pos]? with _ | t
  · rw [visit_none _ _ _ _ _ _ _ htok]; rfl
  · rcases hcond : t.IsConditional with _ | _
    · by_cases hoth : ∃ a, t = Tok.other a
      · obtain ⟨a, rfl⟩ := hoth
        rw [visit_other _ _ _ _ _ _ _ _ htok]
        simp [restoreSeq, appendTok, ih]
      · rw [visit_pass _ _ _ _ _ _ _ _ htok hcond (fun a h => hoth ⟨a, h⟩)]
        exact ih _ _
    · by_cases ha : s.current_variant.assumed.testBit (GetMacroIDOfConditional toks reg pos) = true
      · rw [visit_cond_assumed _ _ _ _ _ _ _ _ htok hcond ha]
        exact ih _ _
      · replace ha : s.current_variant.assumed.testBit
            (GetMacroIDOfConditional toks reg pos) = false := by simpa using ha
        rcases hmore : (DepthFirstSearch toks reg E r fuel
            [if t.polarity then (E pos).getD 0 (pos + 1) else (E pos).getD 1 (pos + 1)]
            (setAssume (GetMacroIDOfConditional toks reg pos) s)).wants_more with _ | _
        · rw [visit_cond_fork_stop _ _ _ _ _ _ _ _ htok hcond ha hmore]
          simp [restoreBits, ih, setAssume]
        · rw [visit_cond_fork_go _ _ _ _ _ _ _ _ htok hcond ha hmore]
          simp [restoreBits, ih, assumeUndef, setAssume]

/-- Backtracking discipline: the search restores the in-progress variant on
every exit path, so it leaves the current variant unchanged. -/
theorem dfs_frame (toks : List Tok) (reg : Registry) (E : Nat → List Nat)
    (r : VariantReceiver σ) :
    ∀ (fuel : Nat) (wl : List Nat) (s : DfsState σ),
      (DepthFirstSearch toks reg E r fuel wl s).current_variant = s.current_variant := by
  intro fuel
  induction fuel with
  | zero => intro wl s; rw [dfs_zero]
  | succ fuel ih =>
    intro wl s
    match wl with
    | [] => rw [dfs_nil]
    | pos :: rest =>
      rcases hw : s.wants_more with _ | _
      · rw [dfs_stopped _ _ _ _ _ _ _ hw]
      · rw [dfs_cons _ _ _ _ _ _ _ _ hw, ih]
        exact visit_frame _ _ _ _ _ _ ih s

theorem visit_triv_shift (toks : List Tok) (reg : Registry) (E : Nat → List Nat)
    (fuel pos : Nat)
    (ih : ∀ (wl : List Nat) (cv : Variant) (d : List Variant) (a : Nat),
      DepthFirstSearch toks reg E trivialReceiver fuel wl ⟨cv, d, true, (), a⟩ =
        ⟨cv, d ++ (DepthFirstSearch toks reg E trivialReceiver fuel wl
                     ⟨cv, [], true, (), 0⟩).delivered,
         true, (),
         a + (DepthFirstSearch toks reg E trivialReceiver fuel wl
                ⟨cv, [], true, (), 0⟩).appendCount⟩)
    (cv : Variant) (d : List Variant) (a : Nat) :
    VisitNode toks reg E trivialReceiver fuel pos ⟨cv, d, true, (), a⟩ =
      ⟨cv, d ++ (VisitNode toks reg E trivialReceiver fuel pos ⟨cv, [], true, (), 0⟩).delivered,
       true, (),
       a + (VisitNode toks reg E trivialReceiver fuel pos ⟨cv, [], true, (), 0⟩).appendCount⟩ := by
  rcases htok : toks[pos]? with _ | t
  · rw [visit_none _ _ _ _ _ _ _ htok, visit_none _ _ _ _ _ _ _ htok]
    simp [emitStep, trivialReceiver]
  · rcases hcond : t.IsConditional with _ | _
    · by_cases hoth : ∃ p, t = Tok.other p
      · obtain ⟨p, rfl⟩ := hoth
        rw [visit_other _ _ _ _ _ _ _ _ htok, visit_other _ _ _ _ _ _ _ _ htok]
        simp only [appendTok, restoreSeq]
        rw [ih (E pos) ⟨cv.sequence ++ [Tok.other p], cv.macros_mask, cv.assumed⟩ d (a + 1),
            ih (E pos) ⟨cv.sequence ++ [Tok.other p], cv.macros_mask, cv.assumed⟩ [] (0 + 1)]
        all_goals simp [Nat.add_assoc, Nat.add_comm 1]
      · rw [visit_pass _ _ _ _ _ _ _ _ htok hcond (fun p h => hoth ⟨p, h⟩),
            visit_pass _ _ _ _ _ _ _ _ htok hcond (fun p h => hoth ⟨p, h⟩)]
        rw [ih (E pos) cv d a, ih (E pos) cv [] 0]
    · by_cases ha : cv.assumed.testBit (GetMacroIDOfConditional toks reg pos) = true
      · rw [visit_cond_assumed _ _ _ _ _ _ _ _ htok hcond ha,
            visit_cond_assumed _ _ _ _ _ _ _ _ htok hcond ha]
        rw [ih _ cv d a, ih _ cv [] 0]
      · replace ha : cv.assumed.testBit (GetMacroIDOfConditional toks reg pos) = false := by
          simpa using ha
        have hgo1 : (DepthFirstSearch toks reg E trivialReceiver fuel
            [if t.polarity then (E pos).getD 0 (pos + 1) else (E pos).getD 1 (pos + 1)]
            (setAssume (GetMacroIDOfConditional toks reg pos)
              (⟨cv, d, true, (), a⟩ : DfsState Unit))).wants_more = true := by
          simp only [setAssume]
          rw [ih]
        have hgo2 : (DepthFirstSearch toks reg E trivialReceiver fuel
            [if t.polarity then (E pos).getD 0 (pos + 1) else (E pos).getD 1 (pos + 1)]
            (setAssume (GetMacroIDOfConditional toks reg pos)
              (⟨cv, [], true, (), 0⟩ : DfsState Unit))).wants_more = true := by
          simp only [setAssume]
          rw [ih]
        rw [visit_cond_fork_go _ _ _ _ _ _ _ _ htok hcond ha hgo1,
            visit_cond_fork_go _ _ _ _ _ _ _ _ htok hcond ha hgo2]
        simp only [setAssume, assumeUndef, restoreBits]
        rw [ih _ _ d a, ih _ _ ([] : List Variant) 0]
        simp only [DfsState.mk.injEq]
        rw [ih _ _ (d ++ _) _, ih _ _ ([] ++ _) _]
        simp [Nat.add_assoc]

/-- Runs of the never-stopping receiver are compositional: the delivered
variants and append count only depend on the worklist and the in-progress
variant, the flag stays up, and the accumulator fields just grow. -/
theorem dfs_triv_shift (toks : List Tok) (reg : Registry) (E : Nat → List Nat) :
    ∀ (fuel : Nat) (wl : List Nat) (cv : Variant) (d : List Variant) (a : Nat),
      DepthFirstSearch toks reg E trivialReceiver fuel wl ⟨cv, d, true, (), a⟩ =
        ⟨cv, d ++ (DepthFirstSearch toks reg E trivialReceiver fuel wl
                     ⟨cv, [], true, (), 0⟩).delivered,
         true, (),
         a + (DepthFirstSearch toks reg E trivialReceiver fuel wl
                ⟨cv, [], true, (), 0⟩).appendCount⟩ := by
  intro fuel
  induction fuel with
  | zero => intro wl cv d a; rw [dfs_zero, dfs_zero]; simp
  | succ fuel ih =>
    intro wl cv d a
    match wl with
    | [] => rw [dfs_nil, dfs_nil]; simp
    | pos :: rest =>
      rw [dfs_cons _ _ _ _ _ _ _ _ rfl, dfs_cons _ _ _ _ _ _ _ _ rfl]
      rw [visit_triv_shift _ _ _ _ _ ih cv d a, visit_triv_shift _ _ _ _ _ ih cv [] 0]
      rw [ih _ _ (d ++ _) _, ih _ _ ([] ++ _) _]
      simp [Nat.add_assoc]

theorem canonDel_zero (toks : List Tok) (reg : Registry) (E : Nat → List Nat)
    (wl : List Nat) (cv : Variant) : canonDel toks reg E 0 wl cv = [] := by
  rw [canonDel, dfs_zero]

theorem canonDel_nil (toks : List Tok) (reg : Registry) (E : Nat → List Nat)
    (fuel : Nat) (cv : Variant) : canonDel toks reg E fuel [] cv = [] := by
  rw [canonDel, dfs_nil]

theorem canonDel_cons (toks : List Tok) (reg : Registry) (E : Nat → List Nat)
    (fuel pos : Nat) (rest : List Nat) (cv : Variant) :
    canonDel toks reg E (fuel + 1) (pos :: rest) cv =
      visitDel toks reg E fuel pos cv ++ canonDel toks reg E fuel rest cv := by
  rw [canonDel, dfs_cons _ _ _ _ _ _ _ _ rfl]
  have h1 := visit_triv_shift toks reg E fuel pos (dfs_triv_shift toks reg E fuel) cv [] 0
  rw [h1, dfs_triv_shift toks reg E fuel rest]
  simp [visitDel, canonDel]

theorem visitDel_none (toks : List Tok) (reg : Registry) (E : Nat → List Nat)
    (fuel pos : Nat) (cv : Variant) (htok : toks[pos]? = none) :
    visitDel toks reg E fuel pos cv = [cv] := by
  rw [visitDel, visit_none _ _ _ _ _ _ _ htok]
  simp [emitStep, trivialReceiver]

theorem visitDel_other (toks : List Tok) (reg : Registry) (E : Nat → List Nat)
    (fuel pos : Nat) (cv : Variant) (p : Nat) (htok : toks[pos]? = some (.other p)) :
    visitDel toks reg E fuel pos cv =
      canonDel toks reg E fuel (E pos)
        ⟨cv.sequence ++ [Tok.other p], cv.macros_mask, cv.assumed⟩ := by
  rw [visitDel, visit_other _ _ _ _ _ _ _ _ htok]
  simp only [appendTok, restoreSeq]
  rw [dfs_triv_shift]
  simp [canonDel]

theorem visitDel_pass (toks : List Tok) (reg : Registry) (E : Nat → List Nat)
    (fuel pos : Nat) (cv : Variant) (t : Tok) (htok : toks[pos]? = some t)
    (hp : t.IsConditional = false) (hnot : ∀ p, t ≠ .other p) :
    visitDel toks reg E fuel pos cv = canonDel toks reg E fuel (E pos) cv := by
  rw [visitDel, visit_pass _ _ _ _ _ _ _ _ htok hp hnot, canonDel]

theorem visitDel_assumed (toks : List Tok) (reg : Registry) (E : Nat → List Nat)
    (fuel pos : Nat) (cv : Variant) (t : Tok) (htok : toks[pos]? = some t)
    (hc : t.IsConditional = true)
    (ha : cv.assumed.testBit (GetMacroIDOfConditional toks reg pos) = true) :
    visitDel toks reg E fuel pos cv =
      canonDel toks reg E fuel
        [if cv.macros_mask.testBit (GetMacroIDOfConditional toks reg pos) == t.polarity
         then (E pos).getD 0 (pos + 1) else (E pos).getD 1 (pos + 1)] cv := by
  rw [visitDel, visit_cond_assumed _ _ _ _ _ _ _ _ htok hc ha, canonDel]

theorem visitDel_fork (toks : List Tok) (reg : Registry) (E : Nat → List Nat)
    (fuel pos : Nat) (cv : Variant) (t : Tok) (htok : toks[pos]? = some t)
    (hc : t.IsConditional = true)
    (ha : cv.assumed.testBit (GetMacroIDOfConditional toks reg pos) = false) :
    visitDel toks reg E fuel pos cv =
      canonDel toks reg E fuel
          [if t.polarity then (E pos).getD 0 (pos + 1) else (E pos).getD 1 (pos + 1)]
          ⟨cv.sequence, setBit cv.macros_mask (GetMacroIDOfConditional toks reg pos),
           setBit cv.assumed (GetMacroIDOfConditional toks reg pos)⟩ ++
        canonDel toks reg E fuel
          [if t.polarity then (E pos).getD 1 (pos + 1) else (E pos).getD 0 (pos + 1)]
          ⟨cv.sequence,
           clearBit (setBit cv.macros_mask (GetMacroIDOfConditional toks reg pos))
             (GetMacroIDOfConditional toks reg pos),
           setBit cv.assumed (GetMacroIDOfConditional toks reg pos)⟩ := by
  have hgo : (DepthFirstSearch toks reg E trivialReceiver fuel
      [if t.polarity then (E pos).getD 0 (pos + 1) else (E pos).getD 1 (pos + 1)]
      (setAssume (GetMacroIDOfConditional toks reg pos)
        (⟨cv, [], true, (), 0⟩ : DfsState Unit))).wants_more = true := by
    simp only [setAssume]
    rw [dfs_triv_shift]
  rw [visitDel, visit_cond_fork_go _ _ _ _ _ _ _ _ htok hc ha hgo]
  simp only [setAssume, restoreBits, assumeUndef]
  rw [dfs_triv_shift]
  simp only [DfsState.delivered]
  rw [dfs_triv_shift]
  simp [canonDel]

theorem feedAll_append (r : VariantReceiver σ) (st : σ) (xs ys : List Variant) :
    feedAll r st (xs ++ ys) =
      if (feedAll r st xs).2 then feedAll r (feedAll r st xs).1 ys else feedAll r st xs := by
  induction xs generalizing st with
  | nil => simp [feedAll]
  | cons v vs ih =>
    simp only [List.cons_append, feedAll]
    by_cases h : (r st v).2 = true
    · simp only [h, if_true]; exact ih _
    · simp only [h]; simp

theorem stopTrunc_append (r : VariantReceiver σ) (st : σ) (xs ys : List Variant) :
    stopTrunc r st (xs ++ ys) =
      if (feedAll r st xs).2 then
        stopTrunc r st xs ++ stopTrunc r (feedAll r st xs).1 ys
      else stopTrunc r st xs := by
  induction xs generalizing st with
  | nil => simp [feedAll, stopTrunc]
  | cons v vs ih =>
    simp only [List.cons_append, stopTrunc, feedAll]
    by_cases h : (r st v).2 = true
    · simp only [h, if_true, List.append_eq]
      rw [ih]
      by_cases h2 : (feedAll r (r st v).1 vs).2 = true
      · simp [h2]
      · simp [h2]
    · simp only [h]; simp

theorem visit_recv (toks : List Tok) (reg : Registry) (E : Nat → List Nat)
    (r : VariantReceiver σ) (fuel pos : Nat)
    (ih : ∀ (wl : List Nat) (cv : Variant) (d : List Variant) (st : σ) (a : Nat),
      DepthFirstSearch toks reg E r fuel wl ⟨cv, d, true, st, a⟩ =
        ⟨cv, d ++ stopTrunc r st (canonDel toks reg E fuel wl cv),
         (feedAll r st (canonDel toks reg E fuel wl cv)).2,
         (feedAll r st (canonDel toks reg E fuel wl cv)).1,
         (DepthFirstSearch toks reg E r fuel wl ⟨cv, d, true, st, a⟩).appendCount⟩)
    (cv : Variant) (d : List Variant) (st : σ) (a : Nat) :
    VisitNode toks reg E r fuel pos ⟨cv, d, true, st, a⟩ =
      ⟨cv, d ++ stopTrunc r st (visitDel toks reg E fuel pos cv),
       (feedAll r st (visitDel toks reg E fuel pos cv)).2,
       (feedAll r st (visitDel toks reg E fuel pos cv)).1,
       (VisitNode toks reg E r fuel pos ⟨cv, d, true, st, a⟩).appendCount⟩ := by
  rcases htok : toks[pos]? with _ | t
  · rw [visitDel_none _ _ _ _ _ _ htok, visit_none _ _ _ _ _ _ _ htok]
    by_cases h : (r st cv).2 = true
    · simp [emitStep, stopTrunc, feedAll, h]
    · simp [emitStep, stopTrunc, feedAll, h]
  · rcases hcond : t.IsConditional with _ | _
    · by_cases hoth : ∃ p, t = Tok.other p
      · obtain ⟨p, rfl⟩ := hoth
        rw [visitDel_other _ _ _ _ _ _ _ htok, visit_other _ _ _ _ _ _ _ _ htok]
        simp only [appendTok, restoreSeq]
        rw [ih (E pos) ⟨cv.sequence ++ [Tok.other p], cv.macros_mask, cv.assumed⟩ d st (a + 1)]
      · rw [visitDel_pass _ _ _ _ _ _ _ htok hcond (fun p h => hoth ⟨p, h⟩),
            visit_pass _ _ _ _ _ _ _ _ htok hcond (fun p h => hoth ⟨p, h⟩)]
        rw [ih (E pos) cv d st a]
    · by_cases ha : cv.assumed.testBit (GetMacroIDOfConditional toks reg pos) = true
      · rw [visitDel_assumed _ _ _ _ _ _ _ htok hcond ha,
            visit_cond_assumed _ _ _ _ _ _ _ _ htok hcond ha]
        rw [ih _ cv d st a]
      · replace ha : cv.assumed.testBit (GetMacroIDOfConditional toks reg pos) = false := by
          simpa using ha
        rw [visitDel_fork _ _ _ _ _ _ _ htok hcond ha]
        have hsetA : setAssume (GetMacroIDOfConditional toks reg pos)
            (⟨cv, d, true, st, a⟩ : DfsState σ) =
            ⟨⟨cv.sequence, setBit cv.macros_mask (GetMacroIDOfConditional toks reg pos),
              setBit cv.assumed (GetMacroIDOfConditional toks reg pos)⟩, d, true, st, a⟩ := by
          simp [setAssume]
        by_cases hW : (feedAll r st (canonDel toks reg E fuel
            [if t.polarity then (E pos).getD 0 (pos + 1) else (E pos).getD 1 (pos + 1)]
            ⟨cv.sequence, setBit cv.macros_mask (GetMacroIDOfConditional toks reg pos),
             setBit cv.assumed (GetMacroIDOfConditional toks reg pos)⟩)).2 = true
        · have hgo : (DepthFirstSearch toks reg E r fuel
              [if t.polarity then (E pos).getD 0 (pos + 1) else (E pos).getD 1 (pos + 1)]
              (setAssume (GetMacroIDOfConditional toks reg pos)
                (⟨cv, d, true, st, a⟩ : DfsState σ))).wants_more = true := by
            rw [hsetA, ih]; exact hW
          have e1 : ∀ ys, stopTrunc r st ((canonDel toks reg E fuel
              [if t.polarity then (E pos).getD 0 (pos + 1) else (E pos).getD 1 (pos + 1)]
              ⟨cv.sequence, setBit cv.macros_mask (GetMacroIDOfConditional toks reg pos),
               setBit cv.assumed (GetMacroIDOfConditional toks reg pos)⟩) ++ ys) =
              stopTrunc r st (canonDel toks reg E fuel
                [if t.polarity then (E pos).getD 0 (pos + 1) else (E pos).getD 1 (pos + 1)]
                ⟨cv.sequence, setBit cv.macros_mask (GetMacroIDOfConditional toks reg pos),
                 setBit cv.assumed (GetMacroIDOfConditional toks reg pos)⟩) ++
              stopTrunc r (feedAll r st (canonDel toks reg E fuel
                [if t.polarity then (E pos).getD 0 (pos + 1) else (E pos).getD 1 (pos + 1)]
                ⟨cv.sequence, setBit cv.macros_mask (GetMacroIDOfConditional toks reg pos),
                 setBit cv.assumed (GetMacroIDOfConditional toks reg pos)⟩)).1 ys := by
            intro ys; rw [stopTrunc_append, hW]; simp
          have e2 : ∀ ys, feedAll r st ((canonDel toks reg E fuel
              [if t.polarity then (E pos).getD 0 (pos + 1) else (E pos).getD 1 (pos + 1)]
              ⟨cv.sequence, setBit cv.macros_mask (GetMacroIDOfConditional toks reg pos),
               setBit cv.assumed (GetMacroIDOfConditional toks reg pos)⟩) ++ ys) =
              feedAll r (feedAll r st (canonDel toks reg E fuel
                [if t.polarity then (E pos).getD 0 (pos + 1) else (E pos).getD 1 (pos + 1)]
                ⟨cv.sequence, setBit cv.macros_mask (GetMacroIDOfConditional toks reg pos),
                 setBit cv.assumed (GetMacroIDOfConditional toks reg pos)⟩)).1 ys := by
            intro ys; rw [feedAll_append, hW]; simp
          rw [visit_cond_fork_go _ _ _ _ _ _ _ _ htok hcond ha hgo]
          rw [hsetA, ih]
          simp only [assumeUndef, hW]
          rw [ih]
          simp only [restoreBits]
          rw [e1, e2]
          simp [List.append_assoc]
        · replace hW : (feedAll r st (canonDel toks reg E fuel
              [if t.polarity then (E pos).getD 0 (pos + 1) else (E pos).getD 1 (pos + 1)]
              ⟨cv.sequence, setBit cv.macros_mask (GetMacroIDOfConditional toks reg pos),
               setBit cv.assumed (GetMacroIDOfConditional toks reg pos)⟩)).2 = false := by
            simpa using hW
          have hstop : (DepthFirstSearch toks reg E r fuel
              [if t.polarity then (E pos).getD 0 (pos + 1) else (E pos).getD 1 (pos + 1)]
              (setAssume (GetMacroIDOfConditional toks reg pos)
                (⟨cv, d, true, st, a⟩ : DfsState σ))).wants_more = false := by
            rw [hsetA, ih]; exact hW
          have e1 : ∀ ys, stopTrunc r st ((canonDel toks reg E fuel
              [if t.polarity then (E pos).getD 0 (pos + 1) else (E pos).getD 1 (pos + 1)]
              ⟨cv.sequence, setBit cv.macros_mask (GetMacroIDOfConditional toks reg pos),
               setBit cv.assumed (GetMacroIDOfConditional toks reg pos)⟩) ++ ys) =
              stopTrunc r st (canonDel toks reg E fuel
                [if t.polarity then (E pos).getD 0 (pos + 1) else (E pos).getD 1 (pos + 1)]
                ⟨cv.sequence, setBit cv.macros_mask (GetMacroIDOfConditional toks reg pos),
                 setBit cv.assumed (GetMacroIDOfConditional toks reg pos)⟩) := by
            intro ys; rw [stopTrunc_append, hW]; simp
          have e2 : ∀ ys, feedAll r st ((canonDel toks reg E fuel
              [if t.polarity then (E pos).getD 0 (pos + 1) else (E pos).getD 1 (pos + 1)]
              ⟨cv.sequence, setBit cv.macros_mask (GetMacroIDOfConditional toks reg pos),
               setBit cv.assumed (GetMacroIDOfConditional toks reg pos)⟩) ++ ys) =
              feedAll r st (canonDel toks reg E fuel
                [if t.polarity then (E pos).getD 0 (pos + 1) else (E pos).getD 1 (pos + 1)]
                ⟨cv.sequence, setBit cv.macros_mask (GetMacroIDOfConditional toks reg pos),
                 setBit cv.assumed (GetMacroIDOfConditional toks reg pos)⟩) := by
            intro ys; rw [feedAll_append, hW]; simp
          rw [visit_cond_fork_stop _ _ _ _ _ _ _ _ htok hcond ha hstop]
          rw [hsetA, ih]
          simp only [restoreBits]
          rw [e1, e2]

/-- The interaction of the search with an arbitrary stateful receiver is
the canonical emission sequence truncated at the receiver's first false
answer: the delivered variants, the final stop flag and the final closure
state are all obtained by feeding the canonical sequence to the
receiver. -/
theorem dfs_recv (toks : List Tok) (reg : Registry) (E : Nat → List Nat)
    (r : VariantReceiver σ) :
    ∀ (fuel : Nat) (wl : List Nat) (cv : Variant) (d : List Variant) (st : σ) (a : Nat),
      DepthFirstSearch toks reg E r fuel wl ⟨cv, d, true, st, a⟩ =
        ⟨cv, d ++ stopTrunc r st (canonDel toks reg E fuel wl cv),
         (feedAll r st (canonDel toks reg E fuel wl cv)).2,
         (feedAll r st (canonDel toks reg E fuel wl cv)).1,
         (DepthFirstSearch toks reg E r fuel wl ⟨cv, d, true, st, a⟩).appendCount⟩ := by
  intro fuel
  induction fuel with
  | zero =>
    intro wl cv d st a
    rw [dfs_zero, canonDel_zero]
    simp [stopTrunc, feedAll]
  | succ fuel ih =>
    intro wl cv d st a
    match wl with
    | [] =>
      rw [dfs_nil, canonDel_nil]
      simp [stopTrunc, feedAll]
    | pos :: rest =>
      rw [dfs_cons _ _ _ _ _ _ _ _ rfl, canonDel_cons]
      rw [visit_recv _ _ _ _ _ _ ih cv d st a]
      by_cases hWn : (feedAll r st (visitDel toks reg E fuel pos cv)).2 = true
      · have e1 : stopTrunc r st (visitDel toks reg E fuel pos cv ++
            canonDel toks reg E fuel rest cv) =
            stopTrunc r st (visitDel toks reg E fuel pos cv) ++
            stopTrunc r (feedAll r st (visitDel toks reg E fuel pos cv)).1
              (canonDel toks reg E fuel rest cv) := by
          rw [stopTrunc_append, hWn]; simp
        have e2 : feedAll r st (visitDel toks reg E fuel pos cv ++
            canonDel toks reg E fuel rest cv) =
            feedAll r (feedAll r st (visitDel toks reg E fuel pos cv)).1
              (canonDel toks reg E fuel rest cv) := by
          rw [feedAll_append, hWn]; simp
        rw [e1, e2, hWn, ih]
        simp [List.append_assoc]
      · replace hWn : (feedAll r st (visitDel toks reg E fuel pos cv)).2 = false := by
          simpa using hWn
        have e1 : stopTrunc r st (visitDel toks reg E fuel pos cv ++
            canonDel toks reg E fuel rest cv) =
            stopTrunc r st (visitDel toks reg E fuel pos cv) := by
          rw [stopTrunc_append, hWn]; simp
        have e2 : feedAll r st (visitDel toks reg E fuel pos cv ++
            canonDel toks reg E fuel rest cv) =
            feedAll r st (visitDel toks reg E fuel pos cv) := by
          rw [feedAll_append, hWn]; simp
        rw [e1, e2, hWn]
        rw [dfs_stopped _ _ _ _ _ _ _ rfl]

theorem stopTrunc_prefix (r : VariantReceiver σ) (st : σ) (xs : List Variant) :
    ∃ t, stopTrunc r st xs ++ t = xs := by
  induction xs generalizing st with
  | nil => exact ⟨[], rfl⟩
  | cons v vs ih =>
    by_cases h : (r st v).2 = true
    · obtain ⟨t, ht⟩ := ih ((r st v).1)
      exact ⟨t, by simp [stopTrunc, h, ht]⟩
    · exact ⟨vs, by simp [stopTrunc, h]⟩

theorem stopTrunc_of_neverStops (r : VariantReceiver σ) (st : σ) (xs : List Variant)
    (h : ∀ st' v, (r st' v).2 = true) : stopTrunc r st xs = xs := by
  induction xs generalizing st with
  | nil => rfl
  | cons v vs ih => simp [stopTrunc, h, ih]

theorem GenerateVariants_error (toks : List Tok) (r : VariantReceiver σ) (s0 : σ)
    (e : FlowError) (h : GenerateControlFlowTree toks = .error e) :
    GenerateVariants toks r s0 = (.error e, initState s0) := by
  simp only [GenerateVariants, h]

theorem GenerateVariants_ok (toks : List Tok) (r : VariantReceiver σ) (s0 : σ)
    (blocks : List ConditionalBlock) (reg : Registry) (E : Nat → List Nat)
    (h : GenerateControlFlowTree toks = .ok (blocks, reg, E)) :
    GenerateVariants toks r s0 =
      (.ok,
        ⟨⟨[], 0, 0⟩,
         stopTrunc r s0 (canonDel toks reg E (toks.length + 1) [0] ⟨[], 0, 0⟩),
         (feedAll r s0 (canonDel toks reg E (toks.length + 1) [0] ⟨[], 0, 0⟩)).2,
         (feedAll r s0 (canonDel toks reg E (toks.length + 1) [0] ⟨[], 0, 0⟩)).1,
         ((GenerateVariants toks r s0).2).appendCount⟩) := by
  simp only [GenerateVariants, h, initState]
  rw [dfs_recv toks reg E r (toks.length + 1) [0] ⟨[], 0, 0⟩ [] s0 0]
  simp

theorem AllVariants_eq_canonDel (toks : List Tok)
    (blocks : List ConditionalBlock) (reg : Registry) (E : Nat → List Nat)
    (h : GenerateControlFlowTree toks = .ok (blocks, reg, E)) :
    AllVariants toks = canonDel toks reg E (toks.length + 1) [0] ⟨[], 0, 0⟩ := by
  rw [AllVariants, GenerateVariants_ok toks trivialReceiver () blocks reg E h]
  simp only [DfsState.delivered]
  exact stopTrunc_of_neverStops _ _ _ (fun st v => rfl)

theorem scan_skip_ordinary (ps : List Nat) :
    ∀ (rest : List Tok) (pos : Nat) (stack : List OpenBlock)
      (done : List ConditionalBlock) (reg : Registry),
      scanBlocks (ps.map Tok.other ++ rest) pos stack done reg =
        scanBlocks rest (pos + ps.length) stack done reg := by
  induction ps with
  | nil => intro rest pos stack done reg; simp
  | cons p ps ih =>
    intro rest pos stack done reg
    simp only [List.map_cons, List.cons_append, scanBlocks, List.append_eq]
    rw [ih]
    congr 1
    simp only [List.length_cons]
    omega

/-- Running the canonical enumeration across a stretch of ordinary tokens
whose edges are the default next-token edges appends exactly those tokens
to the in-progress variant. -/
theorem canonDel_run_ordinary (toks : List Tok) (reg : Registry) (E : Nat → List Nat)
    (chunk : List Nat) :
    ∀ (p fuel : Nat) (cv : Variant),
      (∀ j, (hj : j < chunk.length) →
        toks[p + j]? = some (.other (chunk[j])) ∧ E (p + j) = [p + j + 1]) →
      canonDel toks reg E (fuel + chunk.length) [p] cv =
        canonDel toks reg E fuel [p + chunk.length]
          ⟨cv.sequence ++ chunk.map Tok.other, cv.macros_mask, cv.assumed⟩ := by
  induction chunk with
  | nil => intro p fuel cv _; simp
  | cons q ch ih =>
    intro p fuel cv hyp
    have h0 := hyp 0 (by simp)
    simp only [List.getElem_cons_zero, Nat.add_zero] at h0
    have step : canonDel toks reg E (fuel + (ch.length + 1)) [p] cv =
        canonDel toks reg E (fuel + ch.length) [p + 1]
          ⟨cv.sequence ++ [Tok.other q], cv.macros_mask, cv.assumed⟩ := by
      have : fuel + (ch.length + 1) = (fuel + ch.length) + 1 := by omega
      rw [this, canonDel_cons, visitDel_other _ _ _ _ _ _ _ h0.1, h0.2, canonDel_nil,
          List.append_nil]
    rw [List.length_cons, step]
    have := ih (p + 1) fuel ⟨cv.sequence ++ [Tok.other q], cv.macros_mask, cv.assumed⟩
      (fun j hj => by
        have := hyp (j + 1) (by simpa using Nat.succ_lt_succ hj)
        simpa [Nat.add_assoc, Nat.add_comm 1 j, Nat.add_left_comm] using this)
    rw [this]
    simp [Nat.add_assoc, Nat.add_comm 1, Nat.add_left_comm, List.append_assoc]

theorem shape_scan (neg : Bool) (As Bs Cs : List Nat) (m : Nat) :
    scanBlocks (As.map Tok.other ++ (if neg then Tok.PP_ifndef else Tok.PP_ifdef) ::
        Tok.PP_Identifier m :: (Bs.map Tok.other ++ Tok.PP_endif :: Cs.map Tok.other))
        0 [] [] ⟨[], 0⟩ =
      .ok ([⟨As.length, neg, [], none, As.length + 2 + Bs.length⟩], ⟨[(m, 0)], 1⟩) := by
  rw [scan_skip_ordinary]
  cases neg <;>
  · simp only [if_true, if_false, Bool.false_eq_true, scanBlocks, List.head_cons,
      List.head?_cons, Registry.idFor, List.lookup_nil, Nat.zero_add]
    norm_num
    rw [scan_skip_ordinary]
    simp only [scanBlocks, List.isEmpty_nil, List.nil_append]
    rw [show List.map Tok.other Cs = List.map Tok.other Cs ++ [] from (List.append_nil _).symm,
        scan_skip_ordinary]
    simp only [scanBlocks, List.isEmpty_nil, if_true]

theorem shapeToks_length (neg : Bool) (As Bs Cs : List Nat) (m : Nat) :
    (shapeToks neg As Bs Cs m).length = As.length + Bs.length + Cs.length + 3 := by
  simp [shapeToks]
  omega

theorem shapeToks_get_A (neg : Bool) (As Bs Cs : List Nat) (m p : Nat) (hp : p < As.length) :
    (shapeToks neg As Bs Cs m)[p]? = some (.other (As.getD p 0)) := by
  rw [shapeToks, List.getElem?_append_left (by simpa using hp)]
  simp [List.getElem?_map, List.getElem?_eq_getElem, hp, List.getD_eq_getElem?_getD]

theorem shapeToks_get_open (neg : Bool) (As Bs Cs : List Nat) (m : Nat) :
    (shapeToks neg As Bs Cs m)[As.length]? =
      some (if neg then Tok.PP_ifndef else Tok.PP_ifdef) := by
  rw [shapeToks, List.getElem?_append_right (by simp)]
  simp

theorem shapeToks_get_ident (neg : Bool) (As Bs Cs : List Nat) (m : Nat) :
    (shapeToks neg As Bs Cs m)[As.length + 1]? = some (Tok.PP_Identifier m) := by
  rw [shapeToks, List.getElem?_append_right (by simp)]
  simp

theorem shapeToks_get_B (neg : Bool) (As Bs Cs : List Nat) (m j : Nat) (hj : j < Bs.length) :
    (shapeToks neg As Bs Cs m)[As.length + 2 + j]? = some (.other (Bs.getD j 0)) := by
  rw [shapeToks, List.getElem?_append_right (by simp; omega)]
  simp only [List.length_map]
  have h1 : As.length + 2 + j - As.length = j + 2 := by omega
  rw [h1]
  simp only [List.getElem?_cons_succ]
  rw [List.getElem?_append_left (by simpa using hj)]
  simp [List.getElem?_map, List.getElem?_eq_getElem, hj, List.getD_eq_getElem?_getD]

theorem shapeToks_get_endif (neg : Bool) (As Bs Cs : List Nat) (m : Nat) :
    (shapeToks neg As Bs Cs m)[As.length + 2 + Bs.length]? = some Tok.PP_endif := by
  rw [shapeToks, List.getElem?_append_right (by simp; omega)]
  simp only [List.length_map]
  have h1 : As.length + 2 + Bs.length - As.length = Bs.length + 2 := by omega
  rw [h1]
  simp only [List.getElem?_cons_succ]
  rw [List.getElem?_append_right (by simp)]
  simp

theorem shapeToks_get_C (neg : Bool) (As Bs Cs : List Nat) (m j : Nat) (hj : j < Cs.length) :
    (shapeToks neg As Bs Cs m)[As.length + 3 + Bs.length + j]? = some (.other (Cs.getD j 0)) := by
  rw [shapeToks, List.getElem?_append_right (by simp; omega)]
  simp only [List.length_map]
  have h1 : As.length + 3 + Bs.length + j - As.length = Bs.length + j + 3 := by omega
  rw [h1]
  simp only [List.getElem?_cons_succ]
  rw [List.getElem?_append_right (by simp; omega)]
  simp only [List.length_map]
  have h2 : Bs.length + j + 1 - Bs.length = j + 1 := by omega
  rw [h2]
  simp only [List.getElem?_cons_succ]
  simp [List.getElem?_map, List.getElem?_eq_getElem, hj, List.getD_eq_getElem?_getD]

theorem shapeToks_get_none (neg : Bool) (As Bs Cs : List Nat) (m p : Nat)
    (hp : As.length + Bs.length + Cs.length + 3 ≤ p) :
    (shapeToks neg As Bs Cs m)[p]? = none := by
  rw [List.getElem?_eq_none]
  rw [shapeToks_length]
  omega

theorem shape_gcft (neg : Bool) (As Bs Cs : List Nat) (m : Nat) :
    GenerateControlFlowTree (shapeToks neg As Bs Cs m) =
      .ok ([shapeBlock neg As Bs], ⟨[(m, 0)], 1⟩,
        AddBlockEdges (defaultEdges (shapeToks neg As Bs Cs m).length)
          (shapeBlock neg As Bs)) := by
  simp only [GenerateControlFlowTree, shapeToks, shape_scan, List.foldl, shapeBlock]

theorem shape_E_a (neg : Bool) (As Bs : List Nat) (n : Nat) :
    AddBlockEdges (defaultEdges n) (shapeBlock neg As Bs) As.length =
      if 0 < Bs.length then [As.length + 2, As.length + 2 + Bs.length]
      else [As.length + 2 + Bs.length + 1, As.length + 2 + Bs.length] := by
  simp only [AddBlockEdges, shapeBlock, branchPairs, Option.toList, List.nil_append,
    List.zip_cons_cons, List.zip_nil_left, List.foldl, addBranchEdges]
  by_cases hb : 0 < Bs.length
  · rw [if_pos (by omega), if_pos hb]
    simp only [setEdge]
    rw [if_neg (by omega)]
    simp
  · rw [if_neg (by omega), if_neg hb]
    simp only [setEdge]
    simp

theorem shape_E_lastB (neg : Bool) (As Bs : List Nat) (n : Nat) (hb : 0 < Bs.length) :
    AddBlockEdges (defaultEdges n) (shapeBlock neg As Bs) (As.length + 1 + Bs.length) =
      [As.length + 2 + Bs.length + 1] := by
  simp only [AddBlockEdges, shapeBlock, branchPairs, Option.toList, List.nil_append,
    List.zip_cons_cons, List.zip_nil_left, List.foldl, addBranchEdges]
  rw [if_pos (by omega)]
  simp only [setEdge]
  rw [if_pos (by omega)]

theorem shape_E_default (neg : Bool) (As Bs : List Nat) (n p : Nat)
    (h1 : p ≠ As.length) (h2 : ¬(0 < Bs.length ∧ p = As.length + 1 + Bs.length)) :
    AddBlockEdges (defaultEdges n) (shapeBlock neg As Bs) p = defaultEdges n p := by
  simp only [AddBlockEdges, shapeBlock, branchPairs, Option.toList, List.nil_append,
    List.zip_cons_cons, List.zip_nil_left, List.foldl, addBranchEdges]
  by_cases hb : 0 < Bs.length
  · rw [if_pos (by omega)]
    simp only [setEdge]
    rw [if_neg (by omega), if_neg h1]
  · rw [if_neg (by omega)]
    simp only [setEdge]
    rw [if_neg h1]

theorem canonDel_emit (toks : List Tok) (reg : Registry) (E : Nat → List Nat)
    (f q : Nat) (cv : Variant) (h : toks[q]? = none) :
    canonDel toks reg E (f + 1) [q] cv = [cv] := by
  rw [canonDel_cons, visitDel_none _ _ _ _ _ _ h, canonDel_nil, List.append_nil]

theorem canonDel_pass (toks : List Tok) (reg : Registry) (E : Nat → List Nat)
    (f q : Nat) (cv : Variant) (t : Tok) (h : toks[q]? = some t)
    (hp : t.IsConditional = false) (hnot : ∀ p, t ≠ .other p) :
    canonDel toks reg E (f + 1) [q] cv = canonDel toks reg E f (E q) cv := by
  rw [canonDel_cons, visitDel_pass _ _ _ _ _ _ _ h hp hnot, canonDel_nil, List.append_nil]

/-- Running the canonical enumeration from the post-close position of a
single-block input just appends the tail tokens and emits. -/
theorem shape_run_post (neg : Bool) (As Bs Cs : List Nat) (m : Nat) (f : Nat) (cv : Variant) :
    canonDel (shapeToks neg As Bs Cs m) ⟨[(m, 0)], 1⟩
        (AddBlockEdges (defaultEdges (shapeToks neg As Bs Cs m).length) (shapeBlock neg As Bs))
        (f + 1 + Cs.length) [As.length + 3 + Bs.length] cv =
      [⟨cv.sequence ++ Cs.map Tok.other, cv.macros_mask, cv.assumed⟩] := by
  rw [canonDel_run_ordinary _ _ _ Cs (As.length + 3 + Bs.length) (f + 1) cv ?hyp]
  case hyp =>
    intro j hj
    constructor
    · rw [shapeToks_get_C _ _ _ _ _ _ hj]
      congr 1
      congr 1
      rw [List.getD_eq_getElem?_getD, List.getElem?_eq_getElem hj]
      rfl
    · rw [shape_E_default _ _ _ _ _ (by omega) (by omega), defaultEdges,
          if_pos (by rw [shapeToks_length]; omega)]
  · rw [canonDel_emit]
    rw [shapeToks_get_none]
    omega

/-- Exploring the branch body of a single-block input appends the body and
the tail tokens, then emits. -/
theorem shape_run_body (neg : Bool) (As Bs Cs : List Nat) (m : Nat) (cv : Variant)
    (hb : 0 < Bs.length) :
    canonDel (shapeToks neg As Bs Cs m) ⟨[(m, 0)], 1⟩
        (AddBlockEdges (defaultEdges (shapeToks neg As Bs Cs m).length) (shapeBlock neg As Bs))
        (Bs.length + Cs.length + 3) [As.length + 2] cv =
      [⟨cv.sequence ++ Bs.map Tok.other ++ Cs.map Tok.other, cv.macros_mask, cv.assumed⟩] := by
  obtain ⟨B0, q, rfl⟩ : ∃ B0 q, Bs = B0 ++ [q] := by
    rcases List.eq_nil_or_concat Bs with h | ⟨B0, q, h⟩
    · rw [h] at hb; simp at hb
    · exact ⟨B0, q, by simpa [List.concat_eq_append] using h⟩
  rw [show (B0 ++ [q]).length + Cs.length + 3 = (Cs.length + 4) + B0.length from by simp; omega]
  rw [canonDel_run_ordinary _ _ _ B0 (As.length + 2) (Cs.length + 4) cv ?hyp]
  case hyp =>
    intro j hj
    constructor
    · rw [show As.length + 2 + j = As.length + 2 + j from rfl,
          shapeToks_get_B _ _ _ _ _ j (by simp; omega)]
      congr 2
      rw [List.getD_eq_getElem?_getD, List.getElem?_append_left hj,
          List.getElem?_eq_getElem hj]
      rfl
    · rw [shape_E_default _ _ _ _ _ (by omega) (by simp; omega), defaultEdges,
          if_pos (by rw [shapeToks_length]; simp; omega)]
  rw [show Cs.length + 4 = (Cs.length + 3) + 1 from rfl, canonDel_cons]
  rw [visitDel_other _ _ _ _ _ _ q
      (by rw [show As.length + 2 + B0.length = As.length + 2 + B0.length from rfl,
              shapeToks_get_B _ _ _ _ _ B0.length (by simp)]
          congr 2
          simp [List.getD_eq_getElem?_getD])]
  rw [canonDel_nil, List.append_nil]
  rw [show As.length + 2 + B0.length = As.length + 1 + (B0 ++ [q]).length from by simp; omega]
  rw [shape_E_lastB _ _ _ _ (by simp)]
  rw [show As.length + 2 + (B0 ++ [q]).length + 1 = As.length + 3 + (B0 ++ [q]).length from by
        omega]
  rw [show Cs.length + 3 = 2 + 1 + Cs.length from by omega]
  rw [shape_run_post]
  simp [List.append_assoc]

/-- Skipping the block of a single-block input goes through the closing
directive to the tail tokens, then emits. -/
theorem shape_run_skip (neg : Bool) (As Bs Cs : List Nat) (m : Nat) (cv : Variant) :
    canonDel (shapeToks neg As Bs Cs m) ⟨[(m, 0)], 1⟩
        (AddBlockEdges (defaultEdges (shapeToks neg As Bs Cs m).length) (shapeBlock neg As Bs))
        (Bs.length + Cs.length + 3) [As.length + 2 + Bs.length] cv =
      [⟨cv.sequence ++ Cs.map Tok.other, cv.macros_mask, cv.assumed⟩] := by
  rw [show Bs.length + Cs.length + 3 = (Bs.length + Cs.length + 2) + 1 from rfl]
  rw [canonDel_pass _ _ _ _ _ _ Tok.PP_endif (shapeToks_get_endif _ _ _ _ _) rfl
      (by intro p h; cases h)]
  rw [shape_E_default _ _ _ _ _ (by omega) (by omega), defaultEdges,
      if_pos (by rw [shapeToks_length]; omega)]
  rw [show As.length + 2 + Bs.length + 1 = As.length + 3 + Bs.length from by omega]
  rw [show Bs.length + Cs.length + 2 = Bs.length + 1 + 1 + Cs.length from by omega]
  rw [shape_run_post]

theorem shape_canon (neg : Bool) (As Bs Cs : List Nat) (m : Nat) :
    canonDel (shapeToks neg As Bs Cs m) ⟨[(m, 0)], 1⟩
        (AddBlockEdges (defaultEdges (shapeToks neg As Bs Cs m).length) (shapeBlock neg As Bs))
        ((shapeToks neg As Bs Cs m).length + 1) [0] ⟨[], 0, 0⟩ =
      if neg then
        [⟨As.map Tok.other ++ Cs.map Tok.other, setBit 0 0, setBit 0 0⟩,
         ⟨As.map Tok.other ++ Bs.map Tok.other ++ Cs.map Tok.other,
          clearBit (setBit 0 0) 0, setBit 0 0⟩]
      else
        [⟨As.map Tok.other ++ Bs.map Tok.other ++ Cs.map Tok.other, setBit 0 0, setBit 0 0⟩,
         ⟨As.map Tok.other ++ Cs.map Tok.other, clearBit (setBit 0 0) 0, setBit 0 0⟩] := by
  rw [show (shapeToks neg As Bs Cs m).length + 1 =
      (Bs.length + Cs.length + 4) + As.length from by rw [shapeToks_length]; omega]
  rw [canonDel_run_ordinary _ _ _ As 0 (Bs.length + Cs.length + 4) ⟨[], 0, 0⟩ ?hypA]
  case hypA =>
    intro j hj
    constructor
    · rw [Nat.zero_add, shapeToks_get_A _ _ _ _ _ _ hj]
      congr 2
      rw [List.getD_eq_getElem?_getD, List.getElem?_eq_getElem hj]
      rfl
    · rw [Nat.zero_add, shape_E_default _ _ _ _ _ (by omega) (by omega), defaultEdges,
          if_pos (by rw [shapeToks_length]; omega)]
  rw [Nat.zero_add, List.nil_append]
  rw [show Bs.length + Cs.length + 4 = (Bs.length + Cs.length + 3) + 1 from rfl,
      canonDel_cons, canonDel_nil, List.append_nil]
  have hid : GetMacroIDOfConditional (shapeToks neg As Bs Cs m) ⟨[(m, 0)], 1⟩ As.length = 0 := by
    rw [GetMacroIDOfConditional, shapeToks_get_ident]
    simp [List.lookup]
  have ha : (⟨As.map Tok.other, 0, 0⟩ : Variant).assumed.testBit
      (GetMacroIDOfConditional (shapeToks neg As Bs Cs m) ⟨[(m, 0)], 1⟩ As.length) = false := by
    simp [Nat.zero_testBit]
  cases neg
  · rw [visitDel_fork _ _ _ _ _ _ Tok.PP_ifdef
        (by simpa using shapeToks_get_open false As Bs Cs m) rfl ha]
    rw [hid]
    simp only [Tok.polarity, if_true]
    rw [shape_E_a]
    by_cases hb : 0 < Bs.length
    · rw [if_pos hb]
      simp only [List.getD, List.get?_cons_zero, List.get?_cons_succ, Option.getD_some]
      rw [shape_run_body _ _ _ _ _ _ hb, shape_run_skip]
      simp [Bool.false_eq_true, if_false]
    · obtain rfl : Bs = [] := List.eq_nil_of_length_eq_zero (by omega)
      rw [if_neg hb]
      simp only [List.getD, List.get?_cons_zero, List.get?_cons_succ, Option.getD_some]
      rw [show (([] : List Nat)).length + Cs.length + 3 = 2 + 1 + Cs.length from by simp; omega]
      rw [show As.length + 2 + (([] : List Nat)).length + 1 = As.length + 3 +
          (([] : List Nat)).length from by simp]
      rw [shape_run_post]
      rw [show 2 + 1 + Cs.length = (([] : List Nat)).length + Cs.length + 3 from by simp; omega]
      rw [show As.length + 2 + (([] : List Nat)).length = As.length + 2 +
          (([] : List Nat)).length from rfl]
      rw [shape_run_skip]
      simp [Bool.false_eq_true, if_false]
  · rw [visitDel_fork _ _ _ _ _ _ Tok.PP_ifndef
        (by simpa using shapeToks_get_open true As Bs Cs m) rfl ha]
    rw [hid]
    simp only [Tok.polarity, Bool.false_eq_true, if_false]
    rw [shape_E_a]
    by_cases hb : 0 < Bs.length
    · rw [if_pos hb]
      simp only [List.getD, List.get?_cons_zero, List.get?_cons_succ, Option.getD_some]
      rw [shape_run_body _ _ _ _ _ _ hb, shape_run_skip]
      simp
    · obtain rfl : Bs = [] := List.eq_nil_of_length_eq_zero (by omega)
      rw [if_neg hb]
      simp only [List.getD, List.get?_cons_zero, List.get?_cons_succ, Option.getD_some]
      rw [show (([] : List Nat)).length + Cs.length + 3 = 2 + 1 + Cs.length from by simp; omega]
      rw [show As.length + 2 + (([] : List Nat)).length + 1 = As.length + 3 +
          (([] : List Nat)).length from by simp]
      rw [shape_run_post]
      rw [show 2 + 1 + Cs.length = (([] : List Nat)).length + Cs.length + 3 from by simp; omega]
      rw [shape_run_skip]
      simp

theorem masks_one : setBit 0 0 = 1 := by decide

theorem masks_zero : clearBit 1 0 = 0 := by decide

theorem stopTrunc_countReceiver (k : Nat) (xs : List Variant) :
    ∀ c, c < k → stopTrunc (countReceiver k) c xs = xs.take (k - c) := by
  induction xs with
  | nil => intro c _; simp [stopTrunc]
  | cons v vs ih =>
    intro c hc
    by_cases h : c + 1 < k
    · rw [show k - c = (k - (c + 1)) + 1 from by omega]
      simp only [stopTrunc, countReceiver, List.take_succ_cons]
      rw [ih (c + 1) h]
      simp [h]
    · rw [show k - c = 1 from by omega]
      simp [stopTrunc, countReceiver, h]

theorem stopTrunc_singleton (r : VariantReceiver σ) (st : σ) (v : Variant) :
    stopTrunc r st [v] = [v] := by
  simp [stopTrunc]

theorem ordinary_gcft (ps : List Nat) :
    GenerateControlFlowTree (ps.map Tok.other) =
      .ok ([], ⟨[], 0⟩, defaultEdges (ps.map Tok.other).length) := by
  simp only [GenerateControlFlowTree]
  rw [show ps.map Tok.other = ps.map Tok.other ++ [] from (List.append_nil _).symm,
      scan_skip_ordinary]
  simp [scanBlocks]

theorem ordinary_canon (ps : List Nat) :
    canonDel (ps.map Tok.other) ⟨[], 0⟩ (defaultEdges (ps.map Tok.other).length)
        ((ps.map Tok.other).length + 1) [0] ⟨[], 0, 0⟩ =
      [⟨ps.map Tok.other, 0, 0⟩] := by
  rw [show (List.map Tok.other ps).length + 1 = 1 + ps.length from by simp; omega]
  rw [canonDel_run_ordinary _ _ _ ps 0 1 ⟨[], 0, 0⟩ ?hyp]
  case hyp =>
    intro j hj
    constructor
    · rw [Nat.zero_add, List.getElem?_map, List.getElem?_eq_getElem hj]
      simp [List.getD_eq_getElem?_getD, List.getElem?_eq_getElem hj]
    · rw [Nat.zero_add, defaultEdges, if_pos (by simpa using hj)]
  rw [Nat.zero_add, List.nil_append, canonDel_emit]
  rw [List.getElem?_eq_none]
  simp

/-- C2: whenever extraction or registration fails (capacity exceeded,
missing macro name, alternative without opening, branch after else,
unmatched or missing close — all the FlowError kinds), GenerateVariants
returns that failure status, the receiver is never invoked (its closure
state is returned untouched), zero variants are delivered and no token is
ever appended, because the failure is detected in the extraction phase
before any traversal begins. -/
theorem C2_extraction_failure_delivers_nothing :
    ∀ {σ : Type} (toks : List Tok) (r : VariantReceiver σ) (s0 : σ) (e : FlowError),
      GenerateControlFlowTree toks = .error e →
      GenerateVariants toks r s0 = (.error e, ⟨⟨[], 0, 0⟩, [], true, s0, 0⟩) := by
  intro σ toks r s0 e h
  rw [GenerateVariants_error toks r s0 e h]
  rfl

/-- C2 witness: a closing directive with no opening makes the whole call
fail with zero variants delivered. -/
theorem C2_witness :
    GenerateVariants [Tok.PP_endif] trivialReceiver () =
      (.error .UnmatchedCloseError, ⟨⟨[], 0, 0⟩, [], true, (), 0⟩) :=
  C2_extraction_failure_delivers_nothing [Tok.PP_endif] trivialReceiver ()
    .UnmatchedCloseError rfl

/-- C3: the receiver protocol honors early stop exactly.  First, once the
stop flag is down the search does nothing at all: no variant is delivered,
no token appended, no position visited.  Second, for every receiver the
run succeeds and delivers precisely the canonical variant sequence
truncated at the receiver's first false answer.  Third, a receiver that
returns false upon receiving the k-th variant (with at least k variants
reachable) gets exactly k variants, and the overall status is success. -/
theorem C3_receiver_early_stop :
    (∀ {σ : Type} (toks : List Tok) (reg : Registry) (E : Nat → List Nat)
        (r : VariantReceiver σ) (fuel : Nat) (wl : List Nat) (s : DfsState σ),
        s.wants_more = false → DepthFirstSearch toks reg E r fuel wl s = s) ∧
    (∀ {σ : Type} (toks : List Tok) (r : VariantReceiver σ) (s0 : σ)
        (blocks : List ConditionalBlock) (reg : Registry) (E : Nat → List Nat),
        GenerateControlFlowTree toks = .ok (blocks, reg, E) →
        (GenerateVariants toks r s0).1 = .ok ∧
        (GenerateVariants toks r s0).2.delivered = stopTrunc r s0 (AllVariants toks)) ∧
    (∀ (toks : List Tok) (k : Nat) (blocks : List ConditionalBlock) (reg : Registry)
        (E : Nat → List Nat),
        GenerateControlFlowTree toks = .ok (blocks, reg, E) →
        1 ≤ k → k ≤ (AllVariants toks).length →
        (GenerateVariants toks (countReceiver k) 0).1 = .ok ∧
        ((GenerateVariants toks (countReceiver k) 0).2.delivered).length = k) := by
  refine ⟨fun toks reg E r fuel wl s h => dfs_stopped toks reg E r fuel wl s h, ?_, ?_⟩
  · intro σ toks r s0 blocks reg E h
    rw [GenerateVariants_ok toks r s0 blocks reg E h,
        AllVariants_eq_canonDel toks blocks reg E h]
    exact ⟨rfl, rfl⟩
  · intro toks k blocks reg E h hk1 hk2
    have h2 := GenerateVariants_ok toks (countReceiver k) 0 blocks reg E h
    rw [h2]
    refine ⟨rfl, ?_⟩
    simp only [DfsState.delivered]
    rw [← AllVariants_eq_canonDel toks blocks reg E h,
        stopTrunc_countReceiver k (AllVariants toks) 0 (by omega)]
    simp only [Nat.sub_zero, List.length_take]
    omega

/-- C3 witness: on a one-block input with two reachable variants, the
counting receiver that stops after the first variant gets exactly one. -/
theorem C3_witness :
    (GenerateVariants [Tok.PP_ifdef, Tok.PP_Identifier 5, Tok.other 9, Tok.PP_endif]
        (countReceiver 1) 0).1 = .ok ∧
    ((GenerateVariants [Tok.PP_ifdef, Tok.PP_Identifier 5, Tok.other 9, Tok.PP_endif]
        (countReceiver 1) 0).2.delivered).length = 1 :=
  C3_receiver_early_stop.2.2
    [Tok.PP_ifdef, Tok.PP_Identifier 5, Tok.other 9, Tok.PP_endif] 1 _ _ _ rfl
    (by decide) (by decide)

/-- C9: emission is deterministic.  Every run delivers a prefix of the one
canonical variant sequence of the input, and any two runs whose receivers
never ask to stop deliver exactly the same sequence of variants. -/
theorem C9_deterministic_emission :
    (∀ {σ : Type} (toks : List Tok) (r : VariantReceiver σ) (s0 : σ),
        ∃ t, (GenerateVariants toks r s0).2.delivered ++ t = AllVariants toks) ∧
    (∀ {σ1 σ2 : Type} (toks : List Tok) (r1 : VariantReceiver σ1) (s1 : σ1)
        (r2 : VariantReceiver σ2) (s2 : σ2),
        (∀ st v, (r1 st v).2 = true) → (∀ st v, (r2 st v).2 = true) →
        (GenerateVariants toks r1 s1).2.delivered =
          (GenerateVariants toks r2 s2).2.delivered) := by
  constructor
  · intro σ toks r s0
    rcases h : GenerateControlFlowTree toks with e | ⟨blocks, reg, E⟩
    · rw [GenerateVariants_error toks r s0 e h]
      refine ⟨[], ?_⟩
      rw [AllVariants, GenerateVariants_error toks trivialReceiver () e h]
      rfl
    · rw [GenerateVariants_ok toks r s0 blocks reg E h,
          AllVariants_eq_canonDel toks blocks reg E h]
      exact stopTrunc_prefix r s0 _
  · intro σ1 σ2 toks r1 s1 r2 s2 h1 h2
    rcases h : GenerateControlFlowTree toks with e | ⟨blocks, reg, E⟩
    · rw [GenerateVariants_error toks r1 s1 e h, GenerateVariants_error toks r2 s2 e h]
      rfl
    · rw [GenerateVariants_ok toks r1 s1 blocks reg E h,
          GenerateVariants_ok toks r2 s2 blocks reg E h]
      simp only [DfsState.delivered]
      rw [stopTrunc_of_neverStops r1 s1 _ h1, stopTrunc_of_neverStops r2 s2 _ h2]

/-- C9 witness: a run with the trivial receiver delivers a prefix of the
canonical sequence on a concrete two-block input. -/
theorem C9_witness :
    ∃ t, (GenerateVariants [Tok.PP_ifdef, Tok.PP_Identifier 5, Tok.other 9, Tok.PP_endif]
        (countReceiver 1) 0).2.delivered ++ t =
      AllVariants [Tok.PP_ifdef, Tok.PP_Identifier 5, Tok.other 9, Tok.PP_endif] :=
  C9_deterministic_emission.1
    [Tok.PP_ifdef, Tok.PP_Identifier 5, Tok.other 9, Tok.PP_endif] (countReceiver 1) 0

/-- C5: an input with no conditional directives (every token ordinary)
succeeds and delivers, to any receiver, exactly one variant whose token
sequence is identical to the input with nothing stripped, and whose
macro-assumption and assumed bit-vectors are both all-zero. -/
theorem C5_no_directives_one_identical_variant :
    ∀ {σ : Type} (ps : List Nat) (r : VariantReceiver σ) (s0 : σ),
      (GenerateVariants (ps.map Tok.other) r s0).1 = .ok ∧
      (GenerateVariants (ps.map Tok.other) r s0).2.delivered = [⟨ps.map Tok.other, 0, 0⟩] := by
  intro σ ps r s0
  rw [GenerateVariants_ok (ps.map Tok.other) r s0 [] ⟨[], 0⟩
      (defaultEdges (ps.map Tok.other).length) (ordinary_gcft ps)]
  refine ⟨rfl, ?_⟩
  simp only [DfsState.delivered]
  rw [ordinary_canon ps, stopTrunc_singleton]

/-- C5 witness at a concrete ordinary input. -/
theorem C5_witness :
    (GenerateVariants ([3, 7].map Tok.other) trivialReceiver ()).1 = .ok ∧
    (GenerateVariants ([3, 7].map Tok.other) trivialReceiver ()).2.delivered =
      [⟨[3, 7].map Tok.other, 0, 0⟩] :=
  C5_no_directives_one_identical_variant [3, 7] trivialReceiver ()

/-- C4: an input holding exactly one conditional block that guards a
single macro and has no alternative branch succeeds and enumerates
exactly two variants: first the one containing the block body with the
macro assumed defined (assumption bit 1), then the one without the body
with the assumption bit clear; the assumed bit of the macro (ID 0, the
only registered macro) is set in both. -/
theorem C4_one_block_two_variants :
    ∀ (As Bs Cs : List Nat) (m : Nat) {σ : Type} (r : VariantReceiver σ) (s0 : σ),
      (GenerateVariants (shapeToks false As Bs Cs m) r s0).1 = .ok ∧
      AllVariants (shapeToks false As Bs Cs m) =
        [⟨As.map Tok.other ++ Bs.map Tok.other ++ Cs.map Tok.other, 1, 1⟩,
         ⟨As.map Tok.other ++ Cs.map Tok.other, 0, 1⟩] := by
  intro As Bs Cs m σ r s0
  constructor
  · rw [GenerateVariants_ok _ r s0 _ _ _ (shape_gcft false As Bs Cs m)]
  · rw [AllVariants_eq_canonDel _ _ _ _ (shape_gcft false As Bs Cs m), shape_canon]
    simp [masks_one, masks_zero]

/-- C4 witness at a concrete instance. -/
theorem C4_witness :
    (GenerateVariants (shapeToks false [4] [8] [6] 5) trivialReceiver ()).1 = .ok ∧
    AllVariants (shapeToks false [4] [8] [6] 5) =
      [⟨[4].map Tok.other ++ [8].map Tok.other ++ [6].map Tok.other, 1, 1⟩,
       ⟨[4].map Tok.other ++ [6].map Tok.other, 0, 1⟩] :=
  C4_one_block_two_variants [4] [8] [6] 5 trivialReceiver ()

/-- C10: the extractor records in each ConditionalBlock which keyword
opened it (the openIsIfndef flag holds exactly for ifndef), and for a
block opened by ifndef the branch polarity is inverted relative to an
ifdef block: the variant that assumes the guarded macro defined
(assumption bit 1) skips the body, and the variant that assumes it
undefined contains the body — the mirror image of the ifdef order proved
for C4. -/
theorem C10_ifndef_inverts_polarity :
    (∀ (neg : Bool) (As Bs Cs : List Nat) (m : Nat),
      GenerateControlFlowTree (shapeToks neg As Bs Cs m) =
        .ok ([shapeBlock neg As Bs], ⟨[(m, 0)], 1⟩,
          AddBlockEdges (defaultEdges (shapeToks neg As Bs Cs m).length)
            (shapeBlock neg As Bs)) ∧
      (shapeBlock neg As Bs).openIsIfndef = neg) ∧
    (∀ (As Bs Cs : List Nat) (m : Nat),
      AllVariants (shapeToks true As Bs Cs m) =
        [⟨As.map Tok.other ++ Cs.map Tok.other, 1, 1⟩,
         ⟨As.map Tok.other ++ Bs.map Tok.other ++ Cs.map Tok.other, 0, 1⟩]) := by
  constructor
  · intro neg As Bs Cs m
    exact ⟨shape_gcft neg As Bs Cs m, rfl⟩
  · intro As Bs Cs m
    rw [AllVariants_eq_canonDel _ _ _ _ (shape_gcft true As Bs Cs m), shape_canon]
    simp [masks_one, masks_zero]

/-- C10 witness at a concrete instance. -/
theorem C10_witness :
    AllVariants (shapeToks true [4] [8] [6] 5) =
      [⟨[4].map Tok.other ++ [6].map Tok.other, 1, 1⟩,
       ⟨[4].map Tok.other ++ [8].map Tok.other ++ [6].map Tok.other, 0, 1⟩] :=
  C10_ifndef_inverts_polarity.2 [4] [8] [6] 5

theorem lookup_none_not_mem (l : List (Nat × Nat)) (a : Nat) (h : l.lookup a = none) :
    a ∉ l.map Prod.fst := by
  induction l with
  | nil => simp
  | cons pr rest ih =>
    simp only [List.lookup] at h
    rcases hpr : (a == pr.1) with _ | _
    · rw [hpr] at h
      simp only [List.map_cons, List.mem_cons]
      rintro (h1 | h1)
      · rw [h1] at hpr; simp at hpr
      · exact ih h h1
    · rw [hpr] at h; cases h

theorem lookup_isSome_mem (l : List (Nat × Nat)) (a : Nat) (h : (l.lookup a).isSome) :
    a ∈ l.map Prod.fst := by
  induction l with
  | nil => simp [List.lookup] at h
  | cons pr rest ih =>
    simp only [List.lookup] at h
    rcases hpr : (a == pr.1) with _ | _
    · rw [hpr] at h
      simp only [List.map_cons, List.mem_cons]
      exact Or.inr (ih h)
    · simp only [List.map_cons, List.mem_cons]
      exact Or.inl (by simpa using hpr)

theorem lookup_mem_values (l : List (Nat × Nat)) (a v : Nat) (h : l.lookup a = some v) :
    ∃ pr ∈ l, pr.2 = v := by
  induction l with
  | nil => cases h
  | cons pr rest ih =>
    simp only [List.lookup] at h
    rcases hpr : (a == pr.1) with _ | _
    · rw [hpr] at h
      obtain ⟨pr2, hm, hv⟩ := ih h
      exact ⟨pr2, by simp [hm], hv⟩
    · rw [hpr] at h
      injection h with h
      exact ⟨pr, by simp, h⟩

theorem idFor_ok_facts (reg reg2 : Registry) (nm i : Nat)
    (h : reg.idFor nm = .ok (reg2, i)) :
    reg2.conditional_macro_id.lookup nm = some i ∧
    (∀ x, (reg.conditional_macro_id.lookup x).isSome →
          (reg2.conditional_macro_id.lookup x).isSome) ∧
    (RegInv reg → RegInv reg2) ∧
    reg.conditional_macros_counter ≤ reg2.conditional_macros_counter := by
  rw [Registry.idFor] at h
  rcases hl : reg.conditional_macro_id.lookup nm with _ | v
  · rw [hl] at h
    by_cases hcap : reg.conditional_macros_counter < 128
    · rw [if_pos hcap] at h
      injection h with h
      injection h with h1 h2
      subst h2
      rw [← h1]
      refine ⟨?_, ?_, ?_, by simp⟩
      · simp [List.lookup]
      · intro x hx
        simp only [List.lookup]
        rcases hx2 : (x == nm) with _ | _
        · simpa [hx2] using hx
        · simp
      · rintro ⟨hv, hc, hlen, hnd⟩
        refine ⟨?_, by simp; omega, by simp [hlen], ?_⟩
        · rintro pr hpr
          rcases List.mem_cons.mp hpr with h2 | h2
          · rw [h2]; simp
          · have := hv pr h2
            simp only [Registry.conditional_macros_counter]
            omega
        · simp only [List.map_cons]
          exact List.Nodup.cons (lookup_none_not_mem _ _ hl) hnd
    · rw [if_neg hcap] at h; cases h
  · rw [hl] at h
    injection h with h
    injection h with h1 h2
    subst h2
    rw [← h1]
    exact ⟨hl, fun x hx => hx, fun hi => hi, le_refl _⟩

theorem scan_cons_inv (t : Tok) (rest : List Tok) (pos : Nat) (stack : List OpenBlock)
    (done bl : List ConditionalBlock) (reg regF : Registry)
    (h : scanBlocks (t :: rest) pos stack done reg = .ok (bl, regF)) :
    ∃ stack2 done2 reg2,
      scanBlocks rest (pos + 1) stack2 done2 reg2 = .ok (bl, regF) ∧
      (∀ x, (reg.conditional_macro_id.lookup x).isSome →
            (reg2.conditional_macro_id.lookup x).isSome) ∧
      (RegInv reg → RegInv reg2) ∧
      (t.IsConditional = true →
        ∃ nm, rest.head? = some (.PP_Identifier nm) ∧
          (reg2.conditional_macro_id.lookup nm).isSome) := by
  cases t with
  | other p =>
    simp only [scanBlocks] at h
    exact ⟨stack, done, reg, h, fun x hx => hx, fun hi => hi, fun hc => by cases hc⟩
  | PP_Identifier nm =>
    simp only [scanBlocks] at h
    exact ⟨stack, done, reg, h, fun x hx => hx, fun hi => hi, fun hc => by cases hc⟩
  | PP_else =>
    simp only [scanBlocks] at h
    match stack with
    | [] => cases h
    | top :: stk =>
      simp only [] at h
      by_cases he : top.else_iterator.isSome
      · rw [if_pos he] at h; cases h
      · rw [if_neg he] at h
        exact ⟨_, done, reg, h, fun x hx => hx, fun hi => hi, fun hc => by cases hc⟩
  | PP_endif =>
    simp only [scanBlocks] at h
    match stack with
    | [] => cases h
    | top :: stk =>
      simp only [] at h
      exact ⟨stk, _, reg, h, fun x hx => hx, fun hi => hi, fun hc => by cases hc⟩
  | PP_ifdef =>
    simp only [scanBlocks] at h
    rcases hh : rest.head? with _ | t2
    · rw [hh] at h; cases h
    · rw [hh] at h
      match t2 with
      | .PP_Identifier nm =>
        simp only [] at h
        rcases hif : reg.idFor nm with e | ⟨reg2, i⟩
        · rw [hif] at h; cases h
        · rw [hif] at h
          obtain ⟨hlook, hmono, hinv, _⟩ := idFor_ok_facts reg reg2 nm i hif
          exact ⟨_, done, reg2, h, hmono, hinv,
            fun _ => ⟨nm, rfl, by rw [hlook]; rfl⟩⟩
      | .other p => cases h
      | .PP_ifdef => cases h
      | .PP_ifndef => cases h
      | .PP_elsif => cases h
      | .PP_else => cases h
      | .PP_endif => cases h
  | PP_ifndef =>
    simp only [scanBlocks] at h
    rcases hh : rest.head? with _ | t2
    · rw [hh] at h; cases h
    · rw [hh] at h
      match t2 with
      | .PP_Identifier nm =>
        simp only [] at h
        rcases hif : reg.idFor nm with e | ⟨reg2, i⟩
        · rw [hif] at h; cases h
        · rw [hif] at h
          obtain ⟨hlook, hmono, hinv, _⟩ := idFor_ok_facts reg reg2 nm i hif
          exact ⟨_, done, reg2, h, hmono, hinv,
            fun _ => ⟨nm, rfl, by rw [hlook]; rfl⟩⟩
      | .other p => cases h
      | .PP_ifdef => cases h
      | .PP_ifndef => cases h
      | .PP_elsif => cases h
      | .PP_else => cases h
      | .PP_endif => cases h
  | PP_elsif =>
    simp only [scanBlocks] at h
    match stack with
    | [] => cases h
    | top :: stk =>
      simp only [] at h
      by_cases he : top.else_iterator.isSome
      · rw [if_pos he] at h; cases h
      · rw [if_neg he] at h
        rcases hh : rest.head? with _ | t2
        · rw [hh] at h; cases h
        · rw [hh] at h
          match t2 with
          | .PP_Identifier nm =>
            simp only [] at h
            rcases hif : reg.idFor nm with e | ⟨reg2, i⟩
            · rw [hif] at h; cases h
            · rw [hif] at h
              obtain ⟨hlook, hmono, hinv, _⟩ := idFor_ok_facts reg reg2 nm i hif
              exact ⟨_, done, reg2, h, hmono, hinv,
                fun _ => ⟨nm, rfl, by rw [hlook]; rfl⟩⟩
          | .other p => cases h
          | .PP_ifdef => cases h
          | .PP_ifndef => cases h
          | .PP_elsif => cases h
          | .PP_else => cases h
          | .PP_endif => cases h

theorem scan_reg_mono : ∀ (rest : List Tok) (pos : Nat) (stack : List OpenBlock)
    (done bl : List ConditionalBlock) (reg regF : Registry),
    scanBlocks rest pos stack done reg = .ok (bl, regF) →
    ∀ x, (reg.conditional_macro_id.lookup x).isSome →
         (regF.conditional_macro_id.lookup x).isSome := by
  intro rest
  induction rest with
  | nil =>
    intro pos stack done bl reg regF h x hx
    simp only [scanBlocks] at h
    by_cases hs : stack.isEmpty
    · rw [if_pos hs] at h
      injection h with h
      injection h with h1 h2
      rw [← h2]; exact hx
    · rw [if_neg hs] at h; cases h
  | cons t rest ih =>
    intro pos stack done bl reg regF h x hx
    obtain ⟨stack2, done2, reg2, h2, hmono, _, _⟩ :=
      scan_cons_inv t rest pos stack done bl reg regF h
    exact ih (pos + 1) stack2 done2 bl reg2 regF h2 x (hmono x hx)

theorem scan_RegInv : ∀ (rest : List Tok) (pos : Nat) (stack : List OpenBlock)
    (done bl : List ConditionalBlock) (reg regF : Registry),
    scanBlocks rest pos stack done reg = .ok (bl, regF) →
    RegInv reg → RegInv regF := by
  intro rest
  induction rest with
  | nil =>
    intro pos stack done bl reg regF h hi
    simp only [scanBlocks] at h
    by_cases hs : stack.isEmpty
    · rw [if_pos hs] at h
      injection h with h
      injection h with h1 h2
      rw [← h2]; exact hi
    · rw [if_neg hs] at h; cases h
  | cons t rest ih =>
    intro pos stack done bl reg regF h hi
    obtain ⟨stack2, done2, reg2, h2, _, hinv, _⟩ :=
      scan_cons_inv t rest pos stack done bl reg regF h
    exact ih (pos + 1) stack2 done2 bl reg2 regF h2 (hinv hi)

theorem scan_conds_registered : ∀ (rest : List Tok) (pos : Nat) (stack : List OpenBlock)
    (done bl : List ConditionalBlock) (reg regF : Registry),
    scanBlocks rest pos stack done reg = .ok (bl, regF) →
    ∀ i t, rest[i]? = some t → t.IsConditional = true →
      ∃ nm, rest[i + 1]? = some (.PP_Identifier nm) ∧
        (regF.conditional_macro_id.lookup nm).isSome := by
  intro rest
  induction rest with
  | nil => intro pos stack done bl reg regF h i t hi; cases hi
  | cons t0 rest ih =>
    intro pos stack done bl reg regF h i t hi hc
    obtain ⟨stack2, done2, reg2, h2, hmono, _, hcond⟩ :=
      scan_cons_inv t0 rest pos stack done bl reg regF h
    match i, hi with
    | 0, hi =>
      rw [List.getElem?_cons_zero] at hi
      injection hi with hi
      subst hi
      obtain ⟨nm, hhead, hsome⟩ := hcond hc
      refine ⟨nm, ?_, scan_reg_mono rest (pos + 1) stack2 done2 bl reg2 regF h2 nm hsome⟩
      simpa [List.getElem?_cons_succ, ← List.head?_eq_getElem?] using hhead
    | i + 1, hi =>
      rw [List.getElem?_cons_succ] at hi
      obtain ⟨nm, hnm, hsome⟩ := ih (pos + 1) stack2 done2 bl reg2 regF h2 i t hi hc
      exact ⟨nm, by simpa using hnm, hsome⟩

theorem chain_append_singleton (l : List Nat) (z : Nat) (hc : List.Chain' (· < ·) l)
    (hlt : ∀ x ∈ l, x < z) : List.Chain' (· < ·) (l ++ [z]) := by
  rw [List.chain'_append]
  refine ⟨hc, List.chain'_singleton z, ?_⟩
  intro x hx y hy
  simp only [List.head?_cons, Option.mem_def, Option.some.injEq] at hy
  subst hy
  exact hlt x (List.mem_of_mem_getLast? hx)

theorem OpenInv_mono (toks : List Tok) (pos : Nat) (ob : OpenBlock)
    (h : OpenInv toks pos ob) : OpenInv toks (pos + 1) ob := by
  obtain ⟨h1, h2, h3, h4, h5⟩ := h
  exact ⟨h1, h2, h3, h4, fun q hq => Nat.lt_succ_of_lt (h5 q hq)⟩

theorem scan_blocks_inv (toks : List Tok) :
    ∀ (rest : List Tok) (pos : Nat) (stack : List OpenBlock)
      (done bl : List ConditionalBlock) (reg regF : Registry),
      scanBlocks rest pos stack done reg = .ok (bl, regF) →
      (∀ i, rest[i]? = toks[pos + i]?) →
      (∀ ob ∈ stack, OpenInv toks pos ob) →
      (∀ b ∈ done, BlockInv toks b) →
      ∀ b ∈ bl, BlockInv toks b := by
  intro rest
  induction rest with
  | nil =>
    intro pos stack done bl reg regF h hrest hstack hdone
    simp only [scanBlocks] at h
    by_cases hs : stack.isEmpty
    · rw [if_pos hs] at h
      injection h with h
      injection h with h1 h2
      rw [← h1]; exact hdone
    · rw [if_neg hs] at h; cases h
  | cons t rest ih =>
    intro pos stack done bl reg regF h hrest hstack hdone
    have htok : toks[pos]? = some t := by
      have := hrest 0
      simpa using this.symm
    have hrest2 : ∀ i, rest[i]? = toks[pos + 1 + i]? := by
      intro i
      have := hrest (i + 1)
      simpa [Nat.add_assoc, Nat.add_comm 1 i] using this
    cases t with
    | other p =>
      simp only [scanBlocks] at h
      exact ih (pos + 1) stack done bl _ regF h hrest2
        (fun ob hob => OpenInv_mono toks pos ob (hstack ob hob)) hdone
    | PP_Identifier nm =>
      simp only [scanBlocks] at h
      exact ih (pos + 1) stack done bl _ regF h hrest2
        (fun ob hob => OpenInv_mono toks pos ob (hstack ob hob)) hdone
    | PP_ifdef =>
      simp only [scanBlocks] at h
      rcases hh : rest.head? with _ | t2
      · rw [hh] at h; cases h
      · rw [hh] at h
        match t2 with
        | .PP_Identifier nm =>
          simp only [] at h
          rcases hif : reg.idFor nm with e | ⟨reg2, i⟩
          · rw [hif] at h; cases h
          · rw [hif] at h
            refine ih (pos + 1) _ done bl reg2 regF h hrest2 ?_ hdone
            rintro ob hob
            rcases List.mem_cons.mp hob with h2 | h2
            · subst h2
              refine ⟨by simpa using htok, by simp, by simp, ?_, ?_⟩
              · simp [openList]
              · simp [openList]
            · exact OpenInv_mono toks pos ob (hstack ob h2)
        | .other p => cases h
        | .PP_ifdef => cases h
        | .PP_ifndef => cases h
        | .PP_elsif => cases h
        | .PP_else => cases h
        | .PP_endif => cases h
    | PP_ifndef =>
      simp only [scanBlocks] at h
      rcases hh : rest.head? with _ | t2
      · rw [hh] at h; cases h
      · rw [hh] at h
        match t2 with
        | .PP_Identifier nm =>
          simp only [] at h
          rcases hif : reg.idFor nm with e | ⟨reg2, i⟩
          · rw [hif] at h; cases h
          · rw [hif] at h
            refine ih (pos + 1) _ done bl reg2 regF h hrest2 ?_ hdone
            rintro ob hob
            rcases List.mem_cons.mp hob with h2 | h2
            · subst h2
              refine ⟨by simpa using htok, by simp, by simp, ?_, ?_⟩
              · simp [openList]
              · simp [openList]
            · exact OpenInv_mono toks pos ob (hstack ob h2)
        | .other p => cases h
        | .PP_ifdef => cases h
        | .PP_ifndef => cases h
        | .PP_elsif => cases h
        | .PP_else => cases h
        | .PP_endif => cases h
    | PP_elsif =>
      simp only [scanBlocks] at h
      match stack with
      | [] => cases h
      | top :: stk =>
        simp only [] at h
        by_cases he : top.else_iterator.isSome
        · rw [if_pos he] at h; cases h
        · rw [if_neg he] at h
          rcases hh : rest.head? with _ | t2
          · rw [hh] at h; cases h
          · rw [hh] at h
            match t2 with
            | .PP_Identifier nm =>
              simp only [] at h
              rcases hif : reg.idFor nm with e | ⟨reg2, i⟩
              · rw [hif] at h; cases h
              · rw [hif] at h
                obtain ⟨ht1, ht2, ht3, ht4, ht5⟩ := hstack top (by simp)
                have helse : top.else_iterator = none := by
                  rcases hv : top.else_iterator with _ | v
                  · rfl
                  · rw [hv] at he; simp at he
                refine ih (pos + 1) _ done bl reg2 regF h hrest2 ?_ hdone
                rintro ob hob
                rcases List.mem_cons.mp hob with h2 | h2
                · subst h2
                  rw [openList] at ht4 ht5
                  rw [helse] at ht4 ht5
                  simp only [Option.toList_none, List.append_nil] at ht4 ht5
                  refine ⟨ht1, ?_, by simp [helse], ?_, ?_⟩
                  · intro q hq
                    rcases List.mem_append.mp hq with h3 | h3
                    · exact ht2 q h3
                    · simp at h3; subst h3; exact htok
                  · rw [openList]
                    simp only [helse, Option.toList_none, List.append_nil]
                    rw [show top.openPos :: (top.elsif_iterators ++ [pos]) =
                        (top.openPos :: top.elsif_iterators) ++ [pos] from by simp]
                    exact chain_append_singleton _ pos ht4 ht5
                  · rw [openList]
                    simp only [helse, Option.toList_none, List.append_nil]
                    intro q hq
                    rw [show top.openPos :: (top.elsif_iterators ++ [pos]) =
                        (top.openPos :: top.elsif_iterators) ++ [pos] from by simp] at hq
                    rcases List.mem_append.mp hq with h3 | h3
                    · exact Nat.lt_succ_of_lt (ht5 q h3)
                    · simp at h3; omega
                · exact OpenInv_mono toks pos ob (hstack ob (by simp [h2]))
            | .other p => cases h
            | .PP_ifdef => cases h
            | .PP_ifndef => cases h
            | .PP_elsif => cases h
            | .PP_else => cases h
            | .PP_endif => cases h
    | PP_else =>
      simp only [scanBlocks] at h
      match stack with
      | [] => cases h
      | top :: stk =>
        simp only [] at h
        by_cases he : top.else_iterator.isSome
        · rw [if_pos he] at h; cases h
        · rw [if_neg he] at h
          obtain ⟨ht1, ht2, ht3, ht4, ht5⟩ := hstack top (by simp)
          have helse : top.else_iterator = none := by
            rcases hv : top.else_iterator with _ | v
            · rfl
            · rw [hv] at he; simp at he
          refine ih (pos + 1) _ done bl reg regF h hrest2 ?_ hdone
          rintro ob hob
          rcases List.mem_cons.mp hob with h2 | h2
          · subst h2
            rw [openList] at ht4 ht5
            rw [helse] at ht4 ht5
            simp only [Option.toList_none, List.append_nil] at ht4 ht5
            refine ⟨ht1, ht2, by simp [htok], ?_, ?_⟩
            · rw [openList]
              simp only [Option.toList_some]
              rw [show top.openPos :: (top.elsif_iterators ++ [pos]) =
                  (top.openPos :: top.elsif_iterators) ++ [pos] from by simp]
              exact chain_append_singleton _ pos ht4 ht5
            · rw [openList]
              simp only [Option.toList_some]
              intro q hq
              rw [show top.openPos :: (top.elsif_iterators ++ [pos]) =
                  (top.openPos :: top.elsif_iterators) ++ [pos] from by simp] at hq
              rcases List.mem_append.mp hq with h3 | h3
              · exact Nat.lt_succ_of_lt (ht5 q h3)
              · simp at h3; omega
          · exact OpenInv_mono toks pos ob (hstack ob (by simp [h2]))
    | PP_endif =>
      simp only [scanBlocks] at h
      match stack with
      | [] => cases h
      | top :: stk =>
        simp only [] at h
        obtain ⟨ht1, ht2, ht3, ht4, ht5⟩ := hstack top (by simp)
        refine ih (pos + 1) stk _ bl reg regF h hrest2
          (fun ob hob => OpenInv_mono toks pos ob (hstack ob (by simp [hob]))) ?_
        rintro b hb
        rcases List.mem_append.mp hb with h2 | h2
        · exact hdone b h2
        · simp only [List.mem_singleton] at h2
          subst h2
          refine ⟨ht1, ht2, ht3, htok, ?_⟩
          rw [blockChain]
          simp only []
          rw [show (top.openPos :: (top.elsif_iterators ++ top.else_iterator.toList ++ [pos])) =
              (top.openPos :: (top.elsif_iterators ++ top.else_iterator.toList)) ++ [pos] from
            by simp]
          exact chain_append_singleton _ pos ht4 ht5

theorem chain_zip_lt : ∀ (x : Nat) (ys tail : List Nat),
    List.Chain' (· < ·) (x :: (ys ++ tail)) →
    ∀ pr ∈ (x :: ys).zip (ys ++ tail), pr.1 < pr.2 := by
  intro x ys
  induction ys generalizing x with
  | nil =>
    intro tail hc pr hpr
    match tail, hpr with
    | t :: ts, hpr =>
      simp only [List.nil_append, List.zip_cons_cons, List.zip_nil_left,
        List.mem_singleton] at hpr
      subst hpr
      simp only [List.nil_append] at hc
      exact (List.chain'_cons.mp hc).1
  | cons y ys ih =>
    intro tail hc pr hpr
    simp only [List.cons_append, List.zip_cons_cons, List.mem_cons] at hpr
    rcases hpr with hpr | hpr
    · subst hpr
      exact (List.chain'_cons.mp (by simpa using hc)).1
    · exact ih y tail (by simpa using (List.chain'_cons.mp (by simpa using hc)).2) pr hpr

theorem chain_le_last : ∀ (l : List Nat) (z : Nat),
    List.Chain' (· < ·) (l ++ [z]) → ∀ a ∈ l ++ [z], a ≤ z := by
  intro l
  induction l with
  | nil => intro z _ a ha; simp at ha; omega
  | cons x xs ih =>
    intro z hc a ha
    rcases List.mem_cons.mp ha with h1 | h1
    · subst h1
      have hrel := List.chain'_cons'.mp (by simpa using hc)
      rcases hx : (xs ++ [z]).head? with _ | w
      · match xs, hx with
        | [], hx => cases hx
      · have hlt : a < w := hrel.1 w hx
        have hw : w ∈ xs ++ [z] := by
          rcases xs with _ | ⟨u, us⟩
          · simp at hx; simp [hx]
          · simp at hx; simp [hx]
        have := ih z (by simpa using hrel.2) w hw
        omega
    · exact ih z (by simpa using (List.chain'_cons'.mp (by simpa using hc)).2) a h1

theorem branchPairs_facts (b : ConditionalBlock)
    (hord : List.Chain' (· < ·) (blockChain b)) :
    ∀ pr ∈ branchPairs b, pr.1 < pr.2 ∧ pr.2 ≤ b.endif_iterator := by
  intro pr hpr
  have h1 : pr.1 < pr.2 := by
    refine chain_zip_lt b.openPos b.elsif_iterators
      (b.else_iterator.toList ++ [b.endif_iterator]) ?_ pr ?_
    · rw [blockChain] at hord
      simpa [List.append_assoc] using hord
    · rw [branchPairs] at hpr
      simpa [List.append_assoc] using hpr
  refine ⟨h1, ?_⟩
  have hmem : pr.2 ∈ b.elsif_iterators ++ b.else_iterator.toList ++ [b.endif_iterator] := by
    rw [branchPairs] at hpr
    exact (List.of_mem_zip hpr).2
  have := chain_le_last (b.openPos :: (b.elsif_iterators ++ b.else_iterator.toList))
    b.endif_iterator ?_ pr.2 ?_
  · exact this
  · rw [blockChain] at hord
    simpa [List.append_assoc] using hord
  · simp only [List.cons_append, List.mem_cons]
    right
    simpa [List.append_assoc] using hmem

theorem branchPairs_fst (b : ConditionalBlock) :
    ∀ pr ∈ branchPairs b, pr.1 = b.openPos ∨ pr.1 ∈ b.elsif_iterators := by
  intro pr hpr
  rw [branchPairs] at hpr
  have := (List.of_mem_zip hpr).1
  simpa using this

theorem setEdge_cases (E : Nat → List Nat) (p : Nat) (v : List Nat) (p' : Nat) :
    setEdge E p v p' = v ∧ p' = p ∨ setEdge E p v p' = E p' ∧ p' ≠ p := by
  rw [setEdge]
  by_cases h : p' = p
  · rw [if_pos h]; exact Or.inl ⟨rfl, h⟩
  · rw [if_neg h]; exact Or.inr ⟨rfl, h⟩

theorem addBranchEdges_mono (close : Nat) (E : Nat → List Nat) (pr : Nat × Nat)
    (hpr : pr.1 < pr.2) (hcl : pr.2 ≤ close)
    (hE : ∀ p q, q ∈ E p → p < q) :
    ∀ p q, q ∈ addBranchEdges close E pr p → p < q := by
  intro p q hq
  rw [addBranchEdges] at hq
  by_cases hb : pr.1 + 2 < pr.2
  · rw [if_pos hb] at hq
    rcases setEdge_cases (setEdge E pr.1 [pr.1 + 2, pr.2]) (pr.2 - 1) [close + 1] p with
      ⟨he, hp⟩ | ⟨he, hp⟩
    · rw [he] at hq
      simp only [List.mem_singleton] at hq
      subst hp
      subst hq
      omega
    · rw [he] at hq
      rcases setEdge_cases E pr.1 [pr.1 + 2, pr.2] p with ⟨he2, hp2⟩ | ⟨he2, hp2⟩
      · rw [he2] at hq
        simp only [List.mem_cons, List.mem_singleton, List.not_mem_nil, or_false] at hq
        subst hp2
        rcases hq with hq | hq <;> omega
      · rw [he2] at hq
        exact hE p q hq
  · rw [if_neg hb] at hq
    rcases setEdge_cases E pr.1 [close + 1, pr.2] p with ⟨he, hp⟩ | ⟨he, hp⟩
    · rw [he] at hq
      simp only [List.mem_cons, List.mem_singleton, List.not_mem_nil, or_false] at hq
      subst hp
      rcases hq with hq | hq <;> omega
    · rw [he] at hq
      exact hE p q hq

theorem addElseEdges_mono (close : Nat) (E : Nat → List Nat) (e : Nat)
    (hcl : e ≤ close)
    (hE : ∀ p q, q ∈ E p → p < q) :
    ∀ p q, q ∈ addElseEdges close E e p → p < q := by
  intro p q hq
  rw [addElseEdges] at hq
  by_cases hb : e + 1 < close
  · rw [if_pos hb] at hq
    rcases setEdge_cases (setEdge E e [e + 1]) (close - 1) [close + 1] p with
      ⟨he, hp⟩ | ⟨he, hp⟩
    · rw [he] at hq
      simp only [List.mem_singleton] at hq
      omega
    · rw [he] at hq
      rcases setEdge_cases E e [e + 1] p with ⟨he2, hp2⟩ | ⟨he2, hp2⟩
      · rw [he2] at hq
        simp only [List.mem_singleton] at hq
        omega
      · rw [he2] at hq
        exact hE p q hq
  · rw [if_neg hb] at hq
    rcases setEdge_cases E e [close + 1] p with ⟨he, hp⟩ | ⟨he, hp⟩
    · rw [he] at hq
      simp only [List.mem_singleton] at hq
      omega
    · rw [he] at hq
      exact hE p q hq

theorem AddBlockEdges_mono (E : Nat → List Nat) (b : ConditionalBlock)
    (hord : List.Chain' (· < ·) (blockChain b))
    (hE : ∀ p q, q ∈ E p → p < q) :
    ∀ p q, q ∈ AddBlockEdges E b p → p < q := by
  have hfold : ∀ (prs : List (Nat × Nat)) (E0 : Nat → List Nat),
      (∀ pr ∈ prs, pr.1 < pr.2 ∧ pr.2 ≤ b.endif_iterator) →
      (∀ p q, q ∈ E0 p → p < q) →
      ∀ p q, q ∈ (prs.foldl (addBranchEdges b.endif_iterator) E0) p → p < q := by
    intro prs
    induction prs with
    | nil => intro E0 _ hE0; exact hE0
    | cons pr prs ih =>
      intro E0 hprs hE0
      simp only [List.foldl_cons]
      refine ih _ (fun x hx => hprs x (by simp [hx])) ?_
      exact addBranchEdges_mono _ E0 pr (hprs pr (by simp)).1 (hprs pr (by simp)).2 hE0
  rw [AddBlockEdges]
  rcases helse : b.else_iterator with _ | e
  · simp only []
    exact hfold _ E (branchPairs_facts b hord) hE
  · simp only []
    refine addElseEdges_mono _ _ e ?_ (hfold _ E (branchPairs_facts b hord) hE)
    have hmem : e ∈ (b.openPos :: (b.elsif_iterators ++ b.else_iterator.toList)) ++
        [b.endif_iterator] := by
      simp [helse]
    refine chain_le_last (b.openPos :: (b.elsif_iterators ++ b.else_iterator.toList))
      b.endif_iterator ?_ e hmem
    rw [blockChain] at hord
    simpa [List.append_assoc] using hord

theorem edges_mono_aux : ∀ (bs : List ConditionalBlock) (E0 : Nat → List Nat),
    (∀ b ∈ bs, List.Chain' (· < ·) (blockChain b)) →
    (∀ p q, q ∈ E0 p → p < q) →
    ∀ p q, q ∈ (bs.foldl AddBlockEdges E0) p → p < q := by
  intro bs
  induction bs with
  | nil => intro E0 _ hE0; exact hE0
  | cons b bs ih =>
    intro E0 hord hE0
    simp only [List.foldl_cons]
    exact ih _ (fun x hx => hord x (by simp [hx]))
      (AddBlockEdges_mono E0 b (hord b (by simp)) hE0)

theorem edges_mono (n : Nat) (bs : List ConditionalBlock)
    (hord : ∀ b ∈ bs, List.Chain' (· < ·) (blockChain b)) :
    ∀ p q, q ∈ (bs.foldl AddBlockEdges (defaultEdges n)) p → p < q := by
  refine edges_mono_aux bs (defaultEdges n) hord ?_
  intro p q hq
  rw [defaultEdges] at hq
  by_cases hp : p < n
  · rw [if_pos hp] at hq
    simp only [List.mem_singleton] at hq
    omega
  · rw [if_neg hp] at hq
    cases hq

theorem addBranchEdges_cases (close : Nat) (E : Nat → List Nat) (pr : Nat × Nat) (p : Nat) :
    addBranchEdges close E pr p = E p ∨ (addBranchEdges close E pr p).length ≤ 1 ∨
      p = pr.1 := by
  rw [addBranchEdges]
  by_cases hb : pr.1 + 2 < pr.2
  · rw [if_pos hb]
    rcases setEdge_cases (setEdge E pr.1 [pr.1 + 2, pr.2]) (pr.2 - 1) [close + 1] p with
      ⟨he, hp⟩ | ⟨he, hp⟩
    · rw [he]; right; left; simp
    · rw [he]
      rcases setEdge_cases E pr.1 [pr.1 + 2, pr.2] p with ⟨he2, hp2⟩ | ⟨he2, hp2⟩
      · right; right; exact hp2
      · left; exact he2
  · rw [if_neg hb]
    rcases setEdge_cases E pr.1 [close + 1, pr.2] p with ⟨he, hp⟩ | ⟨he, hp⟩
    · right; right; exact hp
    · left; exact he

theorem addBranch_foldl_cases (close : Nat) : ∀ (prs : List (Nat × Nat))
    (E0 : Nat → List Nat) (p : Nat),
    (prs.foldl (addBranchEdges close) E0) p = E0 p ∨
    ((prs.foldl (addBranchEdges close) E0) p).length ≤ 1 ∨
    p ∈ prs.map Prod.fst := by
  intro prs
  induction prs with
  | nil => intro E0 p; left; rfl
  | cons pr prs ih =>
    intro E0 p
    simp only [List.foldl_cons]
    rcases ih (addBranchEdges close E0 pr) p with h1 | h1 | h1
    · rw [h1]
      rcases addBranchEdges_cases close E0 pr p with h2 | h2 | h2
      · left; exact h2
      · right; left; exact h2
      · right; right; simp [h2]
    · right; left; exact h1
    · right; right; simp [h1]

theorem addElseEdges_cases (close : Nat) (E : Nat → List Nat) (e p : Nat) :
    addElseEdges close E e p = E p ∨ (addElseEdges close E e p).length ≤ 1 := by
  rw [addElseEdges]
  by_cases hb : e + 1 < close
  · rw [if_pos hb]
    rcases setEdge_cases (setEdge E e [e + 1]) (close - 1) [close + 1] p with
      ⟨he, hp⟩ | ⟨he, hp⟩
    · rw [he]; right; simp
    · rw [he]
      rcases setEdge_cases E e [e + 1] p with ⟨he2, hp2⟩ | ⟨he2, hp2⟩
      · rw [he2]; right; simp
      · left; exact he2
  · rw [if_neg hb]
    rcases setEdge_cases E e [close + 1] p with ⟨he, hp⟩ | ⟨he, hp⟩
    · rw [he]; right; simp
    · left; exact he

theorem AddBlockEdges_cases (E : Nat → List Nat) (b : ConditionalBlock) (p : Nat) :
    AddBlockEdges E b p = E p ∨ (AddBlockEdges E b p).length ≤ 1 ∨
      p = b.openPos ∨ p ∈ b.elsif_iterators := by
  rw [AddBlockEdges]
  have hfold := addBranch_foldl_cases b.endif_iterator (branchPairs b) E p
  rcases helse : b.else_iterator with _ | e
  · simp only []
    rcases hfold with h1 | h1 | h1
    · left; exact h1
    · right; left; exact h1
    · right; right
      simp only [List.mem_map] at h1
      obtain ⟨pr, hpr, hfst⟩ := h1
      rcases branchPairs_fst b pr hpr with h2 | h2
      · left; omega
      · right; rw [← hfst]; exact h2
  · simp only []
    rcases addElseEdges_cases b.endif_iterator
      ((branchPairs b).foldl (addBranchEdges b.endif_iterator) E) e p with h2 | h2
    · rw [h2]
      rcases hfold with h1 | h1 | h1
      · left; exact h1
      · right; left; exact h1
      · right; right
        simp only [List.mem_map] at h1
        obtain ⟨pr, hpr, hfst⟩ := h1
        rcases branchPairs_fst b pr hpr with h3 | h3
        · left; omega
        · right; rw [← hfst]; exact h3
    · right; left; exact h2

theorem edges_two_succ : ∀ (bs : List ConditionalBlock) (E0 : Nat → List Nat) (p : Nat),
    (bs.foldl AddBlockEdges E0) p = E0 p ∨
    ((bs.foldl AddBlockEdges E0) p).length ≤ 1 ∨
    (∃ b ∈ bs, p = b.openPos ∨ p ∈ b.elsif_iterators) := by
  intro bs
  induction bs with
  | nil => intro E0 p; left; rfl
  | cons b bs ih =>
    intro E0 p
    simp only [List.foldl_cons]
    rcases ih (AddBlockEdges E0 b) p with h1 | h1 | h1
    · rw [h1]
      rcases AddBlockEdges_cases E0 b p with h2 | h2 | h2
      · left; exact h2
      · right; left; exact h2
      · right; right; exact ⟨b, by simp, h2⟩
    · right; left; exact h1
    · right; right
      obtain ⟨b2, hb2, h2⟩ := h1
      exact ⟨b2, by simp [hb2], h2⟩

theorem testBit_setBit (b m i : Nat) :
    (setBit b m).testBit i = (b.testBit i || decide (m = i)) := by
  rw [setBit, Nat.testBit_or, Nat.testBit_two_pow]

theorem freeCount_setBit (b : BitSet) (K m : Nat) (hm : m < K) (hb : b.testBit m = false) :
    freeCount (setBit b m) K + 1 = freeCount b K := by
  rw [freeCount, freeCount]
  have hset : (Finset.range K).filter (fun i => (setBit b m).testBit i = false) =
      ((Finset.range K).filter (fun i => b.testBit i = false)).erase m := by
    ext i
    simp only [Finset.mem_filter, Finset.mem_erase, Finset.mem_range]
    constructor
    · rintro ⟨hi, hf⟩
      rw [testBit_setBit] at hf
      simp only [Bool.or_eq_false_iff, decide_eq_false_iff_not] at hf
      exact ⟨fun h => hf.2 h.symm, hi, hf.1⟩
    · rintro ⟨hne, hi, hf⟩
      refine ⟨hi, ?_⟩
      rw [testBit_setBit]
      simp only [hf, Bool.false_or, decide_eq_false_iff_not]
      intro h
      exact hne h.symm
  have hmem : m ∈ (Finset.range K).filter (fun i => b.testBit i = false) := by
    simp [Finset.mem_filter, Finset.mem_range, hm, hb]
  rw [hset, Finset.card_erase_of_mem hmem]
  have := Finset.card_pos.mpr ⟨m, hmem⟩
  omega

theorem freeCount_zero (K : Nat) : freeCount 0 K = K := by
  rw [freeCount]
  have : (Finset.range K).filter (fun i => Nat.testBit 0 i = false) = Finset.range K := by
    ext i
    simp [Nat.zero_testBit]
  rw [this, Finset.card_range]

/-- The search never revisits a fixed assumption, so the number of
canonical variants is bounded by two to the number of distinct macros that
can still be tested: each fork consumes one clear assumed bit. -/
theorem canonDel_bound (toks : List Tok) (reg : Registry) (E : Nat → List Nat) (K : Nat)
    (H1 : ∀ p t, toks[p]? = some t → t.IsConditional = false → (E p).length ≤ 1)
    (H2 : ∀ p t, toks[p]? = some t → t.IsConditional = true →
          GetMacroIDOfConditional toks reg p < K) :
    ∀ (fuel : Nat) (wl : List Nat) (cv : Variant),
      (canonDel toks reg E fuel wl cv).length ≤
        wl.length * 2 ^ freeCount cv.assumed K := by
  intro fuel
  induction fuel with
  | zero => intro wl cv; rw [canonDel_zero]; simp
  | succ fuel ih =>
    intro wl cv
    match wl with
    | [] => rw [canonDel_nil]; simp
    | pos :: rest =>
      rw [canonDel_cons, List.length_append]
      have hrest := ih rest cv
      have hvisit : (visitDel toks reg E fuel pos cv).length ≤
          2 ^ freeCount cv.assumed K := by
        rcases htok : toks[pos]? with _ | t
        · rw [visitDel_none _ _ _ _ _ _ htok]
          simpa using Nat.one_le_two_pow
        · rcases hcond : t.IsConditional with _ | _
          · by_cases hoth : ∃ a, t = Tok.other a
            · obtain ⟨a, rfl⟩ := hoth
              rw [visitDel_other _ _ _ _ _ _ _ htok]
              have := ih (E pos)
                ⟨cv.sequence ++ [Tok.other a], cv.macros_mask, cv.assumed⟩
              refine le_trans (this) ?_
              have hlen := H1 pos _ htok hcond
              have h2 : (2 : Nat) ^ freeCount cv.assumed K ≥ 1 := Nat.one_le_two_pow
              calc (E pos).length * 2 ^ freeCount cv.assumed K
                  ≤ 1 * 2 ^ freeCount cv.assumed K := by
                    exact Nat.mul_le_mul_right _ hlen
                _ = 2 ^ freeCount cv.assumed K := by ring
            · rw [visitDel_pass _ _ _ _ _ _ _ htok hcond (fun a h => hoth ⟨a, h⟩)]
              refine le_trans (ih (E pos) cv) ?_
              have hlen := H1 pos _ htok hcond
              calc (E pos).length * 2 ^ freeCount cv.assumed K
                  ≤ 1 * 2 ^ freeCount cv.assumed K := Nat.mul_le_mul_right _ hlen
                _ = 2 ^ freeCount cv.assumed K := by ring
          · by_cases ha : cv.assumed.testBit (GetMacroIDOfConditional toks reg pos) = true
            · rw [visitDel_assumed _ _ _ _ _ _ _ htok hcond ha]
              refine le_trans (ih _ cv) ?_
              simp
            · replace ha : cv.assumed.testBit (GetMacroIDOfConditional toks reg pos) = false :=
                by simpa using ha
              rw [visitDel_fork _ _ _ _ _ _ _ htok hcond ha, List.length_append]
              have hid := H2 pos t htok hcond
              have hfc := freeCount_setBit cv.assumed K _ hid ha
              have hb1 := ih [if t.polarity then (E pos).getD 0 (pos + 1)
                  else (E pos).getD 1 (pos + 1)]
                ⟨cv.sequence, setBit cv.macros_mask (GetMacroIDOfConditional toks reg pos),
                 setBit cv.assumed (GetMacroIDOfConditional toks reg pos)⟩
              have hb2 := ih [if t.polarity then (E pos).getD 1 (pos + 1)
                  else (E pos).getD 0 (pos + 1)]
                ⟨cv.sequence,
                 clearBit (setBit cv.macros_mask (GetMacroIDOfConditional toks reg pos))
                   (GetMacroIDOfConditional toks reg pos),
                 setBit cv.assumed (GetMacroIDOfConditional toks reg pos)⟩
              simp only [List.length_singleton, one_mul] at hb1 hb2
              have hpow : (2 : Nat) ^ freeCount cv.assumed K =
                  2 ^ freeCount (setBit cv.assumed (GetMacroIDOfConditional toks reg pos)) K
                  + 2 ^ freeCount (setBit cv.assumed (GetMacroIDOfConditional toks reg pos)) K := by
                rw [← hfc]
                ring
              omega
      calc (visitDel toks reg E fuel pos cv).length +
            (canonDel toks reg E fuel rest cv).length
          ≤ 2 ^ freeCount cv.assumed K + rest.length * 2 ^ freeCount cv.assumed K := by
            omega
        _ = (pos :: rest).length * 2 ^ freeCount cv.assumed K := by
            simp [List.length_cons]
            ring

theorem GCFT_ok_inv (toks : List Tok) (blocks : List ConditionalBlock) (reg : Registry)
    (E : Nat → List Nat) (h : GenerateControlFlowTree toks = .ok (blocks, reg, E)) :
    scanBlocks toks 0 [] [] ⟨[], 0⟩ = .ok (blocks, reg) ∧
    E = blocks.foldl AddBlockEdges (defaultEdges toks.length) := by
  rw [GenerateControlFlowTree] at h
  rcases hscan : scanBlocks toks 0 [] [] ⟨[], 0⟩ with e | ⟨bl, rg⟩
  · rw [hscan] at h; cases h
  · rw [hscan] at h
    injection h with h
    injection h with h1 h2
    injection h2 with h2 h3
    subst h1 h2 h3
    exact ⟨rfl, rfl⟩

theorem RegInv_initial : RegInv ⟨[], 0⟩ := by
  refine ⟨by simp, by simp, rfl, by simp⟩

/-- C1: once a macro's assumed bit is set on a path it is never forked on
again, so the canonical enumeration of any successfully extracted input
has at most 2 ^ (number of distinct macros referenced by conditional
directives) variants; and an input testing the same macro at two
different, non-nested positions yields exactly 2 variants, not 4. -/
theorem C1_assumption_reuse_bounds_variants :
    (∀ (toks : List Tok) (blocks : List ConditionalBlock) (reg : Registry)
        (E : Nat → List Nat),
        GenerateControlFlowTree toks = .ok (blocks, reg, E) →
        (AllVariants toks).length ≤ 2 ^ reg.conditional_macros_counter) ∧
    AllVariants [Tok.PP_ifdef, Tok.PP_Identifier 5, Tok.other 1, Tok.PP_endif,
        Tok.PP_ifdef, Tok.PP_Identifier 5, Tok.other 2, Tok.PP_endif] =
      [⟨[Tok.other 1, Tok.other 2], 1, 1⟩, ⟨[], 0, 1⟩] := by
  constructor
  · intro toks blocks reg E h
    obtain ⟨hscan, hE⟩ := GCFT_ok_inv toks blocks reg E h
    have hblocks : ∀ b ∈ blocks, BlockInv toks b :=
      scan_blocks_inv toks toks 0 [] [] blocks ⟨[], 0⟩ reg hscan
        (fun i => by simp) (by simp) (by simp)
    have hreginv : RegInv reg := scan_RegInv toks 0 [] [] blocks ⟨[], 0⟩ reg hscan RegInv_initial
    have H1 : ∀ p t, toks[p]? = some t → t.IsConditional = false → (E p).length ≤ 1 := by
      intro p t htok hcond
      rcases edges_two_succ blocks (defaultEdges toks.length) p with h1 | h1 | h1
      · rw [hE, h1, defaultEdges]
        by_cases hp : p < toks.length
        · rw [if_pos hp]; simp
        · rw [if_neg hp]; simp
      · rw [hE]; exact h1
      · exfalso
        obtain ⟨b, hb, h2⟩ := h1
        obtain ⟨hb1, hb2, _, _, _⟩ := hblocks b hb
        rcases h2 with h2 | h2
        · rw [← h2] at hb1
          rw [htok] at hb1
          injection hb1 with hb1
          subst hb1
          rcases hneg : b.openIsIfndef with _ | _ <;> rw [hneg] at hcond <;>
            simp [Tok.IsConditional] at hcond
        · have := hb2 p h2
          rw [htok] at this
          injection this with this
          subst this
          simp [Tok.IsConditional] at hcond
    have H2 : ∀ p t, toks[p]? = some t → t.IsConditional = true →
        GetMacroIDOfConditional toks reg p < reg.conditional_macros_counter := by
      intro p t htok hcond
      obtain ⟨nm, hnm, hsome⟩ :=
        scan_conds_registered toks 0 [] [] blocks ⟨[], 0⟩ reg hscan p t (by simpa using htok)
          hcond
      rw [GetMacroIDOfConditional]
      rw [show toks[p + 1]? = some (Tok.PP_Identifier nm) from by simpa using hnm]
      simp only []
      rcases hlook : reg.conditional_macro_id.lookup nm with _ | v
      · rw [hlook] at hsome; cases hsome
      · obtain ⟨pr, hpr, hv⟩ := lookup_mem_values _ _ _ hlook
        have := hreginv.1 pr hpr
        simp only [Option.getD_some]
        omega
    have hbound := canonDel_bound toks reg E reg.conditional_macros_counter H1 H2
      (toks.length + 1) [0] ⟨[], 0, 0⟩
    rw [AllVariants_eq_canonDel toks blocks reg E h]
    refine le_trans hbound ?_
    simp [freeCount_zero]
  · decide

/-- C1 witness: the bound applied at the concrete repeated-macro input. -/
theorem C1_witness :
    (AllVariants [Tok.PP_ifdef, Tok.PP_Identifier 5, Tok.other 1, Tok.PP_endif,
        Tok.PP_ifdef, Tok.PP_Identifier 5, Tok.other 2, Tok.PP_endif]).length ≤ 2 ^ 1 :=
  C1_assumption_reuse_bounds_variants.1
    [Tok.PP_ifdef, Tok.PP_Identifier 5, Tok.other 1, Tok.PP_endif,
     Tok.PP_ifdef, Tok.PP_Identifier 5, Tok.other 2, Tok.PP_endif] _ _ _ rfl

theorem take_sublist_take (l : List Tok) (m n : Nat) (h : m ≤ n) :
    List.Sublist (l.take m) (l.take n) := by
  have h1 : (l.take n).take m = l.take m := by
    rw [List.take_take, Nat.min_eq_left h]
  have h2 : List.Sublist ((l.take n).take m) (l.take n) := List.take_sublist m (l.take n)
  rw [h1] at h2
  exact h2

theorem canonDel_ordinary_sublist (toks : List Tok) (reg : Registry) (E : Nat → List Nat)
    (hE : ∀ p q, q ∈ E p → p < q) :
    ∀ (fuel : Nat) (wl : List Nat) (cv : Variant),
      (∀ t ∈ cv.sequence, ∃ a, t = Tok.other a) →
      (∀ pos ∈ wl, List.Sublist cv.sequence (toks.take pos)) →
      ∀ v ∈ canonDel toks reg E fuel wl cv,
        (∀ t ∈ v.sequence, ∃ a, t = Tok.other a) ∧ List.Sublist v.sequence toks := by
  intro fuel
  induction fuel with
  | zero => intro wl cv _ _ v hv; rw [canonDel_zero] at hv; cases hv
  | succ fuel ih =>
    intro wl cv hcv hwl v hv
    match wl with
    | [] => rw [canonDel_nil] at hv; cases hv
    | pos :: rest =>
      rw [canonDel_cons] at hv
      rcases List.mem_append.mp hv with hv | hv
      · have hseq : List.Sublist cv.sequence (toks.take pos) := hwl pos (by simp)
        have hsucc : ∀ q ∈ E pos, List.Sublist cv.sequence (toks.take q) := by
          intro q hq
          exact hseq.trans (take_sublist_take toks pos q (Nat.le_of_lt (hE pos q hq)))
        have hgetD : ∀ i, pos < (E pos).getD i (pos + 1) := by
          intro i
          rcases hgi : (E pos)[i]? with _ | x
          · simp [List.getD_eq_getElem?_getD, hgi]
          · have hx : x ∈ E pos := List.getElem?_mem hgi
            simp only [List.getD_eq_getElem?_getD, hgi, Option.getD_some]
            exact hE pos x hx
        have hsuccD : ∀ i, List.Sublist cv.sequence (toks.take ((E pos).getD i (pos + 1))) :=
          fun i => hseq.trans (take_sublist_take toks pos _ (Nat.le_of_lt (hgetD i)))
        rcases htok : toks[pos]? with _ | t
        · rw [visitDel_none _ _ _ _ _ _ htok] at hv
          simp only [List.mem_singleton] at hv
          subst hv
          exact ⟨hcv, hseq.trans (List.take_sublist pos toks)⟩
        · rcases hcond : t.IsConditional with _ | _
          · by_cases hoth : ∃ a, t = Tok.other a
            · obtain ⟨a, rfl⟩ := hoth
              rw [visitDel_other _ _ _ _ _ _ _ htok] at hv
              refine ih (E pos) ⟨cv.sequence ++ [Tok.other a], cv.macros_mask, cv.assumed⟩
                ?_ ?_ v hv
              · intro t ht
                simp only [List.mem_append, List.mem_singleton] at ht
                rcases ht with ht | ht
                · exact hcv t ht
                · exact ⟨a, ht⟩
              · intro q hq
                have htake : toks.take (pos + 1) = toks.take pos ++ [Tok.other a] := by
                  rw [List.take_succ, htok]
                  rfl
                have h1 : List.Sublist (cv.sequence ++ [Tok.other a]) (toks.take (pos + 1)) := by
                  rw [htake]
                  exact List.Sublist.append hseq (List.Sublist.refl _)
                exact h1.trans (take_sublist_take toks (pos + 1) q (hE pos q hq))
            · rw [visitDel_pass _ _ _ _ _ _ _ htok hcond (fun a hEq => hoth ⟨a, hEq⟩)] at hv
              exact ih (E pos) cv hcv hsucc v hv
          · by_cases ha : cv.assumed.testBit (GetMacroIDOfConditional toks reg pos) = true
            · rw [visitDel_assumed _ _ _ _ _ _ _ htok hcond ha] at hv
              refine ih _ cv hcv ?_ v hv
              intro q hq
              simp only [List.mem_singleton] at hq
              subst hq
              split
              · exact hsuccD 0
              · exact hsuccD 1
            · replace ha : cv.assumed.testBit (GetMacroIDOfConditional toks reg pos) = false :=
                by simpa using ha
              rw [visitDel_fork _ _ _ _ _ _ _ htok hcond ha] at hv
              rcases List.mem_append.mp hv with hv | hv
              · refine ih _
                  ⟨cv.sequence, setBit cv.macros_mask (GetMacroIDOfConditional toks reg pos),
                   setBit cv.assumed (GetMacroIDOfConditional toks reg pos)⟩ hcv ?_ v hv
                intro q hq
                simp only [List.mem_singleton] at hq
                subst hq
                split
                · exact hsuccD 0
                · exact hsuccD 1
              · refine ih _
                  ⟨cv.sequence,
                   clearBit (setBit cv.macros_mask (GetMacroIDOfConditional toks reg pos))
                     (GetMacroIDOfConditional toks reg pos),
                   setBit cv.assumed (GetMacroIDOfConditional toks reg pos)⟩ hcv ?_ v hv
                intro q hq
                simp only [List.mem_singleton] at hq
                subst hq
                split
                · exact hsuccD 1
                · exact hsuccD 0
      · exact ih rest cv hcv (fun q hq => hwl q (by simp [hq])) v hv

/-- C8: every variant delivered by the enumeration contains only ordinary
tokens — no conditional directives and no macro-name tokens — and its
sequence is a subsequence of the input, so the selected ordinary tokens
keep their original relative order. -/
theorem C8_variants_ordinary_in_order (toks : List Tok)
    (blocks : List ConditionalBlock) (reg : Registry) (E : Nat → List Nat)
    (h : GenerateControlFlowTree toks = .ok (blocks, reg, E)) :
    ∀ v ∈ AllVariants toks,
      (∀ t ∈ v.sequence, ∃ a, t = Tok.other a) ∧ List.Sublist v.sequence toks := by
  obtain ⟨hscan, hEeq⟩ := GCFT_ok_inv toks blocks reg E h
  have hblocks : ∀ b ∈ blocks, BlockInv toks b :=
    scan_blocks_inv toks toks 0 [] [] blocks ⟨[], 0⟩ reg hscan
      (fun i => by simp) (by simp) (by simp)
  have hE : ∀ p q, q ∈ E p → p < q := by
    rw [hEeq]
    exact edges_mono toks.length blocks (fun b hb => (hblocks b hb).2.2.2.2)
  rw [AllVariants_eq_canonDel toks blocks reg E h]
  refine canonDel_ordinary_sublist toks reg E hE (toks.length + 1) [0] ⟨[], 0, 0⟩
    (by intro t ht; cases ht) ?_
  intro pos hpos
  simp only [List.mem_singleton] at hpos
  subst hpos
  simp

/-- C8 witness: at a one-block input, the delivered defined-branch variant
is all-ordinary and a subsequence of the input. -/
theorem C8_witness :
    (∀ t ∈ (⟨[Tok.other 1], 1, 1⟩ : Variant).sequence, ∃ a, t = Tok.other a) ∧
      List.Sublist (⟨[Tok.other 1], 1, 1⟩ : Variant).sequence
        [Tok.PP_ifdef, Tok.PP_Identifier 0, Tok.other 1, Tok.PP_endif] :=
  C8_variants_ordinary_in_order
    [Tok.PP_ifdef, Tok.PP_Identifier 0, Tok.other 1, Tok.PP_endif] _ _ _ rfl
    ⟨[Tok.other 1], 1, 1⟩ (by decide)

theorem condMacroNames_mem : ∀ (toks : List Tok) (nm : Nat), nm ∈ condMacroNames toks →
    ∃ p t, toks[p]? = some t ∧ t.IsConditional = true ∧
      toks[p + 1]? = some (Tok.PP_Identifier nm) := by
  intro toks
  induction toks with
  | nil => intro nm h; cases h
  | cons t rest ih =>
    intro nm h
    rw [condMacroNames] at h
    rcases List.mem_append.mp h with h | h
    · rcases hcond : t.IsConditional with _ | _ <;> rw [hcond] at h
      · simp at h
      · simp only [if_true] at h
        rcases hh : rest.head? with _ | u <;> rw [hh] at h
        · cases h
        · cases u <;> simp at h
          subst h
          refine ⟨0, t, by simp, hcond, ?_⟩
          simpa [← List.head?_eq_getElem?] using hh
    · obtain ⟨p, t2, h1, h2, h3⟩ := ih nm h
      exact ⟨p + 1, t2, by simpa using h1, h2, by simpa using h3⟩

/-- C6 (amended): an input whose conditional directives reference more
than 128 distinct macro names always fails extraction — GenerateVariants
returns an error status and delivers zero variants — and on an otherwise
well-formed such input (129 blocks testing 129 distinct macros) the error
is specifically the capacity error. -/
theorem C6_capacity_exceeded_fails :
    (∀ toks : List Tok, 128 < (condMacroNames toks).dedup.length →
        (∃ e, GenerateVariants toks trivialReceiver () = (.error e, initState ())) ∧
        AllVariants toks = []) ∧
    (GenerateVariants (capBlocks 129) trivialReceiver ()).1 =
      Status.error FlowError.CapacityError := by
  constructor
  · intro toks hlen
    rcases hg : GenerateControlFlowTree toks with e | res
    · refine ⟨⟨e, GenerateVariants_error toks trivialReceiver () e hg⟩, ?_⟩
      rw [AllVariants, GenerateVariants_error toks trivialReceiver () e hg]
      rfl
    · exfalso
      obtain ⟨blocks, reg, E⟩ := res
      obtain ⟨hscan, _⟩ := GCFT_ok_inv toks blocks reg E hg
      have hreg : RegInv reg :=
        scan_RegInv toks 0 [] [] blocks ⟨[], 0⟩ reg hscan RegInv_initial
      have hsub : ∀ nm ∈ (condMacroNames toks).dedup,
          nm ∈ reg.conditional_macro_id.map Prod.fst := by
        intro nm hnm
        rw [List.mem_dedup] at hnm
        obtain ⟨p, t, h1, h2, h3⟩ := condMacroNames_mem toks nm hnm
        obtain ⟨nm2, hnm2, hsome⟩ :=
          scan_conds_registered toks 0 [] [] blocks ⟨[], 0⟩ reg hscan p t h1 h2
        rw [h3] at hnm2
        injection hnm2 with hnm2
        injection hnm2 with hnm2
        subst hnm2
        exact lookup_isSome_mem _ _ hsome
      have hfin : (condMacroNames toks).dedup.toFinset ⊆
          (reg.conditional_macro_id.map Prod.fst).toFinset := by
        intro nm hnm
        rw [List.mem_toFinset] at hnm ⊢
        exact hsub nm hnm
      have hcard1 : (condMacroNames toks).dedup.toFinset.card =
          (condMacroNames toks).dedup.length :=
        List.toFinset_card_of_nodup (List.nodup_dedup _)
      have hcard2 := Finset.card_le_card hfin
      have hcard3 := List.toFinset_card_le (reg.conditional_macro_id.map Prod.fst)
      have hkeys : (reg.conditional_macro_id.map Prod.fst).length =
          reg.conditional_macros_counter := by
        rw [List.length_map]
        exact hreg.2.2.1
      have hcap : reg.conditional_macros_counter ≤ 128 := hreg.2.1
      omega
  · rfl

/-- C6 witness: the over-capacity consequence applied at the concrete
129-distinct-macro input. -/
theorem C6_witness :
    (∃ e, GenerateVariants (capBlocks 129) trivialReceiver () = (.error e, initState ())) ∧
      AllVariants (capBlocks 129) = [] :=
  C6_capacity_exceeded_fails.1 (capBlocks 129) (by decide)

/-- C6 counterexample: an input referencing 129 distinct macros that
begins with an unmatched closing directive fails with the unmatched-close
error, not the capacity error, so an over-capacity input does not always
yield CapacityError. -/
theorem C6_counterexample :
    128 < (condMacroNames (Tok.PP_endif :: capBlocks 129)).dedup.length ∧
    (GenerateVariants (Tok.PP_endif :: capBlocks 129) trivialReceiver ()).1 =
      Status.error FlowError.UnmatchedCloseError ∧
    Status.error FlowError.UnmatchedCloseError ≠ Status.error FlowError.CapacityError := by
  refine ⟨by decide, rfl, by decide⟩

theorem applyWrites_cons (E : Nat → List Nat) (w : Nat × List Nat) (ws : List (Nat × List Nat)) :
    applyWrites E (w :: ws) = applyWrites (setEdge E w.1 w.2) ws := rfl

theorem applyWrites_append (E : Nat → List Nat) (xs ys : List (Nat × List Nat)) :
    applyWrites E (xs ++ ys) = applyWrites (applyWrites E xs) ys := by
  simp [applyWrites, List.foldl_append]

theorem addBranchEdges_eq_applyWrites (close : Nat) (E : Nat → List Nat) (pr : Nat × Nat) :
    addBranchEdges close E pr = applyWrites E
      (if pr.1 + 2 < pr.2 then
        [(pr.1, [pr.1 + 2, pr.2]), (pr.2 - 1, [close + 1])]
      else [(pr.1, [close + 1, pr.2])]) := by
  rw [addBranchEdges]
  split <;> rfl

theorem branch_foldl_eq_applyWrites (close : Nat) : ∀ (prs : List (Nat × Nat))
    (E : Nat → List Nat),
    prs.foldl (addBranchEdges close) E =
      applyWrites E ((prs.map (fun pr => if pr.1 + 2 < pr.2 then
          [(pr.1, [pr.1 + 2, pr.2]), (pr.2 - 1, [close + 1])]
        else [(pr.1, [close + 1, pr.2])])).flatten) := by
  intro prs
  induction prs with
  | nil => intro E; rfl
  | cons pr prs ih =>
    intro E
    simp only [List.foldl_cons, List.map_cons, List.flatten_cons]
    rw [applyWrites_append, ih, addBranchEdges_eq_applyWrites]

theorem AddBlockEdges_eq_applyWrites (E : Nat → List Nat) (b : ConditionalBlock) :
    AddBlockEdges E b = applyWrites E (blockWrites b) := by
  rw [AddBlockEdges, blockWrites, applyWrites_append, ← branch_foldl_eq_applyWrites]
  rcases hel : b.else_iterator with _ | e
  · rfl
  · simp only []
    rw [addElseEdges]
    split <;> rfl

theorem foldl_AddBlockEdges_eq_applyWrites : ∀ (bs : List ConditionalBlock)
    (E : Nat → List Nat),
    bs.foldl AddBlockEdges E = applyWrites E ((bs.map blockWrites).flatten) := by
  intro bs
  induction bs with
  | nil => intro E; rfl
  | cons b bs ih =>
    intro E
    simp only [List.foldl_cons, List.map_cons, List.flatten_cons]
    rw [applyWrites_append, ih, AddBlockEdges_eq_applyWrites]

theorem applyWrites_miss : ∀ (ws : List (Nat × List Nat)) (E : Nat → List Nat) (p : Nat),
    p ∉ ws.map Prod.fst → applyWrites E ws p = E p := by
  intro ws
  induction ws with
  | nil => intro E p _; rfl
  | cons w ws ih =>
    intro E p hp
    simp only [List.map_cons, List.mem_cons] at hp
    push_neg at hp
    rw [applyWrites_cons, ih _ _ hp.2, setEdge, if_neg hp.1]

theorem applyWrites_hit : ∀ (ws : List (Nat × List Nat)) (E : Nat → List Nat)
    (w : Nat × List Nat), w ∈ ws → (ws.map Prod.fst).Nodup →
    applyWrites E ws w.1 = w.2 := by
  intro ws
  induction ws with
  | nil => intro E w hw _; cases hw
  | cons w0 ws ih =>
    intro E w hw hnd
    simp only [List.map_cons, List.nodup_cons] at hnd
    rcases List.mem_cons.mp hw with hw | hw
    · subst hw
      rw [applyWrites_cons, applyWrites_miss ws _ w.1 hnd.1, setEdge, if_pos rfl]
    · rw [applyWrites_cons]
      exact ih _ w hw hnd.2

theorem mem_zip_snd_take : ∀ (l1 l2 : List Nat) (pr : Nat × Nat),
    pr ∈ l1.zip l2 → pr.2 ∈ l2.take l1.length := by
  intro l1
  induction l1 with
  | nil => intro l2 pr h; cases h
  | cons a l1 ih =>
    intro l2 pr h
    match l2 with
    | [] => rw [List.zip_nil_right] at h; cases h
    | b :: l2 =>
      rw [List.zip_cons_cons] at h
      rcases List.mem_cons.mp h with h | h
      · subst h
        simp
      · simp only [List.length_cons, List.take_succ_cons, List.mem_cons]
        exact Or.inr (ih l2 pr h)

theorem zipWritePos_head (x : Nat) (ys tail : List Nat) :
    ys ++ tail = [] ∨
    ((((x :: ys).zip (ys ++ tail)).map pairWritePos).flatten).head? = some x := by
  rcases h : ys ++ tail with _ | ⟨z, zs⟩
  · left; rfl
  · right
    rw [List.zip_cons_cons, List.map_cons, List.flatten_cons, pairWritePos]
    split <;> rfl

theorem zipWritePos_chain : ∀ (ys : List Nat) (x : Nat) (tail : List Nat),
    List.Chain' (· < ·) (x :: (ys ++ tail)) →
    List.Chain' (· < ·) ((((x :: ys).zip (ys ++ tail)).map pairWritePos).flatten) ∧
    ∀ q ∈ (((x :: ys).zip (ys ++ tail)).map pairWritePos).flatten,
      ∃ pr ∈ (x :: ys).zip (ys ++ tail),
        (q = pr.1 ∨ (pr.1 + 2 < pr.2 ∧ q = pr.2 - 1)) ∧ q < pr.2 := by
  intro ys
  induction ys with
  | nil =>
    intro x tail hc
    rcases tail with _ | ⟨z, zs⟩
    · constructor
      · simp [List.zip_nil_right]
      · intro q hq
        simp [List.zip_nil_right] at hq
    · simp only [List.nil_append] at hc ⊢
      have hxz : x < z := (List.chain'_cons.mp hc).1
      constructor
      · simp only [List.zip_cons_cons, List.zip_nil_left, List.map_cons, List.map_nil,
          List.flatten_cons, List.flatten_nil, List.append_nil, pairWritePos]
        split
        · exact List.chain'_cons.mpr ⟨by omega, List.chain'_singleton _⟩
        · exact List.chain'_singleton _
      · intro q hq
        simp only [List.zip_cons_cons, List.zip_nil_left, List.map_cons, List.map_nil,
          List.flatten_cons, List.flatten_nil, List.append_nil, pairWritePos] at hq
        refine ⟨(x, z), by simp, ?_⟩
        split at hq <;> simp only [List.mem_cons, List.mem_singleton] at hq
        · rcases hq with hq | hq | hq
          · subst hq; exact ⟨Or.inl rfl, hxz⟩
          · subst hq; refine ⟨Or.inr ⟨by omega, rfl⟩, by omega⟩
          · cases hq
        · rcases hq with hq | hq
          · subst hq; exact ⟨Or.inl rfl, hxz⟩
          · cases hq
  | cons y ys ih =>
    intro x tail hc
    have hc1 : List.Chain' (· < ·) (x :: y :: (ys ++ tail)) := by simpa using hc
    have hxy : x < y := (List.chain'_cons.mp hc1).1
    have hc2 : List.Chain' (· < ·) (y :: (ys ++ tail)) := (List.chain'_cons.mp hc1).2
    obtain ⟨ihc, ihb⟩ := ih y tail hc2
    have hzip : (x :: y :: ys).zip ((y :: ys) ++ tail) =
        (x, y) :: (y :: ys).zip (ys ++ tail) := by
      simp [List.zip_cons_cons]
    constructor
    · rw [hzip, List.map_cons, List.flatten_cons, List.chain'_append]
      refine ⟨?_, ihc, ?_⟩
      · rw [pairWritePos]
        split
        · exact List.chain'_cons.mpr ⟨by omega, List.chain'_singleton _⟩
        · exact List.chain'_singleton _
      · intro a ha z hz
        rcases zipWritePos_head y ys tail with hemp | hhead
        · rw [hemp] at hz
          simp [List.zip_nil_right] at hz
        · rw [hhead] at hz
          simp only [Option.mem_def, Option.some.injEq] at hz
          subst hz
          rw [pairWritePos] at ha
          split at ha <;> simp only [List.getLast?_cons_cons, List.getLast?_singleton,
            Option.mem_def, Option.some.injEq] at ha <;> subst ha
          · omega
          · exact hxy
    · intro q hq
      rw [hzip, List.map_cons, List.flatten_cons] at hq
      rcases List.mem_append.mp hq with hq | hq
      · rw [pairWritePos] at hq
        refine ⟨(x, y), by rw [hzip]; simp, ?_⟩
        split at hq <;> simp only [List.mem_cons, List.mem_singleton] at hq
        · rcases hq with hq | hq | hq
          · subst hq; exact ⟨Or.inl rfl, hxy⟩
          · subst hq; refine ⟨Or.inr ⟨by omega, rfl⟩, by omega⟩
          · cases hq
        · rcases hq with hq | hq
          · subst hq; exact ⟨Or.inl rfl, hxy⟩
          · cases hq
      · obtain ⟨pr, hpr, hfacts⟩ := ihb q hq
        refine ⟨pr, ?_, hfacts⟩
        rw [hzip]
        exact List.mem_cons_of_mem _ hpr

theorem writePositions_eq (b : ConditionalBlock) :
    writePositions b = ((branchPairs b).map pairWritePos).flatten ++
      (match b.else_iterator with
       | some e => if e + 1 < b.endif_iterator then [e, b.endif_iterator - 1] else [e]
       | none => []) := by
  rw [writePositions, blockWrites, List.map_append]
  congr 1
  · rw [List.map_flatten, List.map_map]
    congr 1
    apply List.map_congr_left
    intro pr _
    simp only [Function.comp]
    rw [pairWritePos]
    split <;> rfl
  · rcases b.else_iterator with _ | e
    · rfl
    · simp only []
      split <;> rfl

theorem branchPairs_zip (b : ConditionalBlock) :
    branchPairs b = (b.openPos :: b.elsif_iterators).zip
      (b.elsif_iterators ++ (b.else_iterator.toList ++ [b.endif_iterator])) := by
  rw [branchPairs, List.append_assoc]

theorem chain_pairsPart (b : ConditionalBlock)
    (hord : List.Chain' (· < ·) (blockChain b)) :
    List.Chain' (· < ·) (((branchPairs b).map pairWritePos).flatten) := by
  rw [branchPairs_zip]
  exact (zipWritePos_chain b.elsif_iterators b.openPos
    (b.else_iterator.toList ++ [b.endif_iterator])
    (by rw [blockChain, List.append_assoc] at hord; exact hord)).1

theorem pairsPart_bound (b : ConditionalBlock)
    (hord : List.Chain' (· < ·) (blockChain b)) :
    ∀ q ∈ ((branchPairs b).map pairWritePos).flatten,
      ∃ pr ∈ branchPairs b, (q = pr.1 ∨ (pr.1 + 2 < pr.2 ∧ q = pr.2 - 1)) ∧ q < pr.2 := by
  intro q hq
  rw [branchPairs_zip] at hq
  obtain ⟨pr, hpr, hfacts⟩ := (zipWritePos_chain b.elsif_iterators b.openPos
    (b.else_iterator.toList ++ [b.endif_iterator])
    (by rw [blockChain, List.append_assoc] at hord; exact hord)).2 q hq
  exact ⟨pr, by rw [branchPairs_zip]; exact hpr, hfacts⟩

theorem chain_pairwise (b : ConditionalBlock)
    (hord : List.Chain' (· < ·) (blockChain b)) :
    (blockChain b).Pairwise (· < ·) := List.chain'_iff_pairwise.mp hord

theorem branchPairs_snd_le_else (b : ConditionalBlock) (e : Nat)
    (hel : b.else_iterator = some e) (hord : List.Chain' (· < ·) (blockChain b)) :
    ∀ pr ∈ branchPairs b, pr.2 ≤ e := by
  intro pr hpr
  rw [branchPairs_zip] at hpr
  have hsnd := mem_zip_snd_take _ _ _ hpr
  rw [hel] at hsnd
  simp only [Option.toList_some, List.length_cons] at hsnd
  have htake : (b.elsif_iterators ++ ([e] ++ [b.endif_iterator])).take
      (b.elsif_iterators.length + 1) = b.elsif_iterators ++ [e] := by
    rw [show b.elsif_iterators ++ ([e] ++ [b.endif_iterator]) =
        (b.elsif_iterators ++ [e]) ++ [b.endif_iterator] from by simp,
      show b.elsif_iterators.length + 1 = (b.elsif_iterators ++ [e]).length from by simp]
    exact List.take_left _ _
  rw [htake] at hsnd
  have hpw := chain_pairwise b hord
  rw [blockChain, hel] at hpw
  simp only [Option.toList_some, List.pairwise_cons] at hpw
  rcases List.mem_append.mp hsnd with h | h
  · have : (b.elsif_iterators ++ [e] ++ [b.endif_iterator]).Pairwise (· < ·) := hpw.2
    rw [List.pairwise_append] at this
    have h2 := (this.1)
    rw [List.pairwise_append] at h2
    exact Nat.le_of_lt (h2.2.2 pr.2 h e (by simp))
  · simp only [List.mem_singleton] at h
    omega

theorem writePositions_chain (b : ConditionalBlock)
    (hord : List.Chain' (· < ·) (blockChain b)) :
    List.Chain' (· < ·) (writePositions b) := by
  rcases hel : b.else_iterator with _ | e
  · rw [writePositions_eq, hel]
    simp only [List.append_nil]
    exact chain_pairsPart b hord
  · rw [writePositions_eq, hel]
    simp only []
    rw [List.chain'_append]
    refine ⟨chain_pairsPart b hord, ?_, ?_⟩
    · split
      · refine List.chain'_cons.mpr ⟨?_, List.chain'_singleton _⟩
        omega
      · exact List.chain'_singleton _
    · intro a ha z hz
      have hlt : a < e := by
        have hmem := List.mem_of_mem_getLast? ha
        obtain ⟨pr, hpr, _, hbound⟩ := pairsPart_bound b hord a hmem
        have := branchPairs_snd_le_else b e hel hord pr hpr
        omega
      have hz2 : e ≤ z := by
        split at hz <;> simp only [List.head?_cons, Option.mem_def,
          Option.some.injEq] at hz <;> omega
      omega

theorem writePositions_nodup (b : ConditionalBlock)
    (hord : List.Chain' (· < ·) (blockChain b)) :
    (writePositions b).Nodup :=
  (List.chain'_iff_pairwise.mp (writePositions_chain b hord)).imp Nat.ne_of_lt

theorem writePositions_cases (b : ConditionalBlock) (q : Nat)
    (hord : List.Chain' (· < ·) (blockChain b)) (h : q ∈ writePositions b) :
    q ∈ b.openPos :: b.elsif_iterators ∨
    (∃ y ∈ chainTail b, q + 1 = y) ∨
    b.else_iterator = some q := by
  rw [writePositions_eq] at h
  rcases List.mem_append.mp h with h | h
  · obtain ⟨pr, hpr, hcase, _⟩ := pairsPart_bound b hord q h
    rcases hcase with hc | ⟨harm, hc⟩
    · left
      subst hc
      rw [branchPairs_zip] at hpr
      exact (List.of_mem_zip hpr).1
    · right; left
      refine ⟨pr.2, ?_, by omega⟩
      rw [branchPairs_zip] at hpr
      have := (List.of_mem_zip hpr).2
      rw [chainTail, List.append_assoc]
      exact this
  · rcases hel : b.else_iterator with _ | e
    · rw [hel] at h
      simp only [] at h
      cases h
    · rw [hel] at h
      simp only [] at h
      split at h <;> simp only [List.mem_cons, List.mem_singleton,
        List.not_mem_nil, or_false] at h
      · rcases h with h | h
        · subst h; right; right; exact rfl
        · right; left
          refine ⟨b.endif_iterator, ?_, by omega⟩
          rw [chainTail]
          simp
      · subst h; right; right; exact rfl

theorem chainTail_sub_chain (b : ConditionalBlock) (y : Nat) (hy : y ∈ chainTail b) :
    y ∈ blockChain b := by
  rw [chainTail] at hy
  rw [blockChain]
  simp only [List.mem_cons]
  exact Or.inr hy

theorem branchPoint_sub_chain (b : ConditionalBlock) (q : Nat)
    (hq : q ∈ b.openPos :: b.elsif_iterators) : q ∈ blockChain b := by
  rw [blockChain]
  simp only [List.mem_cons] at hq ⊢
  rcases hq with hq | hq
  · exact Or.inl hq
  · right
    simp [hq]

theorem else_sub_chain (b : ConditionalBlock) (q : Nat) (hq : b.else_iterator = some q) :
    q ∈ blockChain b := by
  rw [blockChain]
  simp [hq]

theorem branchPoint_tok (toks : List Tok) (b : ConditionalBlock) (hb : BlockInv toks b)
    (q : Nat) (hq : q ∈ b.openPos :: b.elsif_iterators) :
    ∃ t, toks[q]? = some t ∧ t.IsConditional = true := by
  obtain ⟨hopen, helsifs, _, _, _⟩ := hb
  rcases List.mem_cons.mp hq with hq | hq
  · subst hq
    refine ⟨_, hopen, ?_⟩
    rcases b.openIsIfndef with _ | _ <;> simp [Tok.IsConditional]
  · exact ⟨_, helsifs q hq, rfl⟩

theorem chainTail_tok (toks : List Tok) (b : ConditionalBlock) (hb : BlockInv toks b)
    (y : Nat) (hy : y ∈ chainTail b) :
    toks[y]? = some .PP_elsif ∨ toks[y]? = some .PP_else ∨ toks[y]? = some .PP_endif := by
  obtain ⟨_, helsifs, helses, hendif, _⟩ := hb
  rw [chainTail] at hy
  rcases List.mem_append.mp hy with hy | hy
  · rcases List.mem_append.mp hy with hy | hy
    · exact Or.inl (helsifs y hy)
    · exact Or.inr (Or.inl (helses y hy))
  · simp only [List.mem_singleton] at hy
    subst hy
    exact Or.inr (Or.inr hendif)

theorem cross_A_B (toks : List Tok) (b b2 : ConditionalBlock)
    (hb : BlockInv toks b) (hb2 : BlockInv toks b2)
    (hident : ∀ q t, toks[q]? = some t → t.IsConditional = true →
      ∃ nm, toks[q + 1]? = some (Tok.PP_Identifier nm))
    (q : Nat) (hA : q ∈ b.openPos :: b.elsif_iterators)
    (hB : ∃ y ∈ chainTail b2, q + 1 = y) : False := by
  obtain ⟨t, htok, hcond⟩ := branchPoint_tok toks b hb q hA
  obtain ⟨nm, hnm⟩ := hident q t htok hcond
  obtain ⟨y, hy, hqy⟩ := hB
  subst hqy
  rcases chainTail_tok toks b2 hb2 _ hy with h | h | h <;> rw [hnm] at h <;> cases h

theorem cross_C_B (toks : List Tok) (b b2 : ConditionalBlock)
    (hb2 : BlockInv toks b2)
    (hdisj : List.Disjoint (blockChain b) (blockChain b2))
    (helse : ∀ e, b.else_iterator = some e →
      toks[e + 1]? ≠ some .PP_elsif ∧ toks[e + 1]? ≠ some .PP_else ∧
      (toks[e + 1]? = some .PP_endif → b.endif_iterator = e + 1))
    (q : Nat) (hC : b.else_iterator = some q)
    (hB : ∃ y ∈ chainTail b2, q + 1 = y) : False := by
  obtain ⟨y, hy, hqy⟩ := hB
  subst hqy
  obtain ⟨hne1, hne2, hend⟩ := helse q hC
  rcases chainTail_tok toks b2 hb2 _ hy with h | h | h
  · exact hne1 h
  · exact hne2 h
  · have hq1 : b.endif_iterator = q + 1 := hend h
    refine hdisj ?_ (chainTail_sub_chain b2 _ hy)
    rw [← hq1]
    rw [blockChain]
    simp [chainTail]

theorem writePositions_disjoint (toks : List Tok) (b b2 : ConditionalBlock)
    (hb : BlockInv toks b) (hb2 : BlockInv toks b2)
    (hdisj : List.Disjoint (blockChain b) (blockChain b2))
    (hident : ∀ q t, toks[q]? = some t → t.IsConditional = true →
      ∃ nm, toks[q + 1]? = some (Tok.PP_Identifier nm))
    (helse1 : ∀ e, b.else_iterator = some e →
      toks[e + 1]? ≠ some .PP_elsif ∧ toks[e + 1]? ≠ some .PP_else ∧
      (toks[e + 1]? = some .PP_endif → b.endif_iterator = e + 1))
    (helse2 : ∀ e, b2.else_iterator = some e →
      toks[e + 1]? ≠ some .PP_elsif ∧ toks[e + 1]? ≠ some .PP_else ∧
      (toks[e + 1]? = some .PP_endif → b2.endif_iterator = e + 1)) :
    List.Disjoint (writePositions b) (writePositions b2) := by
  intro q hq hq2
  have hord : List.Chain' (· < ·) (blockChain b) := hb.2.2.2.2
  have hord2 : List.Chain' (· < ·) (blockChain b2) := hb2.2.2.2.2
  rcases writePositions_cases b q hord hq with hX | hX | hX <;>
    rcases writePositions_cases b2 q hord2 hq2 with hY | hY | hY
  · exact hdisj (branchPoint_sub_chain b q hX) (branchPoint_sub_chain b2 q hY)
  · exact cross_A_B toks b b2 hb hb2 hident q hX hY
  · exact hdisj (branchPoint_sub_chain b q hX) (else_sub_chain b2 q hY)
  · exact cross_A_B toks b2 b hb2 hb hident q hY hX
  · obtain ⟨y, hy, hqy⟩ := hX
    obtain ⟨y2, hy2, hqy2⟩ := hY
    refine hdisj (chainTail_sub_chain b y hy) ?_
    rw [show y = y2 from by omega]
    exact chainTail_sub_chain b2 y2 hy2
  · exact cross_C_B toks b2 b hb (List.Disjoint.symm hdisj) helse2 q hY hX
  · exact hdisj (else_sub_chain b q hX) (branchPoint_sub_chain b2 q hY)
  · exact cross_C_B toks b b2 hb2 hdisj helse1 q hX hY
  · exact hdisj (else_sub_chain b q hX) (else_sub_chain b2 q hY)

theorem scan_done_subset : ∀ (rest : List Tok) (pos : Nat) (stack : List OpenBlock)
    (done bl : List ConditionalBlock) (reg regF : Registry),
    scanBlocks rest pos stack done reg = .ok (bl, regF) →
    ∀ b ∈ done, b ∈ bl := by
  intro rest
  induction rest with
  | nil =>
    intro pos stack done bl reg regF h b hb
    simp only [scanBlocks] at h
    by_cases hs : stack.isEmpty
    · rw [if_pos hs] at h
      injection h with h
      injection h with h1 h2
      rw [← h1]
      exact hb
    · rw [if_neg hs] at h; cases h
  | cons t rest ih =>
    intro pos stack done bl reg regF h b hb
    cases t with
    | other p =>
      simp only [scanBlocks] at h
      exact ih (pos + 1) stack done bl _ regF h b hb
    | PP_Identifier nm =>
      simp only [scanBlocks] at h
      exact ih (pos + 1) stack done bl _ regF h b hb
    | PP_ifdef =>
      simp only [scanBlocks] at h
      rcases hh : rest.head? with _ | t2 <;> rw [hh] at h
      · cases h
      · match t2 with
        | .PP_Identifier nm =>
          simp only [] at h
          rcases hif : reg.idFor nm with e | ⟨reg2, i⟩ <;> rw [hif] at h
          · cases h
          · exact ih (pos + 1) _ done bl reg2 regF h b hb
        | .other p => cases h
        | .PP_ifdef => cases h
        | .PP_ifndef => cases h
        | .PP_elsif => cases h
        | .PP_else => cases h
        | .PP_endif => cases h
    | PP_ifndef =>
      simp only [scanBlocks] at h
      rcases hh : rest.head? with _ | t2 <;> rw [hh] at h
      · cases h
      · match t2 with
        | .PP_Identifier nm =>
          simp only [] at h
          rcases hif : reg.idFor nm with e | ⟨reg2, i⟩ <;> rw [hif] at h
          · cases h
          · exact ih (pos + 1) _ done bl reg2 regF h b hb
        | .other p => cases h
        | .PP_ifdef => cases h
        | .PP_ifndef => cases h
        | .PP_elsif => cases h
        | .PP_else => cases h
        | .PP_endif => cases h
    | PP_elsif =>
      simp only [scanBlocks] at h
      match stack with
      | [] => cases h
      | top :: stk =>
        simp only [] at h
        by_cases he : top.else_iterator.isSome
        · rw [if_pos he] at h; cases h
        · rw [if_neg he] at h
          rcases hh : rest.head? with _ | t2 <;> rw [hh] at h
          · cases h
          · match t2 with
            | .PP_Identifier nm =>
              simp only [] at h
              rcases hif : reg.idFor nm with e | ⟨reg2, i⟩ <;> rw [hif] at h
              · cases h
              · exact ih (pos + 1) _ done bl reg2 regF h b hb
            | .other p => cases h
            | .PP_ifdef => cases h
            | .PP_ifndef => cases h
            | .PP_elsif => cases h
            | .PP_else => cases h
            | .PP_endif => cases h
    | PP_else =>
      simp only [scanBlocks] at h
      match stack with
      | [] => cases h
      | top :: stk =>
        simp only [] at h
        by_cases he : top.else_iterator.isSome
        · rw [if_pos he] at h; cases h
        · rw [if_neg he] at h
          exact ih (pos + 1) _ done bl reg regF h b hb
    | PP_endif =>
      simp only [scanBlocks] at h
      match stack with
      | [] => cases h
      | top :: stk =>
        simp only [] at h
        exact ih (pos + 1) stk _ bl reg regF h b (by simp [hb])

theorem perm_insert_middle (A B C D : List Nat) (pos : Nat)
    (h : List.Perm B (pos :: C)) :
    List.Perm (A ++ (B ++ D)) (pos :: (A ++ (C ++ D))) :=
  (List.Perm.append_left A (List.Perm.append_right D h)).trans List.perm_middle

theorem cons_snoc_perm (a : Nat) (l : List Nat) (pos : Nat) :
    List.Perm (a :: (l ++ [pos])) (pos :: (a :: l)) :=
  (List.Perm.cons a (List.perm_append_singleton pos l)).trans (List.Perm.swap pos a l)

theorem scan_allRecorded : ∀ (rest : List Tok) (pos : Nat) (stack : List OpenBlock)
    (done bl : List ConditionalBlock) (reg regF : Registry),
    scanBlocks rest pos stack done reg = .ok (bl, regF) →
    (allRecorded stack done).Nodup →
    (∀ q ∈ allRecorded stack done, q < pos) →
    ((bl.map blockChain).flatten).Nodup := by
  intro rest
  induction rest with
  | nil =>
    intro pos stack done bl reg regF h hnd hlt
    simp only [scanBlocks] at h
    by_cases hs : stack.isEmpty
    · rw [if_pos hs] at h
      injection h with h
      injection h with h1 h2
      have hstack : stack = [] := List.isEmpty_iff.mp hs
      subst hstack
      rw [← h1]
      rw [allRecorded] at hnd
      simpa using hnd
    · rw [if_neg hs] at h; cases h
  | cons t rest ih =>
    intro pos stack done bl reg regF h hnd hlt
    cases t with
    | other p =>
      simp only [scanBlocks] at h
      exact ih (pos + 1) stack done bl _ regF h hnd
        (fun q hq => Nat.lt_succ_of_lt (hlt q hq))
    | PP_Identifier nm =>
      simp only [scanBlocks] at h
      exact ih (pos + 1) stack done bl _ regF h hnd
        (fun q hq => Nat.lt_succ_of_lt (hlt q hq))
    | PP_ifdef =>
      simp only [scanBlocks] at h
      rcases hh : rest.head? with _ | t2 <;> rw [hh] at h
      · cases h
      · match t2 with
        | .PP_Identifier nm =>
          simp only [] at h
          rcases hif : reg.idFor nm with e | ⟨reg2, i⟩ <;> rw [hif] at h
          · cases h
          · refine ih (pos + 1) _ done bl reg2 regF h ?_ ?_
            · have hperm : List.Perm (allRecorded (⟨pos, false, [], none⟩ :: stack) done)
                  (pos :: allRecorded stack done) := by
                rw [allRecorded, allRecorded, List.map_cons, List.flatten_cons]
                exact perm_insert_middle _ _ [] _ pos (by rw [openList]; simp)
              rw [hperm.nodup_iff]
              exact List.nodup_cons.mpr ⟨fun hmem => Nat.lt_irrefl pos (hlt pos hmem), hnd⟩
            · intro q hq
              have hperm : List.Perm (allRecorded (⟨pos, false, [], none⟩ :: stack) done)
                  (pos :: allRecorded stack done) := by
                rw [allRecorded, allRecorded, List.map_cons, List.flatten_cons]
                exact perm_insert_middle _ _ [] _ pos (by rw [openList]; simp)
              rcases List.mem_cons.mp (hperm.mem_iff.mp hq) with hq2 | hq2
              · omega
              · exact Nat.lt_succ_of_lt (hlt q hq2)
        | .other p => cases h
        | .PP_ifdef => cases h
        | .PP_ifndef => cases h
        | .PP_elsif => cases h
        | .PP_else => cases h
        | .PP_endif => cases h
    | PP_ifndef =>
      simp only [scanBlocks] at h
      rcases hh : rest.head? with _ | t2 <;> rw [hh] at h
      · cases h
      · match t2 with
        | .PP_Identifier nm =>
          simp only [] at h
          rcases hif : reg.idFor nm with e | ⟨reg2, i⟩ <;> rw [hif] at h
          · cases h
          · refine ih (pos + 1) _ done bl reg2 regF h ?_ ?_
            · have hperm : List.Perm (allRecorded (⟨pos, true, [], none⟩ :: stack) done)
                  (pos :: allRecorded stack done) := by
                rw [allRecorded, allRecorded, List.map_cons, List.flatten_cons]
                exact perm_insert_middle _ _ [] _ pos (by rw [openList]; simp)
              rw [hperm.nodup_iff]
              exact List.nodup_cons.mpr ⟨fun hmem => Nat.lt_irrefl pos (hlt pos hmem), hnd⟩
            · intro q hq
              have hperm : List.Perm (allRecorded (⟨pos, true, [], none⟩ :: stack) done)
                  (pos :: allRecorded stack done) := by
                rw [allRecorded, allRecorded, List.map_cons, List.flatten_cons]
                exact perm_insert_middle _ _ [] _ pos (by rw [openList]; simp)
              rcases List.mem_cons.mp (hperm.mem_iff.mp hq) with hq2 | hq2
              · omega
              · exact Nat.lt_succ_of_lt (hlt q hq2)
        | .other p => cases h
        | .PP_ifdef => cases h
        | .PP_ifndef => cases h
        | .PP_elsif => cases h
        | .PP_else => cases h
        | .PP_endif => cases h
    | PP_elsif =>
      simp only [scanBlocks] at h
      match stack with
      | [] => cases h
      | top :: stk =>
        simp only [] at h
        by_cases he : top.else_iterator.isSome
        · rw [if_pos he] at h; cases h
        · rw [if_neg he] at h
          rcases hh : rest.head? with _ | t2 <;> rw [hh] at h
          · cases h
          · match t2 with
            | .PP_Identifier nm =>
              simp only [] at h
              rcases hif : reg.idFor nm with e | ⟨reg2, i⟩ <;> rw [hif] at h
              · cases h
              · have helse : top.else_iterator = none := by
                  rcases hv : top.else_iterator with _ | v
                  · rfl
                  · rw [hv] at he; simp at he
                have hperm : List.Perm
                    (allRecorded ({ top with elsif_iterators :=
                      top.elsif_iterators ++ [pos] } :: stk) done)
                    (pos :: allRecorded (top :: stk) done) := by
                  rw [allRecorded, allRecorded, List.map_cons, List.flatten_cons,
                    List.map_cons, List.flatten_cons]
                  refine perm_insert_middle _ _ (openList top) _ pos ?_
                  rw [openList, openList, helse]
                  simp only [Option.toList_none, List.append_nil]
                  exact cons_snoc_perm top.openPos top.elsif_iterators pos
                refine ih (pos + 1) _ done bl reg2 regF h ?_ ?_
                · rw [hperm.nodup_iff]
                  exact List.nodup_cons.mpr
                    ⟨fun hmem => Nat.lt_irrefl pos (hlt pos hmem), hnd⟩
                · intro q hq
                  rcases List.mem_cons.mp (hperm.mem_iff.mp hq) with hq2 | hq2
                  · omega
                  · exact Nat.lt_succ_of_lt (hlt q hq2)
            | .other p => cases h
            | .PP_ifdef => cases h
            | .PP_ifndef => cases h
            | .PP_elsif => cases h
            | .PP_else => cases h
            | .PP_endif => cases h
    | PP_else =>
      simp only [scanBlocks] at h
      match stack with
      | [] => cases h
      | top :: stk =>
        simp only [] at h
        by_cases he : top.else_iterator.isSome
        · rw [if_pos he] at h; cases h
        · rw [if_neg he] at h
          have helse : top.else_iterator = none := by
            rcases hv : top.else_iterator with _ | v
            · rfl
            · rw [hv] at he; simp at he
          have hperm : List.Perm
              (allRecorded ({ top with else_iterator := some pos } :: stk) done)
              (pos :: allRecorded (top :: stk) done) := by
            rw [allRecorded, allRecorded, List.map_cons, List.flatten_cons,
              List.map_cons, List.flatten_cons]
            refine perm_insert_middle _ _ (openList top) _ pos ?_
            rw [openList, openList, helse]
            simp only [Option.toList_none, List.append_nil, Option.toList_some]
            exact cons_snoc_perm top.openPos top.elsif_iterators pos
          refine ih (pos + 1) _ done bl reg regF h ?_ ?_
          · rw [hperm.nodup_iff]
            exact List.nodup_cons.mpr ⟨fun hmem => Nat.lt_irrefl pos (hlt pos hmem), hnd⟩
          · intro q hq
            rcases List.mem_cons.mp (hperm.mem_iff.mp hq) with hq2 | hq2
            · omega
            · exact Nat.lt_succ_of_lt (hlt q hq2)
    | PP_endif =>
      simp only [scanBlocks] at h
      match stack with
      | [] => cases h
      | top :: stk =>
        simp only [] at h
        have hperm : List.Perm
            (allRecorded stk (done ++ [⟨top.openPos, top.openIsIfndef,
              top.elsif_iterators, top.else_iterator, pos⟩]))
            (pos :: allRecorded (top :: stk) done) := by
          rw [allRecorded, allRecorded]
          simp only [List.map_append, List.flatten_append, List.map_cons,
            List.flatten_cons, List.map_nil, List.flatten_nil, List.append_nil]
          rw [List.append_assoc]
          refine perm_insert_middle _ _ (openList top) _ pos ?_
          rw [blockChain, openList]
          exact cons_snoc_perm top.openPos (top.elsif_iterators ++ top.else_iterator.toList) pos
        refine ih (pos + 1) stk _ bl reg regF h ?_ ?_
        · rw [hperm.nodup_iff]
          exact List.nodup_cons.mpr ⟨fun hmem => Nat.lt_irrefl pos (hlt pos hmem), hnd⟩
        · intro q hq
          rcases List.mem_cons.mp (hperm.mem_iff.mp hq) with hq2 | hq2
          · omega
          · exact Nat.lt_succ_of_lt (hlt q hq2)

theorem scan_else_next : ∀ (rest : List Tok) (pos : Nat) (stack : List OpenBlock)
    (done bl : List ConditionalBlock) (reg regF : Registry),
    scanBlocks rest pos stack done reg = .ok (bl, regF) →
    ∀ i, rest[i]? = some .PP_else →
      rest[i + 1]? ≠ some .PP_elsif ∧ rest[i + 1]? ≠ some .PP_else ∧
      (rest[i + 1]? = some .PP_endif →
        ∃ b ∈ bl, b.else_iterator = some (pos + i) ∧ b.endif_iterator = pos + i + 1) := by
  intro rest
  induction rest with
  | nil => intro pos stack done bl reg regF h i hi; cases hi
  | cons t rest ih =>
    intro pos stack done bl reg regF h i hi
    match i, hi with
    | 0, hi =>
      rw [List.getElem?_cons_zero] at hi
      injection hi with hi
      subst hi
      simp only [scanBlocks] at h
      match stack, h with
      | [], h => cases h
      | top :: stk, h =>
        simp only [] at h
        by_cases he : top.else_iterator.isSome
        · rw [if_pos he] at h; cases h
        · rw [if_neg he] at h
          match rest, h with
          | [], h => exact ⟨by simp, by simp, by simp⟩
          | u :: rest2, h =>
            cases u with
            | PP_elsif =>
              exfalso
              simp [scanBlocks] at h
            | PP_else =>
              exfalso
              simp [scanBlocks] at h
            | PP_endif =>
              refine ⟨by simp, by simp, fun _ => ?_⟩
              simp only [scanBlocks] at h
              refine ⟨⟨top.openPos, top.openIsIfndef, top.elsif_iterators,
                  some pos, pos + 1⟩,
                scan_done_subset rest2 (pos + 2) stk _ bl reg regF h _ (by simp),
                by simp, by simp⟩
            | other p => exact ⟨by simp, by simp, by simp⟩
            | PP_Identifier nm => exact ⟨by simp, by simp, by simp⟩
            | PP_ifdef => exact ⟨by simp, by simp, by simp⟩
            | PP_ifndef => exact ⟨by simp, by simp, by simp⟩
    | i + 1, hi =>
      rw [List.getElem?_cons_succ] at hi
      obtain ⟨stack2, done2, reg2, h2, _, _, _⟩ :=
        scan_cons_inv t rest pos stack done bl reg regF h
      obtain ⟨c1, c2, c3⟩ := ih (pos + 1) stack2 done2 bl reg2 regF h2 i hi
      refine ⟨by simpa using c1, by simpa using c2, ?_⟩
      intro hnext
      obtain ⟨b, hb, hbe, hbend⟩ := c3 (by simpa using hnext)
      refine ⟨b, hb, ?_, by omega⟩
      rw [hbe]
      congr 1
      omega

theorem blockWrites_mem_pair (b : ConditionalBlock) (pr : Nat × Nat)
    (hpr : pr ∈ branchPairs b) :
    (pr.1 + 2 < pr.2 → ((pr.1, ([pr.1 + 2, pr.2] : List Nat)) ∈ blockWrites b ∧
      (pr.2 - 1, ([b.endif_iterator + 1] : List Nat)) ∈ blockWrites b)) ∧
    (¬ pr.1 + 2 < pr.2 →
      (pr.1, ([b.endif_iterator + 1, pr.2] : List Nat)) ∈ blockWrites b) := by
  rw [blockWrites]
  constructor
  · intro harm
    constructor <;>
      · refine List.mem_append.mpr (Or.inl ?_)
        rw [List.mem_flatten]
        refine ⟨_, List.mem_map.mpr ⟨pr, hpr, rfl⟩, ?_⟩
        rw [if_pos harm]
        simp
  · intro harm
    refine List.mem_append.mpr (Or.inl ?_)
    rw [List.mem_flatten]
    refine ⟨_, List.mem_map.mpr ⟨pr, hpr, rfl⟩, ?_⟩
    rw [if_neg harm]
    simp

theorem blockWrites_mem_else (b : ConditionalBlock) (e : Nat)
    (he : b.else_iterator = some e) :
    (e + 1 < b.endif_iterator → ((e, ([e + 1] : List Nat)) ∈ blockWrites b ∧
      (b.endif_iterator - 1, ([b.endif_iterator + 1] : List Nat)) ∈ blockWrites b)) ∧
    (¬ e + 1 < b.endif_iterator →
      (e, ([b.endif_iterator + 1] : List Nat)) ∈ blockWrites b) := by
  rw [blockWrites, he]
  constructor
  · intro harm
    constructor <;>
      · refine List.mem_append.mpr (Or.inr ?_)
        simp only []
        rw [if_pos harm]
        simp
  · intro harm
    refine List.mem_append.mpr (Or.inr ?_)
    simp only []
    rw [if_neg harm]
    simp

/-- C7: after graph construction the successor map is exactly as
specified: each opening or alternative-branch directive has two
successors, its branch-body entry first and the next alternative (or the
closing directive if none) second, with the entry rewired to the
post-close token when its branch body is empty; the last token of a
nonempty branch body points at the post-close token; the final-alternative
directive has the single successor right after it (or the post-close token
when its body is empty); and every position no block writes keeps its
default single successor, the lexically next token. -/
theorem C7_edge_map_characterization (toks : List Tok)
    (blocks : List ConditionalBlock) (reg : Registry) (E : Nat → List Nat)
    (h : GenerateControlFlowTree toks = .ok (blocks, reg, E)) :
    (∀ b ∈ blocks, ∀ pr ∈ branchPairs b,
        (pr.1 + 2 < pr.2 → E pr.1 = [pr.1 + 2, pr.2] ∧
          E (pr.2 - 1) = [b.endif_iterator + 1]) ∧
        (¬ pr.1 + 2 < pr.2 → E pr.1 = [b.endif_iterator + 1, pr.2])) ∧
    (∀ b ∈ blocks, ∀ e, b.else_iterator = some e →
        (e + 1 < b.endif_iterator → E e = [e + 1] ∧
          E (b.endif_iterator - 1) = [b.endif_iterator + 1]) ∧
        (¬ e + 1 < b.endif_iterator → E e = [b.endif_iterator + 1])) ∧
    (∀ p, p < toks.length → (∀ b ∈ blocks, p ∉ writePositions b) → E p = [p + 1]) := by
  obtain ⟨hscan, hEeq⟩ := GCFT_ok_inv toks blocks reg E h
  have hblocks : ∀ b ∈ blocks, BlockInv toks b :=
    scan_blocks_inv toks toks 0 [] [] blocks ⟨[], 0⟩ reg hscan
      (fun i => by simp) (by simp) (by simp)
  have hident : ∀ q t, toks[q]? = some t → t.IsConditional = true →
      ∃ nm, toks[q + 1]? = some (Tok.PP_Identifier nm) := by
    intro q t ht hc
    obtain ⟨nm, hnm, _⟩ :=
      scan_conds_registered toks 0 [] [] blocks ⟨[], 0⟩ reg hscan q t ht hc
    exact ⟨nm, hnm⟩
  have hchains_nodup : ((blocks.map blockChain).flatten).Nodup :=
    scan_allRecorded toks 0 [] [] blocks ⟨[], 0⟩ reg hscan
      (by simp [allRecorded]) (by simp [allRecorded])
  have hpwch : blocks.Pairwise
      (fun a b => List.Disjoint (blockChain a) (blockChain b)) :=
    List.pairwise_map.mp (List.nodup_flatten.mp hchains_nodup).2
  have helse_fact : ∀ b ∈ blocks, ∀ e, b.else_iterator = some e →
      toks[e + 1]? ≠ some .PP_elsif ∧ toks[e + 1]? ≠ some .PP_else ∧
      (toks[e + 1]? = some .PP_endif → b.endif_iterator = e + 1) := by
    intro b hb e he
    have htokE : toks[e]? = some .PP_else := (hblocks b hb).2.2.1 e (by simp [he])
    obtain ⟨c1, c2, c3⟩ :=
      scan_else_next toks 0 [] [] blocks ⟨[], 0⟩ reg hscan e (by simpa using htokE)
    refine ⟨by simpa using c1, by simpa using c2, ?_⟩
    intro hnext
    obtain ⟨b2, hb2, hbe2, hbend2⟩ := c3 (by simpa using hnext)
    simp only [Nat.zero_add] at hbe2 hbend2
    by_cases hbb : b = b2
    · rw [hbb]
      exact hbend2
    · exfalso
      have hdisj := List.Pairwise.forall
        (fun a b hd => List.Disjoint.symm hd) hpwch hb hb2 hbb
      exact hdisj (else_sub_chain b e he) (else_sub_chain b2 e hbe2)
  have hwmap : (((blocks.map blockWrites).flatten).map Prod.fst) =
      (blocks.map writePositions).flatten := by
    rw [List.map_flatten, List.map_map]
    congr 1
  have hwp_nodup : ((((blocks.map blockWrites).flatten).map Prod.fst)).Nodup := by
    rw [hwmap, List.nodup_flatten]
    constructor
    · intro l hl
      obtain ⟨b, hb, rfl⟩ := List.mem_map.mp hl
      exact writePositions_nodup b (hblocks b hb).2.2.2.2
    · rw [List.pairwise_map]
      refine hpwch.imp_of_mem ?_
      intro a b ha hb hdisj
      exact writePositions_disjoint toks a b (hblocks a ha) (hblocks b hb) hdisj hident
        (fun e he => helse_fact a ha e he) (fun e he => helse_fact b hb e he)
  have hE2 : E = applyWrites (defaultEdges toks.length)
      ((blocks.map blockWrites).flatten) := by
    rw [hEeq, foldl_AddBlockEdges_eq_applyWrites]
  have hhit : ∀ (b : ConditionalBlock), b ∈ blocks → ∀ (w : Nat × List Nat),
      w ∈ blockWrites b → E w.1 = w.2 := by
    intro b hb w hw
    rw [hE2]
    refine applyWrites_hit _ _ w ?_ hwp_nodup
    rw [List.mem_flatten]
    exact ⟨blockWrites b, List.mem_map.mpr ⟨b, hb, rfl⟩, hw⟩
  refine ⟨?_, ?_, ?_⟩
  · intro b hb pr hpr
    obtain ⟨harm1, harm2⟩ := blockWrites_mem_pair b pr hpr
    constructor
    · intro hcond
      obtain ⟨hw1, hw2⟩ := harm1 hcond
      exact ⟨hhit b hb _ hw1, hhit b hb _ hw2⟩
    · intro hcond
      exact hhit b hb _ (harm2 hcond)
  · intro b hb e he
    obtain ⟨harm1, harm2⟩ := blockWrites_mem_else b e he
    constructor
    · intro hcond
      obtain ⟨hw1, hw2⟩ := harm1 hcond
      exact ⟨hhit b hb _ hw1, hhit b hb _ hw2⟩
    · intro hcond
      exact hhit b hb _ (harm2 hcond)
  · intro p hp hpnot
    rw [hE2]
    rw [applyWrites_miss]
    · rw [defaultEdges, if_pos hp]
    · rw [hwmap]
      intro hmem
      rw [List.mem_flatten] at hmem
      obtain ⟨l, hl, hpl⟩ := hmem
      obtain ⟨b, hb, rfl⟩ := List.mem_map.mp hl
      exact hpnot b hb hpl

/-- C7 witness: the characterization applied at the concrete input. -/
theorem C7_witness :
    C7edges 0 = [2, 3] ∧ C7edges 3 = [5, 6] ∧ C7edges 2 = [9] ∧ C7edges 5 = [9] ∧
    C7edges 6 = [7] ∧ C7edges 7 = [9] ∧ C7edges 1 = [2] := by
  have h : GenerateControlFlowTree C7toks =
      .ok ([C7block], ⟨[(2, 1), (0, 0)], 2⟩, C7edges) := rfl
  obtain ⟨ha, hb, hc⟩ := C7_edge_map_characterization C7toks _ _ _ h
  have h1 := ha C7block (by simp) (0, 3) (by decide)
  have h2 := ha C7block (by simp) (3, 6) (by decide)
  have h3 := hb C7block (by simp) 6 rfl
  refine ⟨?_, ?_, ?_, ?_, ?_, ?_, ?_⟩
  · simpa using (h1.1 (by decide)).1
  · simpa using (h2.1 (by decide)).1
  · simpa using (h1.1 (by decide)).2
  · simpa using (h2.1 (by decide)).2
  · simpa using (h3.1 (by decide)).1
  · simpa using (h3.1 (by decide)).2
  · exact hc 1 (by decide) (by decide)

end verilog
